import Mathlib

/-! HSpice binary file reader (`src/hspice_read.c`): shallow embedding

Modelling conventions.

* A byte is a `Fin 256`; the file is the list of bytes still to be read.
* `le` is the byte order of the machine running the reader (`true`: little endian). Every
  definition that turns bytes of memory into a C `int` or `float` takes it as an argument,
  so the results hold for both kinds of host.
* A C `int` is a mathematical integer in the range of 32 bits; a conversion that can leave
  that range wraps (`wrapInt32`). A `size_t` is a natural number: no list is long enough
  to overflow 64 bits.
* A C function that returns a code returns the same code here (`-1`, `0`, `1`), together
  with the memory it wrote. Undefined behaviour of the C program (division by zero,
  reading outside a buffer) is the result `none`.
* Calls into the host (memory allocation, Python object construction) can fail; whether
  they do is read from a `Host` record of oracles.
-/

namespace HSpice

abbrev Byte := Fin 256

/-- Oracles for the calls that leave the reader. -/
structure Host where
  /-- Whether `PyMem_Realloc` / `PyMem_Malloc` of the given number of bytes succeeds. -/
  alloc : Nat → Bool
  /-- Whether `PyUnicode_FromString` of the given string succeeds. -/
  unicode : List Byte → Bool
  /-- Whether `PyDict_New` succeeds. -/
  dictNew : Bool
  /-- Whether `PyArray_SimpleNew` of the given length succeeds (`true` for complex). -/
  arrayNew : Bool → Nat → Bool
  /-- Whether `PyDict_SetItemString` with the given key succeeds. -/
  dictSet : List Byte → Bool
  /-- Whether `PyList_New` succeeds. -/
  listNew : Bool
  /-- Whether `PyList_Append` succeeds. -/
  listAppend : Bool
  /-- Whether `PyTuple_Pack` succeeds. -/
  tuplePack : Bool

/-- A host on which no call fails. -/
def Host.ideal : Host :=
  { alloc := fun _ => true, unicode := fun _ => true, dictNew := true,
    arrayNew := fun _ _ => true, dictSet := fun _ => true, listNew := true,
    listAppend := true, tuplePack := true }

/-! ## Machine integers -/

/-- The value of a mathematical integer after conversion to a 32-bit `int`. -/
def wrapInt32 (z : Int) : Int := (z + 2147483648) % 4294967296 - 2147483648

/-- The unsigned value of bytes stored least significant first. -/
def leUInt : List Byte → Nat
  | [] => 0
  | b :: bs => b.val + 256 * leUInt bs

/-- The unsigned value of bytes of memory on a host of byte order `le`. -/
def hostUInt (le : Bool) (bs : List Byte) : Nat :=
  leUInt (if le then bs else bs.reverse)

/-- Two's complement reading of a 32-bit pattern. -/
def toSigned32 (u : Nat) : Int :=
  if u < 2147483648 then (u : Int) else (u : Int) - 4294967296

/-- The `int` stored in four bytes of memory. -/
def hostInt (le : Bool) (bs : List Byte) : Int := toSigned32 (hostUInt le bs)

/-- The element `a[i]` of an `int` array laid out in `mem`. -/
def intAt (le : Bool) (mem : List Byte) (i : Nat) : Int :=
  hostInt le ((mem.drop (4 * i)).take 4)

/-! ## Header character positions (the `#define`s) -/

def blockHeaderSize : Nat := 4
def numOfVariablesPosition : Nat := 0
def numOfProbesPosition : Nat := 4
def numOfSweepsPosition : Nat := 8
def numOfSweepsEndPosition : Nat := 12
def postStartPosition1 : Nat := 16
def postStartPosition2 : Nat := 20
/-- The bytes of `"9007"`. -/
def postString11 : List Byte := [57, 48, 48, 55]
/-- The bytes of `"9601"`. -/
def postString12 : List Byte := [57, 54, 48, 49]
/-- The bytes of `"2001"`. -/
def postString21 : List Byte := [50, 48, 48, 49]
def numOfPostCharacters : Nat := 4
def dateStartPosition : Nat := 88
def dateEndPosition : Nat := 112
def titleStartPosition : Nat := 24
def sweepSizePosition1 : Nat := 176
def sweepSizePosition2 : Nat := 187
def vectorDescriptionStartPosition : Nat := 256
def frequency : Int := 2
def complex_var : Int := 1
def real_var : Int := 0

/-! ## `do_swap` -/

/-- One pass of the body of the inner loop of `do_swap`:
`tmp = block[a]; block[a] = block[b]; block[b] = tmp`. -/
def swapBytes (block : List Byte) (a b : Nat) : List Byte :=
  let tmp := block.getD a 0
  (block.set a (block.getD b 0)).set b tmp

/-- The inner loop of `do_swap` on the item that starts at `base`:
`for(j = 0; j < itemSize / 2; j++)` swap `block[j]` and `block[itemSize - j - 1]`. -/
def do_swap_item (block : List Byte) (base itemSize : Nat) : List Byte :=
  (List.range (itemSize / 2)).foldl
    (fun blk j => swapBytes blk (base + j) (base + (itemSize - j - 1))) block

/-- Endian swap of an array of `size` numbers of `itemSize` bytes each, in place:
`for(i = 0; i < size; i++)`, the inner loop, then `block = block + itemSize`. -/
def do_swap (block : List Byte) (size itemSize : Nat) : List Byte :=
  (List.range size).foldl (fun blk i => do_swap_item blk (i * itemSize) itemSize) block

/-! ## The byte reader -/

/-- The call `fread(ptr, itemSize, n, f)`: the number of complete items read, their bytes,
and the stream that is left. -/
def fread (f : List Byte) (itemSize n : Nat) : Nat × List Byte × List Byte :=
  let k := min n (f.length / itemSize)
  (k, f.take (k * itemSize), f.drop (k * itemSize))

/-! ## The block codec -/

/-- What `readBlockHeader` leaves behind: the code it returns, the four integers of
`blockHeader` as the caller sees them afterwards, and the stream. -/
structure HeaderRead where
  swap : Int
  blockHeader : List Int
  f : List Byte
deriving DecidableEq, Repr

/-- Read a block header: `-1` corrupted, `0` no endian swap, `1` endian swap performed.
`none` is the undefined division `blockHeader[3] / size`. -/
def readBlockHeader (le : Bool) (f : List Byte) (size : Int) : Option HeaderRead :=
  let r := fread f 4 blockHeaderSize
  if r.1 ≠ blockHeaderSize then some ⟨-1, [], r.2.2⟩
  else
    let mem := r.2.1
    let swap : Int :=
      if intAt le mem 0 = 0x00000004 ∧ intAt le mem 2 = 0x00000004 then 0
      else if intAt le mem 0 = 0x04000000 ∧ intAt le mem 2 = 0x04000000 then 1
      else -1
    if swap = -1 then some ⟨-1, [intAt le mem 0, intAt le mem 1, intAt le mem 2, intAt le mem 3],
      r.2.2⟩
    else
      let mem := if swap = 1 then do_swap mem blockHeaderSize 4 else mem
      let last := intAt le mem (blockHeaderSize - 1)
      if size = 0 ∨ (last = -2147483648 ∧ size = -1) then none
      else some ⟨swap, [Int.tdiv last size, intAt le mem 1, intAt le mem 2, last], r.2.2⟩

/-- The value of a sum of a `size_t` and an `int` as a `size_t`: a negative sum wraps to
the top of the 64-bit range. -/
def sizeT (z : Int) : Nat := if z < 0 then (z + 18446744073709551616).toNat else z.toNat

/-- What `readBlockData` leaves behind: the code it returns, the memory `ptr` points into,
the updated `*offset` and the stream. -/
structure DataRead where
  error : Int
  mem : List Byte
  offset : Nat
  f : List Byte
deriving DecidableEq, Repr

/-- Read block data into `mem` at byte position `pos` (the argument `ptr`): `0` normal,
`1` reading failed. The space at `ptr` holds the `numOfItems` items that were announced;
with a negative `numOfItems` the call asks `fread` for more items than any stream holds,
and every item it finds is written outside the buffer: `none`. -/
def readBlockData (f : List Byte) (mem : List Byte) (pos : Nat) (offset : Nat)
    (itemSize : Nat) (numOfItems : Int) (swap : Int) : Option DataRead :=
  if numOfItems < 0 then
    if f.length / itemSize = 0 then some ⟨1, mem, offset, f⟩ else none
  else
    let r := fread f itemSize numOfItems.toNat
    if wrapInt32 r.1 ≠ numOfItems then some ⟨1, mem, offset, r.2.2⟩
    else
      let data := if swap > 0 then do_swap r.2.1 numOfItems.toNat itemSize else r.2.1
      some ⟨0, mem.take pos ++ data ++ mem.drop (pos + data.length),
        offset + numOfItems.toNat, r.2.2⟩

/-- Read a block trailer: `0` normal, `1` corrupted; with the stream that is left. -/
def readBlockTrailer (le : Bool) (f : List Byte) (swap : Int) (header : Int) :
    Int × List Byte :=
  let r := fread f 4 1
  if r.1 ≠ 1 then (1, r.2.2)
  else
    let trailer := if swap > 0 then do_swap r.2.1 1 4 else r.2.1
    if header ≠ hostInt le trailer then (1, r.2.2) else (0, r.2.2)

/-- The call `reallocate(debugMode, ptr, size)`: `none` is the `NULL` of a failed
allocation; otherwise the block resized to `size` bytes, old contents kept. The bytes
gained are written by the caller before anything reads them; they are `0` here. -/
def reallocate (host : Host) (ptr : List Byte) (size : Nat) : Option (List Byte) :=
  if host.alloc size then some (ptr.take size ++ List.replicate (size - ptr.length) 0)
  else none

/-- Whether a byte is not the string terminator. -/
def notNul (b : Byte) : Bool := b ≠ 0

/-- The string a `char *` at position `p` of `mem` points to: the bytes before the first
zero byte. -/
def cstr (mem : List Byte) (p : Nat) : List Byte := (mem.drop p).takeWhile notNul

/-- The call `strstr(haystack, needle)` on strings: the position of the first occurrence,
`none` for `NULL`. -/
def strstr : List Byte → List Byte → Option Nat
  | [], needle => if needle = [] then some 0 else none
  | b :: hay, needle =>
    if needle.isPrefixOf (b :: hay) then some 0 else (strstr hay needle).map (· + 1)

/-- The bytes of `"$&%#"`, the mark that ends the file header. -/
def headerEndMark : List Byte := [36, 38, 37, 35]

/-- What `readHeaderBlock` and `readDataBlock` leave behind: the code they return, the
buffer (`*buf`, `*rawData`), its size in items (`*bufOffset`, `*rawDataOffset`), and the
stream. -/
structure BlockRead where
  ret : Int
  buf : List Byte
  offset : Nat
  f : List Byte
deriving DecidableEq, Repr

/-- Read one file header block: `-1` this was the last block, `0` there is at least one
more, `1` error. -/
def readHeaderBlock (host : Host) (le : Bool) (f : List Byte) (buf : List Byte)
    (bufOffset : Nat) : Option BlockRead :=
  (readBlockHeader le f 1).bind fun h =>
  if h.swap < 0 then some ⟨1, buf, bufOffset, h.f⟩
  else
    match reallocate host buf (sizeT ((bufOffset : Int) + h.blockHeader.getD 0 0 + 1)) with
    | none => some ⟨1, buf, bufOffset, h.f⟩
    | some tmpBuf =>
      (readBlockData h.f tmpBuf bufOffset bufOffset 1 (h.blockHeader.getD 0 0) 0).bind fun d =>
      if d.error = 1 then some ⟨1, d.mem, d.offset, d.f⟩
      else
        let buf := d.mem.set d.offset 0
        let t := readBlockTrailer le d.f h.swap (h.blockHeader.getD (blockHeaderSize - 1) 0)
        if t.1 = 1 then some ⟨1, buf, d.offset, t.2⟩
        else if (strstr (cstr buf 0) headerEndMark).isSome then some ⟨-1, buf, d.offset, t.2⟩
        else some ⟨0, buf, d.offset, t.2⟩

/-- The loop `do num = readHeaderBlock(...) while(num == 0)` of `HSpiceRead`; `fuel` bounds
the number of blocks, and a stream of `n` bytes holds fewer than `n + 1` of them. -/
def readHeaderBlocks (host : Host) (le : Bool) :
    Nat → List Byte → List Byte → Nat → Option BlockRead
  | 0, _, _, _ => none
  | fuel + 1, f, buf, offset =>
    (readHeaderBlock host le f buf offset).bind fun r =>
      if r.ret = 0 then readHeaderBlocks host le fuel r.f r.buf r.offset else some r

/-! ## Floating point samples

A `float` is an IEEE 754 single: one sign bit, eight exponent bits, 23 fraction bits. The
reader does one thing with a `float` besides copying it: it compares it with the `double`
constant `9e29`. The conversion of a `float` to `double` is exact, so the comparison is
one of exact values, and is computed here on the bit pattern. -/

/-- The 32-bit pattern of the `float` stored in four bytes of memory. -/
def floatBits (le : Bool) (bs : List Byte) : Nat := hostUInt le bs

/-- The exact value of the `double` nearest to `9e29` (`0x1.6b81d1a43b206p+99`). -/
def sentinelBound : Nat := 900000000000000046043660025856

/-- Whether the `float` with the given bit pattern satisfies `x > 9e29`. A negative number
and a NaN do not; plus infinity does; a finite positive `x` is `m * 2 ^ (e - 150)` for its
exponent field `e` and its significand `m`, compared after scaling by `2 ^ 149`. -/
def gt9e29 (bits : Nat) : Bool :=
  let sign := bits / 2147483648 % 2
  let e := bits / 8388608 % 256
  let frac := bits % 8388608
  if sign = 1 then false
  else if e = 255 then frac = 0
  else
    let scaled := if e = 0 then frac else (8388608 + frac) * 2 ^ (e - 1)
    decide (sentinelBound * 2 ^ 149 < scaled)

/-- The element `rawData[i]` of a `float` array laid out in `mem`, as its bit pattern. -/
def floatAt (le : Bool) (mem : List Byte) (i : Nat) : Nat :=
  floatBits le ((mem.drop (4 * i)).take 4)

/-- Read one data block: `-1` this was the last block, `0` there is at least one more,
`1` error. `none` also when the block is empty and so is the buffer: the test of the last
value then reads `rawData[-1]`. -/
def readDataBlock (host : Host) (le : Bool) (f : List Byte) (rawData : List Byte)
    (rawDataOffset : Nat) : Option BlockRead :=
  (readBlockHeader le f 4).bind fun h =>
  if h.swap < 0 then some ⟨1, rawData, rawDataOffset, h.f⟩
  else
    match reallocate host rawData
        (sizeT ((rawDataOffset : Int) + h.blockHeader.getD 0 0) * 4) with
    | none => some ⟨1, rawData, rawDataOffset, h.f⟩
    | some tmpRawData =>
      (readBlockData h.f tmpRawData (4 * rawDataOffset) rawDataOffset 4
        (h.blockHeader.getD 0 0) h.swap).bind fun d =>
      if d.error = 1 then some ⟨1, d.mem, d.offset, d.f⟩
      else
        let t := readBlockTrailer le d.f h.swap (h.blockHeader.getD (blockHeaderSize - 1) 0)
        if t.1 = 1 then some ⟨1, d.mem, d.offset, t.2⟩
        else if d.offset = 0 then none
        else if gt9e29 (floatAt le d.mem (d.offset - 1)) then some ⟨-1, d.mem, d.offset, t.2⟩
        else some ⟨0, d.mem, d.offset, t.2⟩

/-! ## The table assembler -/

/-- A vector of a table: a NumPy array of doubles or of complex doubles. A `float` of the
file is widened to `double` exactly, so an element is kept as the bit pattern of the
`float` it was read from. -/
inductive Column where
  | real (xs : List Nat)
  | complex (xs : List (Nat × Nat))
deriving DecidableEq, Repr

/-- The number of elements written to a vector. -/
def Column.length : Column → Nat
  | .real xs => xs.length
  | .complex xs => xs.length

/-- Whether a vector is an array of complex doubles. -/
def Column.isComplex : Column → Bool
  | .real _ => false
  | .complex _ => true

/-- A data dictionary, in the order of insertion. -/
abbrev Table := List (List Byte × Column)

/-- The call `PyDict_SetItemString(data, key, value)` on the dictionary: a key already
there keeps its place and gets the new value. -/
def dictSetItem : Table → List Byte → Column → Table
  | [], key, value => [(key, value)]
  | (k, v) :: rest, key, value =>
    if k = key then (k, value) :: rest else (k, v) :: dictSetItem rest key value

/-- The loop `do num = readDataBlock(...) while(num == 0)` of `readTable`; `fuel` bounds
the number of blocks, and a stream of `n` bytes holds fewer than `n + 1` of them. -/
def readDataBlocks (host : Host) (le : Bool) :
    Nat → List Byte → List Byte → Nat → Option BlockRead
  | 0, _, _, _ => none
  | fuel + 1, f, rawData, offset =>
    (readDataBlock host le f rawData offset).bind fun r =>
      if r.ret = 0 then readDataBlocks host le fuel r.f r.buf r.offset else some r

/-- Whether vector `j` is complex: `type == complex_var && j > 0 && j < numOfVariables`. -/
def isComplexVector (type numOfVariables : Int) (j : Nat) : Bool :=
  type = complex_var ∧ (j : Int) > 0 ∧ (j : Int) < numOfVariables

/-- The loop that creates the arrays, `for(i = 0; i < numOfVectors; i++)`, from vector `i`
on, `n` vectors to go: `none` when `PyArray_SimpleNew` fails, which it does for a negative
length. -/
def newArrays (host : Host) (type numOfVariables : Int) (num : Int) :
    Nat → Nat → Option (List Column)
  | 0, _ => some []
  | n + 1, i =>
    let cplx := isComplexVector type numOfVariables i
    if num < 0 ∨ host.arrayNew cplx num.toNat = false then none
    else (newArrays host type numOfVariables num n (i + 1)).map fun rest =>
      (if cplx then Column.complex [] else Column.real []) :: rest

/-- The inner loop of the copy, `for(j = 0; j < numOfVectors; j++)`, from vector `j` on:
one row is taken from `rawData` at `pos` and appended to the vectors. `none` is a read
outside `rawData`, which holds `offset` floats. -/
def saveRow (le : Bool) (rawData : List Byte) (offset : Nat) (type numOfVariables : Int) :
    List Column → Nat → Nat → Option (List Column × Nat)
  | [], _, pos => some ([], pos)
  | col :: cols, j, pos =>
    match isComplexVector type numOfVariables j, col with
    | true, .complex xs =>
      if pos + 1 < offset then
        (saveRow le rawData offset type numOfVariables cols (j + 1) (pos + 2)).map fun r =>
          (Column.complex (xs ++ [(floatAt le rawData pos, floatAt le rawData (pos + 1))])
            :: r.1, r.2)
      else none
    | false, .real xs =>
      if pos < offset then
        (saveRow le rawData offset type numOfVariables cols (j + 1) (pos + 1)).map fun r =>
          (Column.real (xs ++ [floatAt le rawData pos]) :: r.1, r.2)
      else none
    | _, _ => none

/-- The outer loop of the copy, `for(i = 0; i < num; i++)`, with `n` rows to go. -/
def saveRows (le : Bool) (rawData : List Byte) (offset : Nat) (type numOfVariables : Int) :
    Nat → List Column → Nat → Option (List Column)
  | 0, cols, _ => some cols
  | n + 1, cols, pos =>
    (saveRow le rawData offset type numOfVariables cols 0 pos).bind fun r =>
      saveRows le rawData offset type numOfVariables n r.1 r.2

/-- The loop that inserts the vectors after the scale,
`for(i = 0; i < numOfVectors - 1; i++)`, from `i` on with the arrays `tmpArray[i + 1]`
onwards: the dictionary, or `none` when an insertion fails. -/
def insertVectors (host : Host) : Table → List (List Byte) → List Column → Option Table
  | data, key :: name, col :: cols =>
    if host.dictSet key then insertVectors host (dictSetItem data key col) name cols
    else none
  | data, _, _ => some data

/-- What `readTable` leaves behind: the code it returns, the stream, the sweep value it
stored through `faSweep` if any, and the list of data dictionaries. -/
structure TableRead where
  ret : Int
  f : List Byte
  sweepValue : Option Nat
  dataList : List Table
deriving DecidableEq, Repr

/-- The number of columns of `rawData`: `numOfVectors`, increased by `numOfVariables - 1`
if the variables with the exception of the scale are complex. -/
def numOfColumnsOf (type numOfVectors numOfVariables : Int) : Int :=
  if type = complex_var then numOfVectors + numOfVariables - 1 else numOfVectors

/-- The number of rows `num`: `(offset - 1) / numOfColumns` without a sweep and
`(offset - 2) / numOfColumns` with one, computed in `size_t` and stored in an `int`. -/
def numOfRows (sweep : Bool) (offset : Nat) (numOfColumns : Int) : Int :=
  if sweep then wrapInt32 ((sizeT ((offset : Int) - 2) / sizeT numOfColumns : Nat) : Int)
  else wrapInt32 ((sizeT ((offset : Int) - 1) / sizeT numOfColumns : Nat) : Int)

/-- The part of `readTable` that turns `rawData` into the arrays `tmpArray`: the row
count, the creation of the arrays, the copy. `none` is undefined behaviour (a division by
a zero `numOfColumns`, a read outside `rawData`), `some none` the failure to create an
array. -/
def fillArrays (host : Host) (le : Bool) (rawData : List Byte) (offset : Nat) (sweep : Bool)
    (numOfVariables type numOfVectors : Int) : Option (Option (List Column)) :=
  let numOfColumns := numOfColumnsOf type numOfVectors numOfVariables
  if numOfColumns = 0 then none
  else
    let num := numOfRows sweep offset numOfColumns
    match newArrays host type numOfVariables num numOfVectors.toNat 0 with
    | none => some none
    | some tmpArray =>
      (saveRows le rawData offset type numOfVariables num.toNat tmpArray
        (if sweep then 1 else 0)).map some

/-- The part of `readTable` that inserts the vectors into the dictionary `data`: the scale
under `scale`, vector `i + 1` under `name[i]`. `none` is undefined behaviour (no
`tmpArray[0]`, no `name[i]`), `some none` a failed insertion. -/
def fillDict (host : Host) (scale : List Byte) (name : List (List Byte)) :
    List Column → Option (Option Table)
  | [] => none
  | col0 :: cols =>
    if name.length < cols.length then none
    else if host.dictSet scale = false then some none
    else some (insertVectors host (dictSetItem [] scale col0) name cols)

/-- Read one table for one sweep value: `0` normal, `1` error. `sweep` says whether the
argument `sweep` is not `NULL`; `scale` and `name` are the strings the arguments point
to. -/
def readTable (host : Host) (le : Bool) (f : List Byte) (sweep : Bool)
    (numOfVariables type numOfVectors : Int) (scale : List Byte) (name : List (List Byte))
    (dataList : List Table) : Option TableRead :=
  (readDataBlocks host le (f.length + 1) f [] 0).bind fun r =>
  if r.ret > 0 then some ⟨1, r.f, none, dataList⟩
  else if host.dictNew = false then some ⟨1, r.f, none, dataList⟩
  else
    let sweepValue := if sweep then some (floatAt le r.buf 0) else none
    (fillArrays host le r.buf r.offset sweep numOfVariables type numOfVectors).bind fun a =>
    match a with
    | none => some ⟨1, r.f, sweepValue, dataList⟩
    | some tmpArray =>
      (fillDict host scale name tmpArray).bind fun d =>
      match d with
      | none => some ⟨1, r.f, sweepValue, dataList⟩
      | some data =>
        if host.listAppend = false then some ⟨1, r.f, sweepValue, dataList⟩
        else some ⟨0, r.f, sweepValue, dataList ++ [data]⟩

/-! ## Strings in the header buffer -/

/-- The string a `char *` at position `p` of `mem` points to, for a function that reads it
to its terminator: `none` when there is no terminator in `mem` from `p` on, so that the
function reads outside the buffer. -/
def cstrAt (mem : List Byte) (p : Nat) : Option (List Byte) :=
  if (mem.drop p).all notNul then none else some (cstr mem p)

/-- The assignment `mem[i] = v`: `none` when `i` is outside the buffer. -/
def writeByte (mem : List Byte) (i : Nat) (v : Byte) : Option (List Byte) :=
  if i < mem.length then some (mem.set i v) else none

/-- Whether `strncmp(&mem[p], s, n) == 0` for a string literal `s` of `n` characters:
`none` when the comparison reads outside the buffer. It stops at the first character that
differs. -/
def strncmpEq (mem : List Byte) : Nat → List Byte → Option Bool
  | _, [] => some true
  | p, c :: cs =>
    match mem[p]? with
    | none => none
    | some b => if b = c then strncmpEq mem (p + 1) cs else some false

/-- The characters `isspace` accepts: space, `\t`, `\n`, `\v`, `\f`, `\r`. -/
def isSpace (b : Byte) : Bool := b = 32 ∨ (9 ≤ b.val ∧ b.val ≤ 13)

/-- Whether a byte is a decimal digit. -/
def isDigit (b : Byte) : Bool := 48 ≤ b.val ∧ b.val ≤ 57

/-- The number written by a string of decimal digits. -/
def digitsValue (ds : List Byte) : Nat := ds.foldl (fun acc d => 10 * acc + (d.val - 48)) 0

/-- The call `atoi(s)` on a string: white space is skipped, then an optional sign and the
digits that follow are read. `none` when the value is not in the range of an `int`. -/
def atoiStr (s : List Byte) : Option Int :=
  let s := s.dropWhile isSpace
  let neg := s.head? = some 45
  let s := if s.head? = some 45 ∨ s.head? = some 43 then s.drop 1 else s
  let v : Int := digitsValue (s.takeWhile isDigit)
  let v := if neg then -v else v
  if -2147483648 ≤ v ∧ v ≤ 2147483647 then some v else none

/-- The call `atoi(&mem[p])`. -/
def atoi (mem : List Byte) (p : Nat) : Option Int := (cstrAt mem p).bind atoiStr

/-- The delimiters of the tokens of the vector description: space, tab, newline. -/
def isDelim (b : Byte) : Bool := b = 32 ∨ b = 9 ∨ b = 10

/-- Whether a byte is part of a token: neither a delimiter nor the terminator. -/
def isTokenByte (b : Byte) : Bool := !isDelim b && notNul b

/-- What `strtok` leaves behind: the token it returns as a position in the buffer (`none`
for `NULL`), the buffer, and the position it saved for the next call. -/
structure TokRead where
  token : Option Nat
  mem : List Byte
  save : Nat
deriving DecidableEq, Repr

/-- The call `strtok(&mem[start], " \t\n")`, or `strtok(NULL, " \t\n")` when `start` is
the position the call before saved: the delimiters at `start` are skipped; if the string
ends there the result is `NULL`; otherwise the token runs to the next delimiter, which is
overwritten with a terminator, or to the end of the string. `none` when the string at
`start` has no terminator in the buffer. -/
def strtok (mem : List Byte) (start : Nat) : Option TokRead :=
  if (mem.drop start).all notNul then none
  else
    let p := start + ((mem.drop start).takeWhile isDelim).length
    let n := ((mem.drop p).takeWhile isTokenByte).length
    if n = 0 then some ⟨none, mem, p⟩
    else if mem.getD (p + n) 0 = 0 then some ⟨some p, mem, p + n⟩
    else some ⟨some p, mem.set (p + n) 0, p + n + 1⟩

/-- The byte after `name[i][j] -= 'A' - 'a'` when it is a letter `A` to `Z`, the byte
itself otherwise. -/
def toLowerAscii (b : Byte) : Byte := if 65 ≤ b.val ∧ b.val ≤ 90 then b + 32 else b

/-- The processing of the vector name at position `p`: every character of the string is
made lowercase, `for(j = 0; name[i][j]; j++)`; then, if the name starts with `v(`, the
characters from the third on are moved two places down, `for(j = 2; name[i][j]; j++)`,
and the string is terminated two places earlier. The number of passes of either loop is
fixed by the length of the string when the loop starts. -/
def processName (mem : List Byte) (p : Nat) : List Byte :=
  let len := (cstr mem p).length
  let mem := (List.range len).foldl
    (fun m j => m.set (p + j) (toLowerAscii (m.getD (p + j) 0))) mem
  if mem.getD p 0 = 118 ∧ mem.getD (p + 1) 0 = 40 then
    let mem := (List.range (len - 2)).foldl
      (fun m j => m.set (p + j) (m.getD (p + (j + 2)) 0)) mem
    mem.set (p + (len - 2)) 0
  else mem

/-! ## `HSpiceRead` -/

/-- The loop `while(buf[i] == ' ') i--;` from position `i` down: the position of the
first byte that is no space. `none` when it reads outside the buffer, below position `0`
among them. -/
def titleEnd (mem : List Byte) : Nat → Option Nat
  | 0 =>
    match mem[0]? with
    | none => none
    | some b => if b = 32 then none else some 0
  | i + 1 =>
    match mem[i + 1]? with
    | none => none
    | some b => if b = 32 then titleEnd mem i else some (i + 1)

/-- The check of the version of the post format, with `&&` evaluated left to right:
whether the buffer does not start any of the three known ways, so that the read fails. -/
def unknownPostFormat (mem : List Byte) : Option Bool :=
  (strncmpEq mem postStartPosition1 postString11).bind fun e11 =>
  if e11 then some false
  else (strncmpEq mem postStartPosition1 postString12).bind fun e12 =>
    if e12 then some false
    else (strncmpEq mem postStartPosition2 postString21).bind fun e21 => some (!e21)

/-- The number of bytes asked of `PyMem_Malloc` for `n` elements of `size` bytes, `n` an
`int`: the product is taken in `size_t`. -/
def mallocSize (n : Int) (size : Nat) : Nat := (sizeT n * size) % 18446744073709551616

/-- The loop `for(i = 0; i < numOfVectors; i++) token = strtok(NULL, " \t\n")`, with `n`
passes to go: the state of `strtok` after it, the token being the one of the last call. -/
def skipTokens : Nat → TokRead → Option TokRead
  | 0, st => some st
  | n + 1, st => (strtok st.mem st.save).bind (skipTokens n)

/-- What the loop that gets the vector names leaves behind: the positions `name[i]`, the
buffer and the position `strtok` saved. -/
structure NamesRead where
  name : List Nat
  mem : List Byte
  save : Nat
deriving DecidableEq, Repr

/-- The loop `for(i = 0; i < numOfVectors - 1; i++) name[i] = strtok(NULL, " \t\n")`,
with `n` passes to go: `some none` when a name is `NULL`. -/
def nameTokens : Nat → List Byte → Nat → Option (Option NamesRead)
  | 0, mem, save => some (some ⟨[], mem, save⟩)
  | n + 1, mem, save =>
    (strtok mem save).bind fun st =>
    match st.token with
    | none => some none
    | some q =>
      (nameTokens n st.mem st.save).map fun r =>
        r.map fun r => { r with name := q :: r.name }

/-- The loop that processes the vector names, one after the other. -/
def processNames (mem : List Byte) (name : List Nat) : List Byte :=
  name.foldl processName mem

/-- What `getSweepInfo` hands back: the sweep parameter name and the number of sweep
points, with the buffer and the position `strtok` saved. -/
structure SweepRead where
  sweep : List Byte
  sweepSize : Int
  mem : List Byte
  save : Nat
deriving DecidableEq, Repr

/-- Get the sweep information from the file header: `some none` is the return value `1`,
an error. `none` is undefined behaviour, a read outside the buffer or a number `atoi`
cannot hold. -/
def getSweepInfo (host : Host) (mem : List Byte) (save : Nat) : Option (Option SweepRead) :=
  (strtok mem save).bind fun st =>
  match st.token with
  | none => some none
  | some q =>
    if host.unicode (cstr st.mem q) = false then some none
    else
      (strncmpEq st.mem postStartPosition2 postString21).bind fun e21 =>
      (atoi st.mem (if e21 then sweepSizePosition2 else sweepSizePosition1)).bind
        fun sweepSize =>
      if sweepSize < 0 ∨ host.arrayNew false sweepSize.toNat = false then some none
      else some (some ⟨cstr st.mem q, sweepSize, st.mem, st.save⟩)

/-- What the loop over the tables leaves behind. -/
structure TablesRead where
  failed : Bool
  f : List Byte
  sweepValues : List Nat
  dataList : List Table
deriving DecidableEq, Repr

/-- The loop `for(i = 0; i < sweepSize; i++)` that reads the tables, with `n` tables to
go; it stops at the first table that fails. -/
def readTables (host : Host) (le : Bool) (sweep : Bool) (numOfVariables type numOfVectors : Int)
    (scale : List Byte) (name : List (List Byte)) :
    Nat → List Byte → List Nat → List Table → Option TablesRead
  | 0, f, sweepValues, dataList => some ⟨false, f, sweepValues, dataList⟩
  | n + 1, f, sweepValues, dataList =>
    (readTable host le f sweep numOfVariables type numOfVectors scale name dataList).bind
      fun tr =>
    let sweepValues := match tr.sweepValue with
      | none => sweepValues
      | some v => sweepValues ++ [v]
    if tr.ret ≠ 0 then some ⟨true, tr.f, sweepValues, tr.dataList⟩
    else readTables host le sweep numOfVariables type numOfVectors scale name n tr.f
      sweepValues tr.dataList

/-- The value `HSpiceRead` returns when it succeeds, a list of one tuple
`(sweeps, scale, None, title, date, None)` with `sweeps` the tuple
`(sweep, sweepValues, dataList)`: the sweep parameter name with the sweep values, the
scale name, the title and the date as strings, and the list of data dictionaries. -/
structure Document where
  sweep : Option (List Byte × List Nat)
  dataList : List Table
  scale : List Byte
  title : List Byte
  date : List Byte
deriving DecidableEq, Repr

/-- What of the header the rest of `HSpiceRead` works with, once the fixed fields are
read: the strings of the date and of the title, the numbers, and the buffer as the
terminators written into it have left it. -/
structure HeaderFields where
  date : List Byte
  title : List Byte
  numOfSweeps : Int
  numOfVariables : Int
  numOfVectors : Int
  mem : List Byte
deriving DecidableEq, Repr

/-- The part of `HSpiceRead` from the check of the post format to the number of vectors,
on the complete header text. `some none` is a failure (`goto failed`); `none` is
undefined behaviour. -/
def readFields (host : Host) (buf : List Byte) : Option (Option HeaderFields) :=
  (unknownPostFormat buf).bind fun unknown =>
  if unknown then some none
  else
    (writeByte buf dateEndPosition 0).bind fun buf =>
    (cstrAt buf dateStartPosition).bind fun date =>
    if host.unicode date = false then some none
    else
      (titleEnd buf (dateStartPosition - 1)).bind fun i =>
      (writeByte buf (i + 1) 0).bind fun buf =>
      (cstrAt buf titleStartPosition).bind fun title =>
      if host.unicode title = false then some none
      else
        (writeByte buf numOfSweepsEndPosition 0).bind fun buf =>
        (atoi buf numOfSweepsPosition).bind fun num =>
        if num < 0 ∨ num > 1 then some none
        else
          (writeByte buf numOfSweepsPosition 0).bind fun buf =>
          (atoi buf numOfProbesPosition).bind fun numOfProbes =>
          (writeByte buf numOfProbesPosition 0).bind fun buf =>
          (atoi buf numOfVariablesPosition).bind fun numOfVariables =>
          some (some ⟨date, title, num, numOfVariables, numOfProbes + numOfVariables, buf⟩)

/-- What of the vector description the rest of `HSpiceRead` works with: the type of the
variables, the string `scale` made of the scale name, the positions of the scale name
(`token`) and of the vector names, the buffer and the position `strtok` saved. -/
structure VectorNames where
  type : Int
  scale : List Byte
  token : Nat
  name : List Nat
  mem : List Byte
  save : Nat
deriving DecidableEq, Repr

/-- The part of `HSpiceRead` that reads the vector description: the type of the
variables, the scale name, the vector names, and the processing of the vector names.
`some none` is a failure; `none` is undefined behaviour, `atoi` of a `NULL` token among
it. -/
def readNames (host : Host) (buf : List Byte) (numOfVectors : Int) :
    Option (Option VectorNames) :=
  (strtok buf vectorDescriptionStartPosition).bind fun st =>
  match st.token with
  | none => none
  | some q =>
    (atoi st.mem q).bind fun code =>
    let type := if code = frequency then complex_var else real_var
    (skipTokens numOfVectors.toNat st).bind fun st =>
    match st.token with
    | none => some none
    | some token =>
      if host.unicode (cstr st.mem token) = false then some none
      else if host.alloc (mallocSize (numOfVectors - 1) 8) = false then some none
      else
        (nameTokens (numOfVectors - 1).toNat st.mem st.save).map fun r =>
          r.map fun r =>
            ⟨type, cstr st.mem token, token, r.name, processNames r.mem r.name, r.save⟩

/-- The function `HSpiceRead` on the stream of the opened file. `some none` is the
failure, the return value `Py_None`; `none` is undefined behaviour. -/
def HSpiceRead (host : Host) (le : Bool) (f : List Byte) : Option (Option Document) :=
  match f with
  | [] => some none
  | b :: _ =>
    if b.val % 256 ≥ 32 then some none
    else
      (readHeaderBlocks host le (f.length + 1) f [] 0).bind fun h =>
      if h.ret > 0 then some none
      else
        (readFields host h.buf).bind fun fields =>
        match fields with
        | none => some none
        | some fields =>
          (readNames host fields.mem fields.numOfVectors).bind fun names =>
          match names with
          | none => some none
          | some names =>
            (if fields.numOfSweeps = 1 then
              (getSweepInfo host names.mem names.save).map fun r =>
                r.map fun r => (some r.sweep, r.sweepSize, r.mem)
            else some (some (none, 1, names.mem))).bind fun sw =>
            match sw with
            | none => some none
            | some (sweep, sweepSize, mem) =>
              if host.listNew = false then some none
              else if host.alloc (mallocSize fields.numOfVectors 8) = false then some none
              else if host.alloc (mallocSize fields.numOfVectors 32) = false then some none
              else
                (readTables host le sweep.isSome fields.numOfVariables names.type
                  fields.numOfVectors (cstr mem names.token)
                  (names.name.map (cstr mem)) sweepSize.toNat h.f [] []).bind fun t =>
                if t.failed then some none
                else if host.tuplePack = false then some none
                else if host.listNew = false ∨ host.listAppend = false then some none
                else some (some ⟨sweep.map fun s => (s, t.sweepValues), t.dataList,
                  names.scale, fields.title, fields.date⟩)

/-! ## Vocabulary of the specification

A block on disk: a header of four integers, a payload, a trailer of one integer. -/

/-- The bytes of a block, field by field. -/
structure Block where
  w0 : List Byte
  w1 : List Byte
  w2 : List Byte
  w3 : List Byte
  payload : List Byte
  trailer : List Byte
deriving DecidableEq, Repr

/-- The block as it lies in the file. -/
def Block.bytes (b : Block) : List Byte :=
  b.w0 ++ b.w1 ++ b.w2 ++ b.w3 ++ (b.payload ++ b.trailer)

/-- Whether the block is written in the byte order opposite to the host's. -/
def Block.swapped (le : Bool) (b : Block) : Bool := hostInt le b.w0 = 0x04000000

/-- The size field of the header, item 3, in the host's byte order. -/
def Block.size (le : Bool) (b : Block) : Int :=
  hostInt le (if b.swapped le then b.w3.reverse else b.w3)

/-- The number of items the payload holds. -/
def Block.itemCount (le : Bool) (itemSize : Nat) (b : Block) : Nat :=
  (Int.tdiv (b.size le) itemSize).toNat

/-- The first `n` items of `itemSize` bytes of a byte string. -/
def chunks (itemSize : Nat) : Nat → List Byte → List (List Byte)
  | 0, _ => []
  | n + 1, l => l.take itemSize :: chunks itemSize n (l.drop itemSize)

/-- A byte string with each of its items of `itemSize` bytes byte-reversed. -/
def reverseItems (itemSize : Nat) (l : List Byte) : List Byte :=
  ((chunks itemSize (l.length / itemSize) l).map List.reverse).flatten

/-- The payload in the host's byte order: each item byte-reversed when the block is
swapped. -/
def Block.items (le : Bool) (itemSize : Nat) (b : Block) : List Byte :=
  if b.swapped le then reverseItems itemSize b.payload else b.payload

/-- The trailer integer in the host's byte order. -/
def Block.trailerInt (le : Bool) (b : Block) : Int :=
  hostInt le (if b.swapped le then b.trailer.reverse else b.trailer)

/-- A block with a valid header and the payload the header announces, for items of
`itemSize` bytes: header items 0 and 2 are both `4`, in the host's order or both in the
opposite one, and the payload holds `header[3] / itemSize` items. -/
def Block.framed (le : Bool) (itemSize : Nat) (b : Block) : Prop :=
  b.w0.length = 4 ∧ b.w1.length = 4 ∧ b.w2.length = 4 ∧ b.w3.length = 4 ∧
  b.trailer.length = 4 ∧
  ((hostInt le b.w0 = 0x00000004 ∧ hostInt le b.w2 = 0x00000004) ∨
    (hostInt le b.w0 = 0x04000000 ∧ hostInt le b.w2 = 0x04000000)) ∧
  (b.payload.length : Int) = itemSize * Int.tdiv (b.size le) itemSize

/-- A valid block: framed, and the trailer equals `header[3]`. -/
def Block.wellFramed (le : Bool) (itemSize : Nat) (b : Block) : Prop :=
  b.framed le itemSize ∧ b.trailerInt le = b.size le

instance (le : Bool) (itemSize : Nat) (b : Block) : Decidable (b.framed le itemSize) := by
  unfold Block.framed; infer_instance

instance (le : Bool) (itemSize : Nat) (b : Block) : Decidable (b.wellFramed le itemSize) := by
  unfold Block.wellFramed; infer_instance

/-- The last float of the payload of a data block, in the host's byte order. -/
def Block.lastFloat (le : Bool) (b : Block) : Nat :=
  floatAt le (b.items le 4) (b.itemCount le 4 - 1)

/-- The file made of the given blocks, one after the other. -/
def blocksBytes (bs : List Block) : List Byte := (bs.map Block.bytes).flatten

/-- The payloads of the given blocks in the host's byte order, one after the other. -/
def blocksItems (le : Bool) (itemSize : Nat) (bs : List Block) : List Byte :=
  (bs.map (Block.items le itemSize)).flatten

/-- The number of items the given blocks hold together. -/
def blocksCount (le : Bool) (itemSize : Nat) (bs : List Block) : Nat :=
  (bs.map (Block.itemCount le itemSize)).sum

/-- A data block in the order of a little-endian host holding the floats `1e30` and `0`:
its first value exceeds `9e29`, its last does not. -/
def exampleDataBlock : Block :=
  { w0 := [4, 0, 0, 0], w1 := [0, 0, 0, 0], w2 := [4, 0, 0, 0], w3 := [8, 0, 0, 0],
    payload := [202, 242, 73, 113, 0, 0, 0, 0], trailer := [8, 0, 0, 0] }

/-- A data block in the order of a little-endian host holding the floats `2` and `1e30`:
its last value exceeds `9e29`. -/
def exampleLastBlock : Block :=
  { w0 := [4, 0, 0, 0], w1 := [0, 0, 0, 0], w2 := [4, 0, 0, 0], w3 := [8, 0, 0, 0],
    payload := [0, 0, 0, 64, 202, 242, 73, 113], trailer := [8, 0, 0, 0] }

/-- A data block in the order of a little-endian host holding 17 floats: the sweep value
`1`, the fifteen values `0, 1, ..., 14`, the sentinel `1e30`. -/
def exampleTableBlock : Block :=
  { w0 := [4, 0, 0, 0], w1 := [0, 0, 0, 0], w2 := [4, 0, 0, 0], w3 := [68, 0, 0, 0],
    payload := [
      0, 0, 128, 63, 0, 0, 0, 0, 0, 0, 128, 63, 0, 0, 0, 64, 0, 0, 64, 64, 0, 0, 128, 64,
      0, 0, 160, 64, 0, 0, 192, 64, 0, 0, 224, 64, 0, 0, 0, 65, 0, 0, 16, 65, 0, 0, 32,
      65, 0, 0, 48, 65, 0, 0, 64, 65, 0, 0, 80, 65, 0, 0, 96, 65, 202, 242, 73, 113],
    trailer := [68, 0, 0, 0] }

/-- What the loop over the data blocks leaves of `exampleTableBlock`. -/
def exampleTableSamples : BlockRead :=
  { ret := -1, buf := exampleTableBlock.payload, offset := 17, f := [] }

/-- The bytes of `"time"`, `"out)"` and `"i(r1)"`. -/
def exampleNames : List (List Byte) :=
  [[116, 105, 109, 101], [111, 117, 116, 41], [105, 40, 114, 49, 41]]

/-- The table of `exampleTableBlock` for two variables and one probe, all real, under a
sweep: three vectors of five rows. -/
def exampleTable : Table :=
  [([116, 105, 109, 101], Column.real [0, 1077936128, 1086324736, 1091567616, 1094713344]),
   ([111, 117, 116, 41], Column.real [1065353216, 1082130432, 1088421888, 1092616192, 1095761920]),
   ([105, 40, 114, 49, 41], Column.real [1073741824, 1084227584, 1090519040, 1093664768, 1096810496])]

/-- A data block in the order of a little-endian host holding eight floats `0` and the
sentinel `1e30`. -/
def exampleSentinelBlock : Block :=
  { w0 := [4, 0, 0, 0], w1 := [0, 0, 0, 0], w2 := [4, 0, 0, 0], w3 := [36, 0, 0, 0],
    payload := List.replicate 32 0 ++ [202, 242, 73, 113], trailer := [36, 0, 0, 0] }

/-- A data block in the order of a little-endian host whose payload is `n` bytes `0` and
whose size field and trailer are the bytes `size`. -/
def zeroBlock (size : List Byte) (n : Nat) : Block :=
  { w0 := [4, 0, 0, 0], w1 := [0, 0, 0, 0], w2 := [4, 0, 0, 0], w3 := size,
    payload := List.replicate n 0, trailer := size }

/-- The table of `exampleTableBlock` for two variables and one probe in a frequency
analysis, without a sweep: the scale, one complex vector and one real probe, of four rows. -/
def exampleComplexTable : Table :=
  [([116, 105, 109, 101], Column.real [1065353216, 1077936128, 1088421888, 1093664768]),
   ([111, 117, 116, 41], Column.complex [(0, 1065353216), (1082130432, 1084227584),
      (1090519040, 1091567616), (1094713344, 1095761920)]),
   ([105, 40, 114, 49, 41], Column.real [1073741824, 1086324736, 1092616192, 1096810496])]

/-- The payloads of the given blocks as they lie in the file, one after the other. -/
def blocksPayload (bs : List Block) : List Byte := (bs.map Block.payload).flatten

/-- A header block in the order of a little-endian host whose payload is a zero byte
followed by the four bytes `"$&%#"`. -/
def exampleZeroBlock : Block :=
  { w0 := [4, 0, 0, 0], w1 := [0, 0, 0, 0], w2 := [4, 0, 0, 0], w3 := [5, 0, 0, 0],
    payload := [0, 36, 38, 37, 35], trailer := [5, 0, 0, 0] }

/-- A header block in the order of a little-endian host whose payload is `"ab$&"`. -/
def exampleHeadBlock : Block :=
  { w0 := [4, 0, 0, 0], w1 := [0, 0, 0, 0], w2 := [4, 0, 0, 0], w3 := [4, 0, 0, 0],
    payload := [97, 98, 36, 38], trailer := [4, 0, 0, 0] }

/-- A header block in the order of a little-endian host whose payload is `"%#cd"`. -/
def exampleTailBlock : Block :=
  { w0 := [4, 0, 0, 0], w1 := [0, 0, 0, 0], w2 := [4, 0, 0, 0], w3 := [4, 0, 0, 0],
    payload := [37, 35, 99, 100], trailer := [4, 0, 0, 0] }

/-- The buffer holds the string `t` at position `q`: the bytes of `t`, none of them zero,
and then the terminator. -/
def stringAt (mem : List Byte) (q : Nat) (t : List Byte) : Prop :=
  (mem.drop q).take (t.length + 1) = t ++ [0] ∧ ∀ x ∈ t, x ≠ 0

/-- The normalized form of a vector name: every letter `A` to `Z` made lowercase, then a
leading `v(` removed. -/
def normalizedName (raw : List Byte) : List Byte :=
  if [118, 40] <+: raw.map toLowerAscii then (raw.map toLowerAscii).drop 2
  else raw.map toLowerAscii

/-- The tokens of a string: the string is split at every delimiter, and the pieces that
are not empty are the tokens. -/
def tokens (s : List Byte) : List (List Byte) :=
  (s.splitOnP isDelim).filter (fun t => !t.isEmpty)

/-- Flip bit `k` of a byte. -/
def flipBitOfByte (b : Byte) (k : Nat) : Byte := Fin.ofNat (b.val ^^^ 2 ^ (k % 8))

/-- Flip bit `i` of a byte string, bits counted from the low bit of the first byte. -/
def flipBit (bs : List Byte) (i : Nat) : List Byte :=
  bs.set (i / 8) (flipBitOfByte (bs.getD (i / 8) 0) i)

/-- A block in the order of a little-endian host whose payload is the four bytes `"$&%#"`:
four items of one byte, or one item of four. -/
def exampleBlock : Block :=
  { w0 := [4, 0, 0, 0], w1 := [0, 0, 0, 0], w2 := [4, 0, 0, 0], w3 := [4, 0, 0, 0],
    payload := [36, 38, 37, 35], trailer := [4, 0, 0, 0] }

instance (mem : List Byte) (q : Nat) (t : List Byte) : Decidable (stringAt mem q t) := by
  unfold stringAt; infer_instance

/-- The fixed fields of a header, 256 bytes: two variables, one probe, no sweep, the post
format `9601`, the title `"Example circuit"` and a date. -/
def exampleFixedFields : List Byte :=
  [
    32, 32, 32, 50, 32, 32, 32, 49, 32, 32, 32, 48, 32, 32, 32, 32, 57, 54, 48, 49, 32, 32,
    32, 32, 69, 120, 97, 109, 112, 108, 101, 32, 99, 105, 114, 99, 117, 105, 116, 32, 32,
    32, 32, 32, 32, 32, 32, 32, 32, 32, 32, 32, 32, 32, 32, 32, 32, 32, 32, 32, 32, 32, 32,
    32, 32, 32, 32, 32, 32, 32, 32, 32, 32, 32, 32, 32, 32, 32, 32, 32, 32, 32, 32, 32, 32,
    32, 32, 32, 70, 114, 105, 32, 79, 99, 116, 32, 51, 48, 32, 48, 57, 58, 48, 48, 58, 48,
    48, 32, 50, 48, 50, 54, 32, 32, 32, 32, 32, 32, 32, 32, 32, 32, 32, 32, 32, 32, 32, 32,
    32, 32, 32, 32, 32, 32, 32, 32, 32, 32, 32, 32, 32, 32, 32, 32, 32, 32, 32, 32, 32, 32,
    32, 32, 32, 32, 32, 32, 32, 32, 32, 32, 32, 32, 32, 32, 32, 32, 32, 32, 32, 32, 32, 32,
    32, 32, 32, 32, 32, 32, 32, 32, 32, 32, 32, 32, 32, 32, 32, 32, 32, 32, 32, 32, 32, 32,
    32, 32, 32, 32, 32, 32, 32, 32, 32, 32, 32, 32, 32, 32, 32, 32, 32, 32, 32, 32, 32, 32,
    32, 32, 32, 32, 32, 32, 32, 32, 32, 32, 32, 32, 32, 32, 32, 32, 32, 32, 32, 32, 32, 32,
    32, 32, 32, 32, 32, 32, 32, 32, 32, 32, 32, 32, 32, 32, 32, 32, 32, 32]

/-- The vector description `"1   1   8   TIME V(OUT) i(r1) $&%#"` of three vectors: three
type codes, three names, and the mark of the end of the header. -/
def exampleDescription : List Byte :=
  [
    49, 32, 32, 32, 49, 32, 32, 32, 56, 32, 32, 32, 84, 73, 77, 69, 32, 86, 40, 79, 85, 84,
    41, 32, 105, 40, 114, 49, 41, 32, 36, 38, 37, 35]

/-- The text of a header: the fixed fields, then the vector description. -/
def exampleHeaderText : List Byte := exampleFixedFields ++ exampleDescription

/-- The header block of the example file, in the order of a little-endian host. -/
def exampleFileHeader : Block :=
  { w0 := [4, 0, 0, 0], w1 := [0, 0, 0, 0], w2 := [4, 0, 0, 0], w3 := [34, 1, 0, 0],
    payload := exampleHeaderText, trailer := [34, 1, 0, 0] }

/-- The data block of the example file, in the order of a little-endian host: the floats
`0, 1, 2, 1, 3, 4`, two rows of three columns, and the end mark `1e30`. -/
def exampleFileData : Block :=
  { w0 := [4, 0, 0, 0], w1 := [0, 0, 0, 0], w2 := [4, 0, 0, 0], w3 := [28, 0, 0, 0],
    payload :=
      [
        0, 0, 0, 0, 0, 0, 128, 63, 0, 0, 0, 64, 0, 0, 128, 63, 0, 0, 64, 64, 0, 0, 128, 64,
        202, 242, 73, 113],
    trailer := [28, 0, 0, 0] }

/-- The example file: a header block, then a data block. -/
def exampleFile : List Byte := exampleFileHeader.bytes ++ exampleFileData.bytes

/-- The value `HSpiceRead` returns for the example file: no sweep, one table of three real
columns of two rows under the keys `"TIME"`, `"out)"` and `"i(r1)"`, the scale name
`"TIME"`, the title and the date. -/
def exampleDocument : Document :=
  { sweep := none,
    dataList :=
      [[([84, 73, 77, 69], Column.real [0, 1065353216]),
        ([111, 117, 116, 41], Column.real [1065353216, 1077936128]),
        ([105, 40, 114, 49, 41], Column.real [1073741824, 1082130432])]],
    scale := [84, 73, 77, 69],
    title := [69, 120, 97, 109, 112, 108, 101, 32, 99, 105, 114, 99, 117, 105, 116],
    date :=
      [70, 114, 105, 32, 79, 99, 116, 32, 51, 48, 32, 48, 57, 58, 48, 48, 58, 48, 48, 32,
        50, 48, 50, 54] }

/-- The block with each of the four header integers, each payload item of `itemSize`
bytes and the trailer integer byte-reversed. -/
def Block.reversed (itemSize : Nat) (b : Block) : Block :=
  { w0 := b.w0.reverse, w1 := b.w1.reverse, w2 := b.w2.reverse, w3 := b.w3.reverse,
    payload := reverseItems itemSize b.payload, trailer := b.trailer.reverse }

/-- A valid block in the byte order of the host: header items 0 and 2 are `4` as the host
reads them, the payload holds `header[3] / itemSize` items, and the trailer equals
`header[3]`. -/
def Block.native (le : Bool) (itemSize : Nat) (b : Block) : Prop :=
  b.wellFramed le itemSize ∧ b.swapped le = false

instance (le : Bool) (itemSize : Nat) (b : Block) : Decidable (b.native le itemSize) := by
  unfold Block.native; infer_instance

/-- The test `(num & 0x000000ff) >= ' '` of `HSpiceRead` on the byte `getc` handed back:
whether the file is taken to be in ascii format, and rejected. -/
def asciiFormat (b : Byte) : Bool := b.val % 256 ≥ 32

/-- The example header with the 64 bytes of the title field, offsets 24 to 87, all spaces,
and its terminator. -/
def exampleBlankTitleHeader : List Byte :=
  exampleFixedFields.take 24 ++ List.replicate 64 32 ++ exampleFixedFields.drop 88 ++
    exampleDescription ++ [0]

/-- The fixed fields of a header with a sweep: those of the example with the number of
sweeps `1` and the number of sweep points `2` at offset 179, in the field that starts at
offset 176. -/
def exampleSweepFixedFields : List Byte := (exampleFixedFields.set 11 49).set 179 50

/-- The vector description `"1   1   8   TIME V(OUT) i(r1) temper $&%#"`: that of the
example with the name of the sweep parameter after the names of the vectors. -/
def exampleSweepDescription : List Byte :=
  [
    49, 32, 32, 32, 49, 32, 32, 32, 56, 32, 32, 32, 84, 73, 77, 69, 32, 86, 40, 79, 85, 84,
    41, 32, 105, 40, 114, 49, 41, 32, 116, 101, 109, 112, 101, 114, 32, 36, 38, 37, 35]

/-- The text of the header with a sweep. -/
def exampleSweepHeaderText : List Byte := exampleSweepFixedFields ++ exampleSweepDescription

/-- The header block of the example file with a sweep, in the order of a little-endian
host. -/
def exampleSweepFileHeader : Block :=
  { w0 := [4, 0, 0, 0], w1 := [0, 0, 0, 0], w2 := [4, 0, 0, 0], w3 := [41, 1, 0, 0],
    payload := exampleSweepHeaderText, trailer := [41, 1, 0, 0] }

/-- A data block in the order of a little-endian host holding five floats: the sweep
value `2`, the three values `5, 6, 7`, the sentinel `1e30`. -/
def exampleSecondTableBlock : Block :=
  { w0 := [4, 0, 0, 0], w1 := [0, 0, 0, 0], w2 := [4, 0, 0, 0], w3 := [20, 0, 0, 0],
    payload := [0, 0, 0, 64, 0, 0, 160, 64, 0, 0, 192, 64, 0, 0, 224, 64, 202, 242, 73, 113],
    trailer := [20, 0, 0, 0] }

/-- The example file with a sweep of two points: the header block, the data block of the
first table, the data block of the second. -/
def exampleSweepFile : List Byte :=
  exampleSweepFileHeader.bytes ++ exampleTableBlock.bytes ++ exampleSecondTableBlock.bytes

/-- The value `HSpiceRead` returns for the example file with a sweep: the sweep parameter
`"temper"` with the values `1` and `2`, and two tables of three real columns, of five rows
and of one row. -/
def exampleSweepDocument : Document :=
  { sweep := some ([116, 101, 109, 112, 101, 114], [1065353216, 1073741824]),
    dataList :=
      [[([84, 73, 77, 69], Column.real [0, 1077936128, 1086324736, 1091567616, 1094713344]),
        ([111, 117, 116, 41],
          Column.real [1065353216, 1082130432, 1088421888, 1092616192, 1095761920]),
        ([105, 40, 114, 49, 41],
          Column.real [1073741824, 1084227584, 1090519040, 1093664768, 1096810496])],
       [([84, 73, 77, 69], Column.real [1084227584]),
        ([111, 117, 116, 41], Column.real [1086324736]),
        ([105, 40, 114, 49, 41], Column.real [1088421888])]],
    scale := [84, 73, 77, 69],
    title := [69, 120, 97, 109, 112, 108, 101, 32, 99, 105, 114, 99, 117, 105, 116],
    date :=
      [70, 114, 105, 32, 79, 99, 116, 32, 51, 48, 32, 48, 57, 58, 48, 48, 58, 48, 48, 32,
        50, 48, 50, 54] }

/-- The number of floats vector `j` takes of a row of `rawData`: two for a complex vector,
`rawDataPos = rawDataPos + 2`, one otherwise, `rawDataPos = rawDataPos + 1`. -/
def vectorWidth (type numOfVariables : Int) (j : Nat) : Nat :=
  if isComplexVector type numOfVariables j then 2 else 1

/-- The number of floats of a row of `rawData` that come before vector `j`: what the
vectors before it take. -/
def vectorStart (type numOfVariables : Int) : Nat → Nat
  | 0 => 0
  | j + 1 => vectorStart type numOfVariables j + vectorWidth type numOfVariables j

/-- The vector `j` of `rows` rows that lies in `rawData` from float `start` on, a row
every `stride` floats, the vector `skip` floats into the row: an array of complex doubles
made of pairs of consecutive floats when the vector is complex, an array of doubles
otherwise. -/
def sampleColumn (le : Bool) (rawData : List Byte) (type numOfVariables : Int)
    (start stride rows : Nat) (j skip : Nat) : Column :=
  if isComplexVector type numOfVariables j then
    Column.complex ((List.range rows).map fun i =>
      (floatAt le rawData (start + i * stride + skip),
        floatAt le rawData (start + i * stride + skip + 1)))
  else
    Column.real ((List.range rows).map fun i => floatAt le rawData (start + i * stride + skip))

/-- The fields read from the example header with a sweep, with the buffer as the
terminators written at offsets 112, 39, 12, 8 and 4 have left it. -/
def exampleSweepFields : HeaderFields :=
  { date :=
      [70, 114, 105, 32, 79, 99, 116, 32, 51, 48, 32, 48, 57, 58, 48, 48, 58, 48, 48, 32,
        50, 48, 50, 54],
    title := [69, 120, 97, 109, 112, 108, 101, 32, 99, 105, 114, 99, 117, 105, 116],
    numOfSweeps := 1,
    numOfVariables := 2,
    numOfVectors := 3,
    mem := (((((exampleSweepHeaderText ++ [0]).set 112 0).set 39 0).set 12 0).set 8 0).set 4 0 }

/-- The vector names read from the example header with a sweep: real variables, the scale
`"TIME"` at position 268, the names at positions 273 and 280, processed to `"out)"` and
`"i(r1)"`, and the position 286 saved for the next token. -/
def exampleSweepNames : VectorNames :=
  { type := 0,
    scale := [84, 73, 77, 69],
    token := 268,
    name := [273, 280],
    mem :=
      exampleSweepFields.mem.take 256 ++
        [49, 0, 32, 32, 49, 0, 32, 32, 56, 0, 32, 32, 84, 73, 77, 69, 0, 111, 117, 116, 41, 0,
          41, 0, 105, 40, 114, 49, 41, 0, 116, 101, 109, 112, 101, 114, 32, 36, 38, 37, 35, 0],
    save := 286 }

/-- The buffer of the example header with a sweep once `getSweepInfo` has read the name of
the sweep parameter, and terminated it at offset 292. -/
def exampleSweepBuffer : List Byte := exampleSweepNames.mem.set 292 0

/-- A complete header text of 40 bytes: the first 36 bytes of the fixed fields of the
example with the number of sweeps `2`, then the mark of the end of the header. -/
def exampleShortHeaderText : List Byte := (exampleFixedFields.take 36).set 11 50 ++ headerEndMark

/-- The header block of a file whose header text is the one of 40 bytes, in the order of a
little-endian host. -/
def exampleShortFileHeader : Block :=
  { w0 := [4, 0, 0, 0], w1 := [0, 0, 0, 0], w2 := [4, 0, 0, 0], w3 := [40, 0, 0, 0],
    payload := exampleShortHeaderText, trailer := [40, 0, 0, 0] }

/-- The vector description `"\r 7 8 TIME V(OUT) i(r1) temper $&%#"`: its first token is a
carriage return, which `atoi` takes for white space and `strtok` for a token. -/
def exampleReturnDescription : List Byte :=
  [
    13, 32, 55, 32, 56, 32, 84, 73, 77, 69, 32, 86, 40, 79, 85, 84, 41, 32, 105, 40, 114, 49,
    41, 32, 116, 101, 109, 112, 101, 114, 32, 36, 38, 37, 35]

/-- The text of a header with one sweep whose fixed fields hold spaces only from offset 176
on, followed by the vector description that starts with a carriage return. -/
def exampleReturnHeaderText : List Byte :=
  exampleFixedFields.set 11 49 ++ exampleReturnDescription

/-- The number of bytes of a string that `atoi` passes over: the white space, the sign if
there is one, and the digits. The byte after them, if there is one, is the byte at which
`atoi` stops. -/
def atoiSpan (s : List Byte) : Nat :=
  let w := (s.takeWhile isSpace).length
  let s := s.dropWhile isSpace
  let sg := if s.head? = some 45 ∨ s.head? = some 43 then 1 else 0
  w + sg + ((s.drop sg).takeWhile isDigit).length


/-! # Theorems -/

/-! ## C17: the two failures of `readBlockTrailer` -/

/-- C17, amended. `readBlockTrailer` returns the code `1` when fewer than four bytes are
left for the trailer, and the same code `1` when the trailer integer is there and differs
from `header[3]`; it returns `0` in the one case left. The code returned does not tell
the two failures apart. -/
theorem trailer_failures (le : Bool) (f : List Byte) (swap header : Int) :
    (f.length < 4 → (readBlockTrailer le f swap header).1 = 1) ∧
    (4 ≤ f.length →
      header ≠ hostInt le (if swap > 0 then do_swap (f.take 4) 1 4 else f.take 4) →
      (readBlockTrailer le f swap header).1 = 1) ∧
    (4 ≤ f.length →
      header = hostInt le (if swap > 0 then do_swap (f.take 4) 1 4 else f.take 4) →
      (readBlockTrailer le f swap header).1 = 0) := by
  have hk : 4 ≤ f.length → min 1 (f.length / 4) = 1 := by
    intro h
    have : 1 ≤ f.length / 4 := by omega
    omega
  have hk0 : f.length < 4 → min 1 (f.length / 4) = 0 := by
    intro h
    have : f.length / 4 = 0 := by omega
    omega
  refine ⟨fun h => ?_, fun h hne => ?_, fun h he => ?_⟩
  · simp [readBlockTrailer, fread, hk0 h]
  · simp only [readBlockTrailer, fread, hk h, Nat.one_mul]
    simp [hne]
  · simp only [readBlockTrailer, fread, hk h, Nat.one_mul]
    simp [he]

/-- C17 at a stream of three bytes, too short for a trailer. -/
theorem trailer_failures_witness :
    (readBlockTrailer true [5, 0, 0] 0 5).1 = 1 :=
  (trailer_failures true [5, 0, 0] 0 5).1 (by decide)

/-- C17 as stated fails. With `header[3] = 5` and no swap, the stream `6 0 0 0` holds a
trailer that differs from the header, and the stream `5 0 0` is short of one byte:
`readBlockTrailer` returns `1` for both. -/
theorem trailer_failures_counterexample :
    (readBlockTrailer true [6, 0, 0, 0] 0 5).1 = (readBlockTrailer true [5, 0, 0] 0 5).1 := by
  decide

/-! ## C14: the test for the binary format -/

theorem asciiFormat_iff (b : Byte) : asciiFormat b = false ↔ b.val < 32 := by
  have := b.isLt
  simp only [asciiFormat, ge_iff_le, decide_eq_false_iff_not, Nat.not_le]
  omega

/-- C14, amended. An empty stream is rejected. A stream that starts with the byte `b` is
taken to be in ascii format, and rejected whatever follows, if and only if `b`, all eight
bits of it, is at least 32; otherwise the header blocks are read from the whole stream,
the byte looked at included, and the outcome is theirs: no value is returned unless the
loop over the header blocks has ended without an error. -/
theorem binary_test (host : Host) (le : Bool) (b : Byte) (tl : List Byte) :
    HSpiceRead host le [] = some none ∧
    (asciiFormat b = false ↔ b.val < 32) ∧
    (asciiFormat b = true → HSpiceRead host le (b :: tl) = some none) ∧
    (asciiFormat b = false →
      (readHeaderBlocks host le ((b :: tl).length + 1) (b :: tl) [] 0 = none →
        HSpiceRead host le (b :: tl) = none) ∧
      (∀ hd, readHeaderBlocks host le ((b :: tl).length + 1) (b :: tl) [] 0 = some hd →
        hd.ret > 0 → HSpiceRead host le (b :: tl) = some none) ∧
      (∀ doc, HSpiceRead host le (b :: tl) = some (some doc) →
        ∃ hd, readHeaderBlocks host le ((b :: tl).length + 1) (b :: tl) [] 0 = some hd ∧
          hd.ret ≤ 0)) := by
  refine ⟨rfl, asciiFormat_iff b, fun h => ?_, fun h => ⟨fun hn => ?_, fun hd hh hret => ?_,
    fun doc hdoc => ?_⟩⟩
  · have hb : b.val % 256 ≥ 32 := by simpa [asciiFormat] using h
    rw [HSpiceRead, if_pos hb]
  · have hb : ¬ b.val % 256 ≥ 32 := by simpa [asciiFormat] using h
    rw [HSpiceRead, if_neg hb, hn]
    rfl
  · have hb : ¬ b.val % 256 ≥ 32 := by simpa [asciiFormat] using h
    rw [HSpiceRead, if_neg hb, hh, Option.some_bind, if_pos hret]
  · have hb : ¬ b.val % 256 ≥ 32 := by simpa [asciiFormat] using h
    rw [HSpiceRead, if_neg hb] at hdoc
    rcases hh : readHeaderBlocks host le ((b :: tl).length + 1) (b :: tl) [] 0 with _ | hd
    · rw [hh] at hdoc; cases hdoc
    · refine ⟨hd, rfl, ?_⟩
      rw [hh, Option.some_bind] at hdoc
      by_contra hret
      rw [if_pos (by omega)] at hdoc
      cases hdoc

set_option maxRecDepth 1000000 in
/-- C14 at the example file, which starts with the byte `4`: the header blocks are read
from the whole of it. -/
theorem binary_test_witness :
    HSpiceRead Host.ideal true exampleFile = some (some exampleDocument) ∧
    ∃ hd, readHeaderBlocks Host.ideal true ((4 :: exampleFile.drop 1).length + 1)
      (4 :: exampleFile.drop 1) [] 0 = some hd ∧ hd.ret ≤ 0 :=
  ⟨by decide,
    (binary_test Host.ideal true 4 (exampleFile.drop 1)).2.2.2 (by decide) |>.2.2
      exampleDocument (by decide)⟩

set_option maxRecDepth 1000000 in
/-- C14 as stated fails at the byte `132`: its low seven bits are `4`, less than 32, and
the stream that starts with it is rejected as ascii. -/
theorem binary_test_counterexample :
    (132 : Byte).val % 128 < 32 ∧ asciiFormat 132 = true ∧
    HSpiceRead Host.ideal true (132 :: exampleFile.drop 1) = some none := by
  decide

/-! ## C13: the check of the post format -/

/-- The comparison with a string literal that lies within the buffer: whether the bytes at
the position are those of the literal. -/
theorem strncmpEq_eq (mem : List Byte) :
    ∀ (s : List Byte) (p : Nat), p + s.length ≤ mem.length →
      strncmpEq mem p s = some (decide ((mem.drop p).take s.length = s)) := by
  intro s
  induction s with
  | nil => intro p _; simp [strncmpEq]
  | cons c cs ih =>
    intro p hp
    simp only [List.length_cons] at hp
    have hlt : p < mem.length := by omega
    have hd : mem.drop p = mem[p] :: mem.drop (p + 1) := List.drop_eq_getElem_cons hlt
    rw [strncmpEq, List.getElem?_eq_getElem hlt]
    simp only [List.length_cons, hd, List.take_succ_cons, List.cons.injEq]
    by_cases hc : mem[p] = c
    · rw [if_pos hc, ih (p + 1) (by omega)]
      simp [hc]
    · rw [if_neg hc]
      simp [hc]

/-- The check of the post format on a header text of at least 24 bytes. -/
theorem unknownPostFormat_eq (mem : List Byte) (hlen : 24 ≤ mem.length) :
    unknownPostFormat mem =
      some (!decide ((mem.drop 16).take 4 = postString11 ∨ (mem.drop 16).take 4 = postString12 ∨
        (mem.drop 20).take 4 = postString21)) := by
  have h11 := strncmpEq_eq mem postString11 postStartPosition1
    (by simp [postString11, postStartPosition1]; omega)
  have h12 := strncmpEq_eq mem postString12 postStartPosition1
    (by simp [postString12, postStartPosition1]; omega)
  have h21 := strncmpEq_eq mem postString21 postStartPosition2
    (by simp [postString21, postStartPosition2]; omega)
  have l11 : postString11.length = 4 := rfl
  have l12 : postString12.length = 4 := rfl
  have l21 : postString21.length = 4 := rfl
  rw [l11] at h11
  rw [l12] at h12
  rw [l21] at h21
  simp only [postStartPosition1, postStartPosition2] at h11 h12 h21
  simp only [unknownPostFormat, postStartPosition1, postStartPosition2, h11, h12, h21,
    Option.some_bind]
  by_cases a : (mem.drop 16).take 4 = postString11
  · simp [a]
  · by_cases b : (mem.drop 16).take 4 = postString12
    · simp [a, b]
    · by_cases c : (mem.drop 20).take 4 = postString21 <;> simp [a, b, c]

/-- When the fields of the header cannot be read, `HSpiceRead` fails, whatever the stream
holds after the header blocks. -/
theorem HSpiceRead_fields_fail (host : Host) (le : Bool) (f : List Byte) (hd : BlockRead)
    (hh : readHeaderBlocks host le (f.length + 1) f [] 0 = some hd)
    (hf : readFields host hd.buf = some none) : HSpiceRead host le f = some none := by
  cases f with
  | nil => rfl
  | cons b tl =>
    rw [HSpiceRead]
    by_cases hb : b.val % 256 ≥ 32
    · rw [if_pos hb]
    · rw [if_neg hb, hh, Option.some_bind]
      by_cases hret : hd.ret > 0
      · rw [if_pos hret]
      · rw [if_neg hret, hf]
        rfl

/-! ## The fixed fields of the header -/

theorem takeWhile_append_stop (p : Byte → Bool) (a : List Byte) (x : Byte) (r : List Byte)
    (hx : p x = false) : (a ++ x :: r).takeWhile p = a.takeWhile p := by
  induction a with
  | nil => simp [List.takeWhile, hx]
  | cons y ys ih =>
    by_cases hy : p y = true
    · simp [List.takeWhile, hy, ih]
    · simp [List.takeWhile, hy]

/-- A stretch of the buffer is left alone by a write outside it. -/
theorem region_set (mem : List Byte) (e : Nat) (v : Byte) (p n : Nat)
    (h : e < p ∨ p + n ≤ e) : ((mem.set e v).drop p).take n = (mem.drop p).take n := by
  apply List.ext_getElem?
  intro k
  by_cases hk : k < n
  · rw [List.getElem?_take_of_lt hk, List.getElem?_take_of_lt hk, List.getElem?_drop,
      List.getElem?_drop, List.getElem?_set_ne (by omega)]
  · rw [List.getElem?_take_eq_none (by omega), List.getElem?_take_eq_none (by omega)]

/-- The string at a position before a terminator: the bytes up to the terminator, or up to
a zero byte among them. -/
theorem cstr_region (mem : List Byte) (p n : Nat) (h : mem[p + n]? = some 0) :
    cstr mem p = ((mem.drop p).take n).takeWhile notNul := by
  have hlt : p + n < mem.length := by
    by_contra hge
    rw [List.getElem?_eq_none (by omega)] at h
    cases h
  have hget : mem[p + n] = 0 := by
    have := List.getElem?_eq_getElem (l := mem) hlt
    rw [h] at this
    exact (Option.some.inj this).symm
  have hd0 : mem.drop (p + n) = 0 :: mem.drop (p + n + 1) := by
    rw [List.drop_eq_getElem_cons hlt, hget]
  have hd : (mem.drop p).drop n = 0 :: mem.drop (p + n + 1) := by
    rw [← hd0]
    simp [List.drop_drop, Nat.add_comm]
  have hs : mem.drop p = (mem.drop p).take n ++ 0 :: mem.drop (p + n + 1) := by
    rw [← hd, List.take_append_drop]
  unfold cstr
  conv_lhs => rw [hs]
  exact takeWhile_append_stop notNul _ 0 _ (by simp [notNul])

/-- The string at a position before a terminator is one `atoi` and `PyUnicode_FromString`
read within the buffer. -/
theorem cstrAt_region (mem : List Byte) (p n : Nat) (h : mem[p + n]? = some 0) :
    cstrAt mem p = some (((mem.drop p).take n).takeWhile notNul) := by
  have hlt : p + n < mem.length := by
    by_contra hge
    rw [List.getElem?_eq_none (by omega)] at h
    cases h
  have hmem : (0 : Byte) ∈ mem.drop p := by
    rw [List.mem_iff_getElem?]
    exact ⟨n, by rw [List.getElem?_drop]; exact h⟩
  have hall : (mem.drop p).all notNul = false := by
    rw [Bool.eq_false_iff]
    intro hall
    rw [List.all_eq_true] at hall
    have := hall 0 hmem
    simp [notNul] at this
  rw [cstrAt, hall, cstr_region mem p n h]
  rfl

/-- The scan for the end of the title, when it ends: the position it ends at is the last
one up to the start that holds no space. -/
theorem titleEnd_inv (mem : List Byte) :
    ∀ (n i : Nat), titleEnd mem n = some i →
      i ≤ n ∧ (∃ b, mem[i]? = some b ∧ b ≠ 32) ∧ ∀ k, i < k → k ≤ n → mem[k]? = some 32 := by
  intro n
  induction n with
  | zero =>
    intro i h
    rw [titleEnd] at h
    rcases hb : mem[0]? with _ | b
    · rw [hb] at h; cases h
    · rw [hb] at h
      simp only at h
      by_cases hs : b = 32
      · rw [if_pos hs] at h; cases h
      · rw [if_neg hs] at h
        cases h
        exact ⟨Nat.le_refl _, ⟨b, hb, hs⟩, fun k h1 h2 => by omega⟩
  | succ n ih =>
    intro i h
    rw [titleEnd] at h
    rcases hb : mem[n + 1]? with _ | b
    · rw [hb] at h; cases h
    · rw [hb] at h
      simp only at h
      by_cases hs : b = 32
      · rw [if_pos hs] at h
        obtain ⟨h1, h2, h3⟩ := ih i h
        refine ⟨by omega, h2, fun k hk1 hk2 => ?_⟩
        by_cases hk : k = n + 1
        · rw [hk, hb, hs]
        · exact h3 k hk1 (by omega)
      · rw [if_neg hs] at h
        cases h
        exact ⟨Nat.le_refl _, ⟨b, hb, hs⟩, fun k h1 h2 => by omega⟩

/-- The scan for the end of the title ends if a byte that is no space lies at or before
its start. -/
theorem titleEnd_total (mem : List Byte) :
    ∀ (n : Nat), n < mem.length → (∃ j b, j ≤ n ∧ mem[j]? = some b ∧ b ≠ 32) →
      ∃ i, titleEnd mem n = some i := by
  intro n
  induction n with
  | zero =>
    intro hn hj
    obtain ⟨j, b, hj0, hb, hs⟩ := hj
    have : j = 0 := by omega
    subst this
    rw [titleEnd, hb]
    exact ⟨0, by simp [hs]⟩
  | succ n ih =>
    intro hn hj
    obtain ⟨j, b, hj0, hb, hs⟩ := hj
    rw [titleEnd, List.getElem?_eq_getElem hn]
    simp only
    by_cases hc : mem[n + 1] = 32
    · rw [if_pos hc]
      refine ih (by omega) ⟨j, b, ?_, hb, hs⟩
      by_contra hgt
      have hj1 : j = n + 1 := by omega
      subst hj1
      rw [List.getElem?_eq_getElem hn] at hb
      simp only [Option.some.injEq] at hb
      exact hs (by rw [← hb, hc])
    · rw [if_neg hc]
      exact ⟨n + 1, rfl⟩

theorem writeByte_eq_some (mem : List Byte) (i : Nat) (v : Byte) (m : List Byte) :
    writeByte mem i v = some m ↔ i < mem.length ∧ m = mem.set i v := by
  unfold writeByte
  by_cases h : i < mem.length
  · rw [if_pos h]
    constructor
    · intro e; exact ⟨h, (Option.some.inj e).symm⟩
    · rintro ⟨_, rfl⟩; rfl
  · rw [if_neg h]
    constructor
    · intro e; cases e
    · rintro ⟨h', _⟩; exact absurd h' h

/-- What a success of `readFields` says of its steps: the header text holds the position
of the end of the date, the post format is known, the scan for the end of the title has
ended at a position `i`, and the date, the title and the three numbers are read from the
buffer as the terminators written so far have left it. -/
theorem readFields_success (host : Host) (buf : List Byte) (fields : HeaderFields)
    (h : readFields host buf = some (some fields)) :
    ∃ (i : Nat) (numOfProbes : Int),
      dateEndPosition < buf.length ∧ unknownPostFormat buf = some false ∧
      titleEnd (buf.set dateEndPosition 0) (dateStartPosition - 1) = some i ∧
      fields.date = cstr (buf.set dateEndPosition 0) dateStartPosition ∧
      fields.title = cstr ((buf.set dateEndPosition 0).set (i + 1) 0) titleStartPosition ∧
      atoi (((buf.set dateEndPosition 0).set (i + 1) 0).set numOfSweepsEndPosition 0)
        numOfSweepsPosition = some fields.numOfSweeps ∧
      (fields.numOfSweeps = 0 ∨ fields.numOfSweeps = 1) ∧
      atoi ((((buf.set dateEndPosition 0).set (i + 1) 0).set numOfSweepsEndPosition 0).set
        numOfSweepsPosition 0) numOfProbesPosition = some numOfProbes ∧
      atoi fields.mem numOfVariablesPosition = some fields.numOfVariables ∧
      fields.numOfVectors = numOfProbes + fields.numOfVariables ∧
      fields.mem = ((((buf.set dateEndPosition 0).set (i + 1) 0).set numOfSweepsEndPosition
        0).set numOfSweepsPosition 0).set numOfProbesPosition 0 ∧
      host.unicode fields.date = true ∧ host.unicode fields.title = true := by
  unfold readFields at h
  rw [Option.bind_eq_some] at h
  obtain ⟨u, hu, h⟩ := h
  cases u with
  | true => simp at h
  | false =>
    simp only [Bool.false_eq_true, if_false] at h
    rw [Option.bind_eq_some] at h
    obtain ⟨b1, hb1, h⟩ := h
    obtain ⟨hlen, rfl⟩ := (writeByte_eq_some _ _ _ _).1 hb1
    rw [Option.bind_eq_some] at h
    obtain ⟨date, hdate, h⟩ := h
    have hdate' : date = cstr (buf.set dateEndPosition 0) dateStartPosition := by
      unfold cstrAt at hdate
      split at hdate
      · cases hdate
      · exact (Option.some.inj hdate).symm
    by_cases hud : host.unicode date = false
    · rw [if_pos hud] at h; cases h
    · rw [if_neg hud, Option.bind_eq_some] at h
      obtain ⟨i, hi, h⟩ := h
      rw [Option.bind_eq_some] at h
      obtain ⟨b2, hb2, h⟩ := h
      obtain ⟨_, rfl⟩ := (writeByte_eq_some _ _ _ _).1 hb2
      rw [Option.bind_eq_some] at h
      obtain ⟨title, htitle, h⟩ := h
      have htitle' : title =
          cstr ((buf.set dateEndPosition 0).set (i + 1) 0) titleStartPosition := by
        unfold cstrAt at htitle
        split at htitle
        · cases htitle
        · exact (Option.some.inj htitle).symm
      by_cases hut : host.unicode title = false
      · rw [if_pos hut] at h; cases h
      · rw [if_neg hut, Option.bind_eq_some] at h
        obtain ⟨b3, hb3, h⟩ := h
        obtain ⟨_, rfl⟩ := (writeByte_eq_some _ _ _ _).1 hb3
        rw [Option.bind_eq_some] at h
        obtain ⟨num, hnum, h⟩ := h
        by_cases hbad : num < 0 ∨ num > 1
        · rw [if_pos hbad] at h; cases h
        · rw [if_neg hbad, Option.bind_eq_some] at h
          obtain ⟨b4, hb4, h⟩ := h
          obtain ⟨_, rfl⟩ := (writeByte_eq_some _ _ _ _).1 hb4
          rw [Option.bind_eq_some] at h
          obtain ⟨np, hnp, h⟩ := h
          rw [Option.bind_eq_some] at h
          obtain ⟨b5, hb5, h⟩ := h
          obtain ⟨_, rfl⟩ := (writeByte_eq_some _ _ _ _).1 hb5
          rw [Option.bind_eq_some] at h
          obtain ⟨nv, hnv, h⟩ := h
          simp only [Option.some.injEq] at h
          subst h
          refine ⟨i, np, hlen, hu, hi, hdate', htitle', hnum, by dsimp only; omega, hnp, hnv,
            rfl, rfl,
            ?_, ?_⟩
          · simpa using hud
          · simpa using hut

/-! ## C12: the check of the number of sweeps -/

/-- A byte of a stretch of the buffer. -/
theorem getElem?_of_region (mem : List Byte) (p n : Nat) (s : List Byte)
    (h : (mem.drop p).take n = s) (k : Nat) (hk : k < n) : mem[p + k]? = s[k]? := by
  rw [← h, List.getElem?_take_of_lt hk, List.getElem?_drop]

/-- On a header text that has passed the check of the post format, the scan for the end of
the title ends, at a position from 19 to 87, and at a position from 23 on when the post
format is `2001`. -/
theorem titleEnd_post (buf : List Byte) (hlen : dateEndPosition < buf.length)
    (hp : (buf.drop 16).take 4 = postString11 ∨ (buf.drop 16).take 4 = postString12 ∨
      (buf.drop 20).take 4 = postString21) :
    ∃ i, titleEnd (buf.set dateEndPosition 0) (dateStartPosition - 1) = some i ∧ 19 ≤ i ∧
      i ≤ 87 ∧ ((buf.drop 20).take 4 = postString21 → 23 ≤ i) := by
  simp only [dateEndPosition, dateStartPosition] at hlen ⊢
  have hset : ∀ k, k ≤ 87 → (buf.set 112 0)[k]? = buf[k]? := fun k hk =>
    List.getElem?_set_ne (by omega)
  have h19 : (buf.drop 20).take 4 = postString21 ∨ ∃ b, buf[19]? = some b ∧ b ≠ 32 := by
    rcases hp with h | h | h
    · right
      have := getElem?_of_region buf 16 4 _ h 3 (by omega)
      exact ⟨55, by simpa [postString11] using this, by decide⟩
    · right
      have := getElem?_of_region buf 16 4 _ h 3 (by omega)
      exact ⟨49, by simpa [postString12] using this, by decide⟩
    · left; exact h
  have h23 : (buf.drop 20).take 4 = postString21 → buf[23]? = some 49 := by
    intro h
    have := getElem?_of_region buf 20 4 _ h 3 (by omega)
    simpa [postString21] using this
  have hex : ∃ j b, j ≤ 87 ∧ (buf.set 112 0)[j]? = some b ∧ b ≠ 32 := by
    rcases h19 with h | ⟨b, hb, hs⟩
    · exact ⟨23, 49, by omega, by rw [hset 23 (by omega)]; exact h23 h, by decide⟩
    · exact ⟨19, b, by omega, by rw [hset 19 (by omega)]; exact hb, hs⟩
  obtain ⟨i, hi⟩ := titleEnd_total (buf.set 112 0) 87 (by simp; omega) hex
  obtain ⟨h1, _, h3⟩ := titleEnd_inv (buf.set 112 0) 87 i hi
  have hC : (buf.drop 20).take 4 = postString21 → 23 ≤ i := by
    intro h
    by_contra hlt
    have := h3 23 (by omega) (by omega)
    rw [hset 23 (by omega), h23 h] at this
    exact absurd (Option.some.inj this) (by decide)
  refine ⟨i, hi, ?_, h1, hC⟩
  rcases h19 with h | ⟨b, hb, hs⟩
  · have := hC h; omega
  · by_contra hlt
    have := h3 19 (by omega) (by omega)
    rw [hset 19 (by omega), hb] at this
    exact hs (Option.some.inj this)

/-- C12, amended. For every header text of at least 112 bytes, in its buffer with the
terminator after it, if the field of the number of sweeps, the bytes 8 to 11 read the way
`atoi` reads them, has a value other than `0` and `1`, then `readFields` fails: no field is
handed on, and `HSpiceRead` returns no value for a file with this header, whatever follows
the header blocks in the stream. -/
theorem sweep_count_check (host : Host) (buf : List Byte) (v : Int)
    (hlen : dateEndPosition < buf.length)
    (hv : atoiStr (((buf.drop numOfSweepsPosition).take 4).takeWhile notNul) = some v)
    (hbad : v < 0 ∨ v > 1) :
    readFields host buf = some none ∧
    ∀ (le : Bool) (f : List Byte) (hd : BlockRead),
      readHeaderBlocks host le (f.length + 1) f [] 0 = some hd → hd.buf = buf →
      HSpiceRead host le f = some none := by
  have hf : readFields host buf = some none := by
    have hu := unknownPostFormat_eq buf (by simp only [dateEndPosition] at hlen; omega)
    by_cases hp : (buf.drop 16).take 4 = postString11 ∨ (buf.drop 16).take 4 = postString12 ∨
        (buf.drop 20).take 4 = postString21
    · obtain ⟨i, hi, hi19, hi87, _⟩ := titleEnd_post buf hlen hp
      simp only [hp, decide_True, Bool.not_true] at hu
      simp only [dateEndPosition, dateStartPosition, numOfSweepsPosition] at hlen hi hv
      have hw1 : writeByte buf 112 0 = some (buf.set 112 0) :=
        (writeByte_eq_some _ _ _ _).2 ⟨hlen, rfl⟩
      have z1 : (buf.set 112 0)[88 + 24]? = some 0 := by
        rw [List.getElem?_set_self (by omega)]
      have hw2 : writeByte (buf.set 112 0) (i + 1) 0 = some ((buf.set 112 0).set (i + 1) 0) :=
        (writeByte_eq_some _ _ _ _).2 ⟨by simp; omega, rfl⟩
      have z2 : ((buf.set 112 0).set (i + 1) 0)[24 + 88]? = some 0 := by
        rw [List.getElem?_set_ne (by omega), List.getElem?_set_self (by omega)]
      have hw3 : writeByte ((buf.set 112 0).set (i + 1) 0) 12 0 =
          some (((buf.set 112 0).set (i + 1) 0).set 12 0) :=
        (writeByte_eq_some _ _ _ _).2 ⟨by simp; omega, rfl⟩
      have z3 : (((buf.set 112 0).set (i + 1) 0).set 12 0)[8 + 4]? = some 0 := by
        rw [List.getElem?_set_self (by simp; omega)]
      have hreg : ((((buf.set 112 0).set (i + 1) 0).set 12 0).drop 8).take 4 =
          (buf.drop 8).take 4 := by
        rw [region_set _ _ _ _ _ (by omega), region_set _ _ _ _ _ (by omega),
          region_set _ _ _ _ _ (by omega)]
      have hatoi : atoi (((buf.set 112 0).set (i + 1) 0).set 12 0) 8 = some v := by
        rw [atoi, cstrAt_region _ 8 4 z3, Option.some_bind, hreg, hv]
      simp only [readFields, hu, Option.some_bind, Bool.false_eq_true, if_false,
        dateEndPosition, dateStartPosition, titleStartPosition, numOfSweepsEndPosition,
        numOfSweepsPosition, hw1, cstrAt_region _ 88 24 z1, hi, hw2,
        cstrAt_region _ 24 88 z2, hw3, hatoi, if_pos hbad]
      split
      · rfl
      · split <;> rfl
    · simp only [hp, decide_False, Bool.not_false] at hu
      rw [readFields, hu]
      rfl
  refine ⟨hf, fun le f hd hh hb => ?_⟩
  subst hb
  exact HSpiceRead_fields_fail host le f hd hh hf

set_option maxRecDepth 1000000 in
/-- C12 at the example header with the number of sweeps changed to `2`. -/
theorem sweep_count_check_witness :
    readFields Host.ideal ((exampleHeaderText ++ [0]).set 11 50) = some none :=
  (sweep_count_check Host.ideal ((exampleHeaderText ++ [0]).set 11 50) 2 (by decide)
    (by decide) (by decide)).1

/-! ## C15: the title -/

theorem rdropWhile_append_of_all (p : Byte → Bool) (a : List Byte) :
    ∀ b : List Byte, (∀ x ∈ b, p x = true) → (a ++ b).rdropWhile p = a.rdropWhile p := by
  intro b
  induction b using List.reverseRecOn with
  | nil => intro _; simp
  | append_singleton b x ih =>
    intro h
    rw [← List.append_assoc, List.rdropWhile_concat_pos _ _ _ (h x (by simp))]
    exact ih (fun y hy => h y (by simp [hy]))

/-- C15, amended. For every header text from which `readFields` reads the fields, if some
byte at the offsets 23 to 87 is not a space and no byte at the offsets 24 to 87 is zero,
the title is the bytes from offset 24 up to and including offset 87 with all spaces at
the end removed; it does not end in a space, it holds bytes of the title field only, none
of the date, and it is empty when the title field holds spaces only. -/
theorem title_extraction (host : Host) (buf : List Byte) (fields : HeaderFields)
    (h : readFields host buf = some (some fields))
    (hns : ∃ j b, 23 ≤ j ∧ j ≤ 87 ∧ buf[j]? = some b ∧ b ≠ 32)
    (hnz : ∀ x ∈ (buf.drop titleStartPosition).take 64, x ≠ 0) :
    fields.title =
      ((buf.drop titleStartPosition).take 64).rdropWhile (fun b => decide (b = 32)) ∧
    fields.title.getLast? ≠ some 32 ∧
    fields.title <+: (buf.drop titleStartPosition).take 64 ∧
    ((∀ x ∈ (buf.drop titleStartPosition).take 64, x = 32) → fields.title = []) := by
  obtain ⟨i, _, hlen, _, hi, _, htitle, _⟩ := readFields_success host buf fields h
  simp only [dateEndPosition, dateStartPosition, titleStartPosition] at hlen hi htitle hnz ⊢
  have hset : ∀ k, k ≤ 87 → (buf.set 112 0)[k]? = buf[k]? := fun k hk =>
    List.getElem?_set_ne (by omega)
  obtain ⟨h1, ⟨c, hc, hcs⟩, h3⟩ := titleEnd_inv (buf.set 112 0) 87 i hi
  rw [hset i h1] at hc
  have hi23 : 23 ≤ i := by
    obtain ⟨j, b, hj1, hj2, hb, hs⟩ := hns
    by_contra hlt
    have := h3 j (by omega) hj2
    rw [hset j hj2, hb] at this
    exact hs (Option.some.inj this)
  -- the title is the bytes 24 to `i`
  have z : ((buf.set 112 0).set (i + 1) 0)[24 + (i - 23)]? = some 0 := by
    rw [show 24 + (i - 23) = i + 1 by omega, List.getElem?_set_self (by simp; omega)]
  have hreg : (((buf.set 112 0).set (i + 1) 0).drop 24).take (i - 23) =
      (buf.drop 24).take (i - 23) := by
    rw [region_set _ _ _ _ _ (by omega), region_set _ _ _ _ _ (by omega)]
  have hsplit : (buf.drop 24).take 64 =
      (buf.drop 24).take (i - 23) ++ ((buf.drop 24).take 64).drop (i - 23) := by
    have := (List.take_append_drop (i - 23) ((buf.drop 24).take 64)).symm
    rwa [List.take_take, Nat.min_eq_left (by omega)] at this
  have hnz' : ∀ x ∈ (buf.drop 24).take (i - 23), notNul x = true := by
    intro x hx
    have : x ∈ (buf.drop 24).take 64 := by
      rw [hsplit]; exact List.mem_append_left _ hx
    simpa [notNul] using hnz x this
  have ht : fields.title = (buf.drop 24).take (i - 23) := by
    rw [htitle, cstr_region _ 24 (i - 23) z, hreg, List.takeWhile_eq_self_iff]
    exact hnz'
  -- the bytes after `i` are spaces
  have hsp : ∀ x ∈ ((buf.drop 24).take 64).drop (i - 23), decide (x = 32) = true := by
    intro x hx
    obtain ⟨k, hk⟩ := List.mem_iff_getElem?.1 hx
    rw [List.getElem?_drop] at hk
    have hk64 : i - 23 + k < 64 := by
      by_contra hge
      rw [List.getElem?_take_eq_none (by omega)] at hk
      cases hk
    rw [List.getElem?_take_of_lt hk64, List.getElem?_drop] at hk
    have := h3 (24 + (i - 23 + k)) (by omega) (by omega)
    rw [hset _ (by omega), hk] at this
    simpa using Option.some.inj this
  -- the byte at `i` is no space
  have hlast : ((buf.drop 24).take (i - 23)).rdropWhile (fun b => decide (b = 32)) =
      (buf.drop 24).take (i - 23) := by
    rw [List.rdropWhile_eq_self_iff]
    intro hne
    have hlen' : ((buf.drop 24).take (i - 23)).length = i - 23 := by
      rw [List.length_take, List.length_drop]; omega
    have hpos : 0 < i - 23 := by
      rw [← hlen']; exact List.length_pos.2 hne
    have hg : ((buf.drop 24).take (i - 23)).getLast hne = c := by
      have e1 := List.getLast?_eq_getLast _ hne
      rw [List.getLast?_eq_getElem?, hlen', List.getElem?_take_of_lt (by omega),
        List.getElem?_drop, show 24 + (i - 23 - 1) = i by omega, hc] at e1
      exact (Option.some.inj e1).symm
    rw [hg]
    simpa using hcs
  have hmain : fields.title =
      ((buf.drop 24).take 64).rdropWhile (fun b => decide (b = 32)) := by
    rw [hsplit, rdropWhile_append_of_all _ _ _ hsp, hlast, ht]
  refine ⟨hmain, ?_, ?_, ?_⟩
  · intro hl
    rw [hmain] at hl
    have hne : ((buf.drop 24).take 64).rdropWhile (fun b => decide (b = 32)) ≠ [] := by
      intro he; rw [he] at hl; cases hl
    have := List.rdropWhile_last_not (fun b : Byte => decide (b = 32)) _ hne
    rw [List.getLast?_eq_getLast _ hne] at hl
    rw [Option.some.inj hl] at this
    simp at this
  · rw [hmain]
    exact List.rdropWhile_prefix _ _
  · intro hall
    rw [hmain, List.rdropWhile_eq_nil_iff]
    intro x hx
    simpa using hall x hx

set_option maxRecDepth 1000000 in
/-- C15 at the example header: the title is `"Example circuit"`. -/
theorem title_extraction_witness :
    ∃ fields, readFields Host.ideal (exampleHeaderText ++ [0]) = some (some fields) ∧
      fields.title =
        (((exampleHeaderText ++ [0]).drop titleStartPosition).take 64).rdropWhile
          (fun b => decide (b = 32)) ∧
      fields.title = [69, 120, 97, 109, 112, 108, 101, 32, 99, 105, 114, 99, 117, 105, 116] :=
  match h : readFields Host.ideal (exampleHeaderText ++ [0]) with
  | some (some fields) =>
    ⟨fields, rfl,
      (title_extraction Host.ideal (exampleHeaderText ++ [0]) fields h
        ⟨24, 69, by decide, by decide, by decide, by decide⟩ (by decide)).1,
      by
        have e : (readFields Host.ideal (exampleHeaderText ++ [0])).map
            (Option.map fun r => r.title) =
            some (some [69, 120, 97, 109, 112, 108, 101, 32, 99, 105, 114, 99, 117, 105,
              116]) := by decide
        rw [h] at e
        simpa using e⟩
  | some none => absurd h (by decide)
  | none => absurd h (by decide)

set_option maxRecDepth 1000000 in
/-- C15 as stated fails. With the byte at offset 87 of the example header set to `x`, the
title is the 64 bytes from offset 24 to offset 87, the last one included: it is no part
of the bytes before offset 87. And with a title field of spaces only, the terminator is
written before offset 24, and the title is the 64 spaces followed by the 24 bytes of the
date. -/
theorem title_extraction_counterexample :
    (readFields Host.ideal ((exampleHeaderText ++ [0]).set 87 120)).map
        (Option.map fun r => r.title) =
      some (some ((((exampleHeaderText ++ [0]).set 87 120).drop 24).take 64)) ∧
    ¬ ((((exampleHeaderText ++ [0]).set 87 120).drop 24).take 64 <+:
      (((exampleHeaderText ++ [0]).set 87 120).drop 24).take 63) ∧
    (readFields Host.ideal exampleBlankTitleHeader).map (Option.map fun r => r.title) =
      some (some (List.replicate 64 32 ++ (exampleFixedFields.drop 88).take 24)) := by
  decide

/-! ## The number of sweep points (C16) -/

/-- Two buffers that agree at the positions of a region have the same region. -/
theorem region_congr (m1 m2 : List Byte) (p n : Nat)
    (h : ∀ k, p ≤ k → k < p + n → m1[k]? = m2[k]?) :
    (m1.drop p).take n = (m2.drop p).take n := by
  apply List.ext_getElem?
  intro k
  by_cases hk : k < n
  · rw [List.getElem?_take_of_lt hk, List.getElem?_take_of_lt hk, List.getElem?_drop,
      List.getElem?_drop]
    exact h _ (by omega) (by omega)
  · rw [List.getElem?_take_eq_none (by omega), List.getElem?_take_eq_none (by omega)]

/-- Two buffers that agree from a position on hold the same string there. -/
theorem cstr_congr (m1 m2 : List Byte) (p : Nat) (h : ∀ k, p ≤ k → m1[k]? = m2[k]?) :
    cstr m1 p = cstr m2 p ∧ cstrAt m1 p = cstrAt m2 p := by
  have e : m1.drop p = m2.drop p := by
    apply List.ext_getElem?
    intro k
    rw [List.getElem?_drop, List.getElem?_drop]
    exact h _ (by omega)
  unfold cstrAt cstr
  rw [e]
  exact ⟨rfl, rfl⟩

/-- A loop of assignments at positions from `p` on leaves the buffer below `p` alone. -/
theorem foldl_set_frame (p : Nat) (g : List Byte → Nat → Byte) :
    ∀ (js : List Nat) (mem : List Byte),
      (js.foldl (fun m j => m.set (p + j) (g m j)) mem).length = mem.length ∧
      ∀ k, k < p → (js.foldl (fun m j => m.set (p + j) (g m j)) mem)[k]? = mem[k]?
  | [], mem => by simp
  | j :: js, mem => by
    simp only [List.foldl_cons]
    obtain ⟨h1, h2⟩ := foldl_set_frame p g js (mem.set (p + j) (g mem j))
    refine ⟨by rw [h1, List.length_set], fun k hk => ?_⟩
    rw [h2 k hk, List.getElem?_set_ne (by omega)]

/-- The call of `strtok` writes after the position it starts at only, and the token it
returns does not start before that position. -/
theorem strtok_frame (mem : List Byte) (start : Nat) (st : TokRead)
    (h : strtok mem start = some st) :
    st.mem.length = mem.length ∧ start < st.save + 1 ∧
    (∀ k, k ≤ start → st.mem[k]? = mem[k]?) ∧
    (∀ q, st.token = some q → start ≤ q ∧ q < st.save) := by
  unfold strtok at h
  by_cases h0 : (mem.drop start).all notNul = true
  · rw [if_pos h0] at h
    exact absurd h (by simp)
  · rw [if_neg h0] at h
    dsimp only at h
    by_cases h1 : ((mem.drop (start + ((mem.drop start).takeWhile isDelim).length)).takeWhile
        isTokenByte).length = 0
    · rw [if_pos h1] at h
      obtain rfl := Option.some.inj h
      exact ⟨rfl, by dsimp only; omega, fun _ _ => rfl, fun q hq => by simp at hq⟩
    · rw [if_neg h1] at h
      by_cases h2 : mem.getD (start + ((mem.drop start).takeWhile isDelim).length +
          ((mem.drop (start + ((mem.drop start).takeWhile isDelim).length)).takeWhile
            isTokenByte).length) 0 = 0
      · rw [if_pos h2] at h
        obtain rfl := Option.some.inj h
        refine ⟨rfl, by dsimp only; omega, fun _ _ => rfl, fun q hq => ?_⟩
        simp only [Option.some.injEq] at hq
        subst hq
        dsimp only
        omega
      · rw [if_neg h2] at h
        obtain rfl := Option.some.inj h
        refine ⟨by simp, by dsimp only; omega, fun k hk => ?_, fun q hq => ?_⟩
        · dsimp only
          rw [List.getElem?_set_ne (by omega)]
        · simp only [Option.some.injEq] at hq
          subst hq
          dsimp only
          omega

/-- The loop that skips tokens writes after the position it starts at only, and the token
of its last call does not start before that position. -/
theorem skipTokens_frame : ∀ (n : Nat) (st st' : TokRead), skipTokens n st = some st' →
    st'.mem.length = st.mem.length ∧ st.save ≤ st'.save ∧
    (∀ k, k ≤ st.save → st'.mem[k]? = st.mem[k]?) ∧
    (0 < n → ∀ q, st'.token = some q → st.save ≤ q)
  | 0, st, st', h => by
    simp only [skipTokens, Option.some.injEq] at h
    subst h
    exact ⟨rfl, Nat.le_refl _, fun _ _ => rfl, fun h => absurd h (by omega)⟩
  | n + 1, st, st', h => by
    simp only [skipTokens, Option.bind_eq_some] at h
    obtain ⟨s1, hs1, h⟩ := h
    obtain ⟨a1, a2, a3, a4⟩ := strtok_frame _ _ _ hs1
    obtain ⟨b1, b2, b3, b4⟩ := skipTokens_frame n s1 st' h
    refine ⟨by rw [b1, a1], by omega, fun k hk => ?_, fun _ q hq => ?_⟩
    · rw [b3 k (by omega), a3 k hk]
    · by_cases hn : 0 < n
      · have := b4 hn q hq
        omega
      · have hn0 : n = 0 := by omega
        subst hn0
        simp only [skipTokens, Option.some.injEq] at h
        subst h
        exact (a4 q hq).1

/-- The loop that gets the vector names writes after the position it starts at only, and
no name starts before that position. -/
theorem nameTokens_frame : ∀ (n : Nat) (mem : List Byte) (save : Nat) (r : NamesRead),
    nameTokens n mem save = some (some r) →
    r.mem.length = mem.length ∧ save ≤ r.save ∧
    (∀ k, k ≤ save → r.mem[k]? = mem[k]?) ∧ ∀ q ∈ r.name, save ≤ q
  | 0, mem, save, r, h => by
    simp only [nameTokens, Option.some.injEq] at h
    subst h
    exact ⟨rfl, Nat.le_refl _, fun _ _ => rfl, fun q hq => by simp at hq⟩
  | n + 1, mem, save, r, h => by
    simp only [nameTokens, Option.bind_eq_some] at h
    obtain ⟨s1, hs1, h⟩ := h
    obtain ⟨a1, a2, a3, a4⟩ := strtok_frame _ _ _ hs1
    cases ht : s1.token with
    | none => rw [ht] at h; simp at h
    | some q0 =>
      rw [ht] at h
      simp only [Option.map_eq_some'] at h
      obtain ⟨r1, hr1, h⟩ := h
      cases r1 with
      | none => simp at h
      | some r1 =>
        simp only [Option.map_some', Option.some.injEq] at h
        obtain ⟨_, rfl, rfl⟩ := h
        obtain ⟨b1, b2, b3, b4⟩ := nameTokens_frame n s1.mem s1.save r1 hr1
        refine ⟨by dsimp only; rw [b1, a1], by dsimp only; omega, fun k hk => ?_,
          fun q hq => ?_⟩
        · dsimp only
          rw [b3 k (by omega), a3 k hk]
        · simp only [List.mem_cons] at hq
          rcases hq with rfl | hq
          · exact (a4 _ ht).1
          · have := b4 q hq
            omega

/-- The processing of a vector name leaves the buffer before the name alone. -/
theorem processName_frame (mem : List Byte) (p : Nat) :
    (processName mem p).length = mem.length ∧
    ∀ k, k < p → (processName mem p)[k]? = mem[k]? := by
  unfold processName
  dsimp only
  obtain ⟨a1, a2⟩ := foldl_set_frame p (fun m j => toLowerAscii (m.getD (p + j) 0))
    (List.range (cstr mem p).length) mem
  split
  · obtain ⟨b1, b2⟩ := foldl_set_frame p (fun m j => m.getD (p + (j + 2)) 0)
      (List.range ((cstr mem p).length - 2))
      ((List.range (cstr mem p).length).foldl
        (fun m j => m.set (p + j) (toLowerAscii (m.getD (p + j) 0))) mem)
    refine ⟨by rw [List.length_set, b1, a1], fun k hk => ?_⟩
    rw [List.getElem?_set_ne (by omega), b2 k hk, a2 k hk]
  · exact ⟨a1, a2⟩

/-- The processing of the vector names leaves the buffer before the names alone. -/
theorem processNames_frame (lo : Nat) : ∀ (name : List Nat) (mem : List Byte),
    (∀ q ∈ name, lo ≤ q) →
    (processNames mem name).length = mem.length ∧
    ∀ k, k < lo → (processNames mem name)[k]? = mem[k]?
  | [], mem, _ => by simp [processNames]
  | q :: name, mem, h => by
    have e : processNames mem (q :: name) = processNames (processName mem q) name := rfl
    rw [e]
    obtain ⟨a1, a2⟩ := processName_frame mem q
    obtain ⟨b1, b2⟩ := processNames_frame lo name (processName mem q)
      (fun x hx => h x (List.mem_cons_of_mem _ hx))
    have hq := h q (List.mem_cons_self _ _)
    refine ⟨by rw [b1, a1], fun k hk => ?_⟩
    rw [b2 k hk, a2 k (by omega)]

/-- The reading of the vector description leaves the fixed fields of the header alone: it
writes after position 256 only. -/
theorem readNames_frame (host : Host) (buf : List Byte) (nv : Int) (names : VectorNames)
    (h : readNames host buf nv = some (some names)) :
    names.mem.length = buf.length ∧ vectorDescriptionStartPosition < names.save ∧
    ∀ k, k ≤ vectorDescriptionStartPosition → names.mem[k]? = buf[k]? := by
  unfold readNames at h
  simp only [Option.bind_eq_some] at h
  obtain ⟨st, hst, h⟩ := h
  obtain ⟨a1, a2, a3, a4⟩ := strtok_frame _ _ _ hst
  cases ht : st.token with
  | none => rw [ht] at h; simp at h
  | some q =>
    rw [ht] at h
    simp only [Option.bind_eq_some] at h
    obtain ⟨code, hcode, st2, hst2, h⟩ := h
    obtain ⟨b1, b2, b3, b4⟩ := skipTokens_frame _ _ _ hst2
    cases ht2 : st2.token with
    | none => rw [ht2] at h; simp at h
    | some token =>
      rw [ht2] at h
      dsimp only at h
      by_cases hu : host.unicode (cstr st2.mem token) = false
      · rw [if_pos hu] at h; simp at h
      · rw [if_neg hu] at h
        by_cases ha : host.alloc (mallocSize (nv - 1) 8) = false
        · rw [if_pos ha] at h; simp at h
        · rw [if_neg ha] at h
          simp only [Option.map_eq_some'] at h
          obtain ⟨r, hr, h⟩ := h
          cases r with
          | none => simp at h
          | some r =>
            simp only [Option.map_some', Option.some.injEq] at h
            obtain ⟨_, rfl, rfl⟩ := h
            obtain ⟨c1, c2, c3, c4⟩ := nameTokens_frame _ _ _ _ hr
            have hq := a4 q ht
            obtain ⟨d1, d2⟩ := processNames_frame (vectorDescriptionStartPosition + 1) r.name
              r.mem (fun x hx => by have := c4 x hx; omega)
            refine ⟨by dsimp only; rw [d1, c1, b1, a1], by dsimp only; omega, fun k hk => ?_⟩
            dsimp only
            rw [d2 k (by omega), c3 k (by omega), b3 k (by omega), a3 k hk]

/-- What a successful `getSweepInfo` has done: the buffer is changed after the position
`strtok` had saved only, and the number of sweep points is the integer `atoi` reads at
position 187 when the buffer holds `2001` at position 20, at position 176 otherwise. -/
theorem getSweepInfo_frame (host : Host) (mem : List Byte) (save : Nat) (sr : SweepRead)
    (h : getSweepInfo host mem save = some (some sr)) :
    sr.mem.length = mem.length ∧ (∀ k, k ≤ save → sr.mem[k]? = mem[k]?) ∧
    0 ≤ sr.sweepSize ∧
    ∃ e21, strncmpEq sr.mem postStartPosition2 postString21 = some e21 ∧
      atoi sr.mem (if e21 = true then sweepSizePosition2 else sweepSizePosition1) =
        some sr.sweepSize := by
  unfold getSweepInfo at h
  simp only [Option.bind_eq_some] at h
  obtain ⟨st, hst, h⟩ := h
  obtain ⟨a1, a2, a3, a4⟩ := strtok_frame _ _ _ hst
  cases ht : st.token with
  | none => rw [ht] at h; simp at h
  | some q =>
    rw [ht] at h
    dsimp only at h
    by_cases hu : host.unicode (cstr st.mem q) = false
    · rw [if_pos hu] at h; simp at h
    · rw [if_neg hu] at h
      simp only [Option.bind_eq_some] at h
      obtain ⟨e21, he, sweepSize, hs, h⟩ := h
      by_cases hb : sweepSize < 0 ∨ host.arrayNew false sweepSize.toNat = false
      · rw [if_pos hb] at h; simp at h
      · rw [if_neg hb] at h
        simp only [Option.some.injEq] at h
        subst h
        exact ⟨a1, a3, by dsimp only; omega, e21, he, hs⟩

/-- The terminators written while the date, the title and the counts are read lie at
position 112 and before: the header text is unchanged after it, and it holds `2001` at
position 20 after the writes exactly when it did before. -/
theorem readFields_frame (host : Host) (buf : List Byte) (fields : HeaderFields)
    (h : readFields host buf = some (some fields)) :
    dateEndPosition < buf.length ∧ fields.mem.length = buf.length ∧
    (∀ k, dateEndPosition < k → fields.mem[k]? = buf[k]?) ∧
    ((fields.mem.drop postStartPosition2).take 4 = postString21 ↔
      (buf.drop postStartPosition2).take 4 = postString21) := by
  obtain ⟨i, _, hlen, hu, hi, _, _, _, _, _, _, _, hmem, _⟩ := readFields_success host buf fields h
  have hp : (buf.drop 16).take 4 = postString11 ∨ (buf.drop 16).take 4 = postString12 ∨
      (buf.drop 20).take 4 = postString21 := by
    rw [unknownPostFormat_eq buf (by simp only [dateEndPosition] at hlen; omega)] at hu
    by_contra hc
    simp [hc] at hu
  obtain ⟨i', hi', h19, h87, h23⟩ := titleEnd_post buf hlen hp
  rw [hi] at hi'
  obtain rfl := Option.some.inj hi'
  simp only [dateEndPosition, numOfSweepsEndPosition, numOfSweepsPosition, numOfProbesPosition,
    postStartPosition2] at *
  refine ⟨hlen, by rw [hmem]; simp, fun k hk => ?_, ?_⟩
  · rw [hmem, List.getElem?_set_ne (by omega), List.getElem?_set_ne (by omega),
      List.getElem?_set_ne (by omega), List.getElem?_set_ne (by omega),
      List.getElem?_set_ne (by omega)]
  · rw [hmem, region_set _ _ _ _ _ (Or.inl (by omega)), region_set _ _ _ _ _ (Or.inl (by omega)),
      region_set _ _ _ _ _ (Or.inl (by omega))]
    by_cases hin : 24 ≤ i + 1
    · rw [region_set _ _ _ _ _ (Or.inr (by omega)), region_set _ _ _ _ _ (Or.inr (by omega))]
    · have hn : ¬ ((buf.drop 20).take 4 = postString21) := fun hc => by
        have := h23 hc
        omega
      refine ⟨fun hc => ?_, fun hc => absurd hc hn⟩
      exfalso
      have hk := getElem?_of_region _ 20 4 _ hc (i + 1 - 20) (by omega)
      have e : 20 + (i + 1 - 20) = i + 1 := by omega
      rw [e, List.getElem?_set_self (by simp; omega)] at hk
      have hcases : i + 1 - 20 = 0 ∨ i + 1 - 20 = 1 ∨ i + 1 - 20 = 2 ∨ i + 1 - 20 = 3 := by
        omega
      rcases hcases with h0 | h0 | h0 | h0 <;> rw [h0] at hk <;>
        simp [postString21] at hk

/-- The bytes that satisfy a predicate at the start of a string are the same in any string
with the same start, the byte that ends them included. -/
theorem takeWhile_congr (p : Byte → Bool) : ∀ (l l' : List Byte),
    (l.takeWhile p).length < l.length →
    l.take ((l.takeWhile p).length + 1) = l'.take ((l.takeWhile p).length + 1) →
    l'.takeWhile p = l.takeWhile p
  | [], _, h, _ => by simp at h
  | a :: t, [], _, e => by simp at e
  | a :: t, a' :: t', h, e => by
    by_cases ha : p a = true
    · rw [List.takeWhile_cons_of_pos ha] at h e ⊢
      simp only [List.length_cons, List.take_succ_cons, List.cons.injEq] at h e
      obtain ⟨rfl, e⟩ := e
      rw [List.takeWhile_cons_of_pos ha, takeWhile_congr p t t' (by omega) e]
    · rw [List.takeWhile_cons_of_neg ha] at e ⊢
      simp only [List.length_nil, Nat.zero_add, List.take_succ_cons, List.take_zero,
        List.cons.injEq, and_true] at e
      subst e
      rw [List.takeWhile_cons_of_neg ha]

/-- What follows the bytes that satisfy a predicate at the start of a string starts the
same in any string with the same start. -/
theorem dropWhile_congr (p : Byte → Bool) : ∀ (l l' : List Byte) (m : Nat),
    (l.takeWhile p).length < l.length →
    l.take ((l.takeWhile p).length + (m + 1)) = l'.take ((l.takeWhile p).length + (m + 1)) →
    (l'.dropWhile p).take (m + 1) = (l.dropWhile p).take (m + 1)
  | [], _, _, h, _ => by simp at h
  | a :: t, [], m, _, e => by
    rw [← Nat.add_assoc] at e
    simp at e
  | a :: t, a' :: t', m, h, e => by
    by_cases ha : p a = true
    · rw [List.takeWhile_cons_of_pos ha] at h e
      have e' : (a :: t).take (((t.takeWhile p).length + (m + 1)) + 1) =
          (a' :: t').take (((t.takeWhile p).length + (m + 1)) + 1) := by
        have : (a :: t.takeWhile p).length + (m + 1) =
            ((t.takeWhile p).length + (m + 1)) + 1 := by
          simp only [List.length_cons]
          omega
        rw [← this]
        exact e
      simp only [List.length_cons, List.take_succ_cons, List.cons.injEq] at h e'
      obtain ⟨rfl, e'⟩ := e'
      rw [List.dropWhile_cons_of_pos ha, List.dropWhile_cons_of_pos ha]
      exact dropWhile_congr p t t' m (by omega) e'
    · rw [List.takeWhile_cons_of_neg ha] at e
      simp only [List.length_nil, Nat.zero_add, List.take_succ_cons, List.cons.injEq] at e
      obtain ⟨rfl, e⟩ := e
      rw [List.dropWhile_cons_of_neg ha, List.dropWhile_cons_of_neg ha, List.take_succ_cons,
        List.take_succ_cons, e]

/-- The call `atoi` gives the same on two strings with the same sign after the white space
and the same digits after it. -/
theorem atoiStr_congr_parts (s s' : List Byte)
    (h45 : (s'.dropWhile isSpace).head? = some 45 ↔ (s.dropWhile isSpace).head? = some 45)
    (h43 : (s'.dropWhile isSpace).head? = some 43 ↔ (s.dropWhile isSpace).head? = some 43)
    (hd : ((s'.dropWhile isSpace).drop
        (if (s.dropWhile isSpace).head? = some 45 ∨ (s.dropWhile isSpace).head? = some 43
          then 1 else 0)).takeWhile isDigit =
      ((s.dropWhile isSpace).drop
        (if (s.dropWhile isSpace).head? = some 45 ∨ (s.dropWhile isSpace).head? = some 43
          then 1 else 0)).takeWhile isDigit) :
    atoiStr s' = atoiStr s := by
  have e45 := propext h45
  have e43 := propext h43
  unfold atoiStr
  simp only [e45, e43]
  by_cases h : (s.dropWhile isSpace).head? = some 45 ∨ (s.dropWhile isSpace).head? = some 43
  · rw [if_pos h] at hd
    simp only [h, if_true, hd]
  · rw [if_neg h, List.drop_zero, List.drop_zero] at hd
    simp only [h, if_false, hd]

/-- The call `atoi` reads the bytes it passes over and the byte it stops at only: it gives
the same on any string with the same start. -/
theorem atoiStr_congr (l l' : List Byte) (hs : atoiSpan l < l.length)
    (h : l.take (atoiSpan l + 1) = l'.take (atoiSpan l + 1)) : atoiStr l' = atoiStr l := by
  unfold atoiSpan at hs h
  dsimp only at hs h
  have hlen : l.length = (l.takeWhile isSpace).length + (l.dropWhile isSpace).length := by
    rw [← List.length_append, List.takeWhile_append_dropWhile]
  generalize hsg : (if (l.dropWhile isSpace).head? = some 45 ∨
    (l.dropWhile isSpace).head? = some 43 then 1 else 0) = sg at hs h
  generalize hdg : (((l.dropWhile isSpace).drop sg).takeWhile isDigit).length = d at hs h
  have hr := dropWhile_congr isSpace l l' (sg + d) (by omega)
    (by rw [← Nat.add_assoc, ← Nat.add_assoc]; exact h)
  have hhead : (l'.dropWhile isSpace).head? = (l.dropWhile isSpace).head? := by
    have ht : ∀ (x : List Byte) (n : Nat), (x.take (n + 1)).head? = x.head? :=
      fun x n => by cases x <;> rfl
    have := congrArg List.head? hr
    rw [ht, ht] at this
    exact this
  have hdrop : ((l'.dropWhile isSpace).drop sg).take (d + 1) =
      ((l.dropWhile isSpace).drop sg).take (d + 1) := by
    have := congrArg (List.drop sg) hr
    rw [List.drop_take, List.drop_take] at this
    have e : sg + d + 1 - sg = d + 1 := by omega
    rw [e] at this
    exact this
  have hlt : (((l.dropWhile isSpace).drop sg).takeWhile isDigit).length <
      ((l.dropWhile isSpace).drop sg).length := by
    rw [hdg, List.length_drop]
    omega
  have hdig := takeWhile_congr isDigit ((l.dropWhile isSpace).drop sg)
    ((l'.dropWhile isSpace).drop sg) hlt (by rw [hdg]; exact hdrop.symm)
  apply atoiStr_congr_parts
  · rw [hhead]
  · rw [hhead]
  · rw [hsg]
    exact hdig

/-- The call `atoi` does not read past a zero byte: it gives the same on the string up to
the terminator as on the bytes of the buffer. -/
theorem atoiStr_takeWhile_notNul (l : List Byte) :
    atoiStr (l.takeWhile notNul) = atoiStr l := by
  have hsp : ∀ b : Byte, isSpace b = true → notNul b = true := fun b hb => by
    unfold notNul
    rcases Decidable.em (b = 0) with rfl | h
    · exact absurd hb (by decide)
    · simpa using h
  have hdig : ∀ b : Byte, isDigit b = true → notNul b = true := fun b hb => by
    unfold notNul
    rcases Decidable.em (b = 0) with rfl | h
    · exact absurd hb (by decide)
    · simpa using h
  have h1 : ∀ l : List Byte, (l.takeWhile notNul).dropWhile isSpace =
      (l.dropWhile isSpace).takeWhile notNul := fun l => by
    induction l with
    | nil => rfl
    | cons a t ih =>
      by_cases ha : isSpace a = true
      · rw [List.takeWhile_cons_of_pos (hsp a ha), List.dropWhile_cons_of_pos ha,
          List.dropWhile_cons_of_pos ha, ih]
      · by_cases hn : notNul a = true
        · rw [List.takeWhile_cons_of_pos hn, List.dropWhile_cons_of_neg ha,
            List.dropWhile_cons_of_neg ha, List.takeWhile_cons_of_pos hn]
        · rw [List.takeWhile_cons_of_neg hn, List.dropWhile_cons_of_neg ha,
            List.takeWhile_cons_of_neg hn]
          rfl
  have h2 : ∀ (r : List Byte) (c : Byte), c ≠ 0 →
      ((r.takeWhile notNul).head? = some c ↔ r.head? = some c) := fun r c hc => by
    cases r with
    | nil => simp
    | cons a t =>
      by_cases hn : notNul a = true
      · rw [List.takeWhile_cons_of_pos hn]
        simp
      · rw [List.takeWhile_cons_of_neg hn]
        have ha : a = 0 := by
          unfold notNul at hn
          simpa using hn
        subst ha
        simp only [List.head?_nil, List.head?_cons, Option.some.injEq]
        constructor
        · intro h
          exact absurd h (by simp)
        · intro h
          exact absurd h.symm hc
  have h3 : ∀ r : List Byte, (r.takeWhile notNul).takeWhile isDigit = r.takeWhile isDigit :=
    fun r => by
      induction r with
      | nil => rfl
      | cons a t ih =>
        by_cases hn : notNul a = true
        · rw [List.takeWhile_cons_of_pos hn]
          by_cases hd : isDigit a = true
          · rw [List.takeWhile_cons_of_pos hd, List.takeWhile_cons_of_pos hd, ih]
          · rw [List.takeWhile_cons_of_neg hd, List.takeWhile_cons_of_neg hd]
        · rw [List.takeWhile_cons_of_neg hn, List.takeWhile_cons_of_neg (fun hd => hn (hdig a hd))]
          rfl
  have h4 : ∀ r : List Byte, (∃ c, c ≠ 0 ∧ r.head? = some c) →
      (r.takeWhile notNul).drop 1 = (r.drop 1).takeWhile notNul := fun r hr => by
    obtain ⟨c, hc, hh⟩ := hr
    cases r with
    | nil => simp at hh
    | cons a t =>
      simp only [List.head?_cons, Option.some.injEq] at hh
      subst hh
      have hn : notNul a = true := by
        unfold notNul
        simpa using hc
      rw [List.takeWhile_cons_of_pos hn]
      rfl
  apply atoiStr_congr_parts
  · rw [h1]
    exact h2 _ 45 (by decide)
  · rw [h1]
    exact h2 _ 43 (by decide)
  · rw [h1]
    by_cases h : (l.dropWhile isSpace).head? = some 45 ∨ (l.dropWhile isSpace).head? = some 43
    · rw [if_pos h, h4 _ (by
        rcases h with h | h
        · exact ⟨45, by decide, h⟩
        · exact ⟨43, by decide, h⟩), h3]
    · rw [if_neg h, List.drop_zero, List.drop_zero, h3]

/-- The call of `strtok` that returns has found a terminator from its position on. -/
theorem strtok_terminated (mem : List Byte) (start : Nat) (st : TokRead)
    (h : strtok mem start = some st) : ¬ (mem.drop start).all notNul = true := by
  unfold strtok at h
  intro h0
  rw [if_pos h0] at h
  exact absurd h (by simp)

/-- When the vector description is read, the buffer holds a terminator from position 256
on. -/
theorem readNames_terminated (host : Host) (buf : List Byte) (nv : Int) (names : VectorNames)
    (h : readNames host buf nv = some (some names)) :
    ¬ (buf.drop vectorDescriptionStartPosition).all notNul = true := by
  unfold readNames at h
  obtain ⟨st, hst, _⟩ := Option.bind_eq_some.mp h
  exact strtok_terminated _ _ _ hst

/-- A buffer that holds a terminator from a position on holds one from any position before
it on. -/
theorem terminated_of_le (mem : List Byte) (p q : Nat) (hpq : p ≤ q)
    (h : ¬ (mem.drop q).all notNul = true) : ¬ (mem.drop p).all notNul = true := by
  intro hp
  apply h
  have e : mem.drop q = (mem.drop p).drop (q - p) := by
    rw [List.drop_drop]
    congr 1
    omega
  rw [e]
  rw [List.all_eq_true] at hp ⊢
  exact fun x hx => hp x (List.mem_of_mem_drop hx)

/-- C16, amended. When a sweep is declared and read, the number of sweep points is the
integer `atoi` reads in the header buffer, as the reading of the vector description has
left it, at offset 187 if the header text holds `2001` at offsets 20 to 23, and at offset
176 in every other case. The terminators written while the date, the title and the counts
were read do not alter the bytes this reads: the buffer after them is the header text from
offset 113 on. The reading of the vector description leaves the bytes from offset 113 to
offset 256 as they are, and writes terminators after them only: when the byte at which
`atoi` stops in the header text, the first after the white space, the sign and the digits,
lies at offset 256 or before, the number of sweep points is the integer `atoi` reads in
the header text itself. -/
theorem sweep_size_position (host : Host) (buf : List Byte) (fields : HeaderFields)
    (names : VectorNames) (sr : SweepRead)
    (hf : readFields host buf = some (some fields))
    (hn : readNames host fields.mem fields.numOfVectors = some (some names))
    (hs : getSweepInfo host names.mem names.save = some (some sr)) :
    atoi sr.mem (if (buf.drop 20).take 4 = postString21 then sweepSizePosition2
      else sweepSizePosition1) = some sr.sweepSize ∧
    0 ≤ sr.sweepSize ∧
    (∀ k, dateEndPosition < k → fields.mem[k]? = buf[k]?) ∧
    (∀ k, dateEndPosition < k → k ≤ vectorDescriptionStartPosition → sr.mem[k]? = buf[k]?) ∧
    ((if (buf.drop 20).take 4 = postString21 then sweepSizePosition2 else sweepSizePosition1) +
        atoiSpan (buf.drop
          (if (buf.drop 20).take 4 = postString21 then sweepSizePosition2
            else sweepSizePosition1)) ≤ vectorDescriptionStartPosition →
      atoi buf (if (buf.drop 20).take 4 = postString21 then sweepSizePosition2
        else sweepSizePosition1) = some sr.sweepSize) := by
  obtain ⟨hlen, a1, a2, a3⟩ := readFields_frame host buf fields hf
  obtain ⟨b1, b2, b3⟩ := readNames_frame host fields.mem fields.numOfVectors names hn
  obtain ⟨c1, c2, c3, e21, he, hv⟩ := getSweepInfo_frame host names.mem names.save sr hs
  have hreg : (sr.mem.drop postStartPosition2).take 4 = (fields.mem.drop postStartPosition2).take 4 :=
    region_congr _ _ _ _ fun k _ hk => by
      simp only [postStartPosition2, vectorDescriptionStartPosition] at *
      rw [c2 k (by omega), b3 k (by omega)]
  have hl : postStartPosition2 + postString21.length ≤ sr.mem.length := by
    simp only [postStartPosition2, postString21, dateEndPosition, List.length_cons,
      List.length_nil] at *
    omega
  rw [strncmpEq_eq sr.mem postString21 postStartPosition2 hl] at he
  have he2 : e21 = decide ((buf.drop 20).take 4 = postString21) := by
    have := Option.some.inj he
    rw [← this]
    have e4 : postString21.length = 4 := rfl
    rw [e4, hreg]
    exact decide_eq_decide.mpr a3
  have hsame : ∀ k, dateEndPosition < k → k ≤ vectorDescriptionStartPosition →
      sr.mem[k]? = buf[k]? := fun k hk hk2 => by
    rw [c2 k (by omega), b3 k hk2, a2 k hk]
  have hmain : atoi sr.mem (if (buf.drop 20).take 4 = postString21 then sweepSizePosition2
      else sweepSizePosition1) = some sr.sweepSize := by
    rw [he2] at hv
    by_cases hc : (buf.drop 20).take 4 = postString21
    · rw [if_pos hc]
      simpa [hc] using hv
    · rw [if_neg hc]
      simpa [hc] using hv
  refine ⟨hmain, c3, a2, hsame, fun hspan => ?_⟩
  generalize hpos : (if (buf.drop 20).take 4 = postString21 then sweepSizePosition2
    else sweepSizePosition1) = pos at hmain hspan ⊢
  have hp : dateEndPosition < pos ∧ pos ≤ vectorDescriptionStartPosition := by
    rw [← hpos]
    simp only [dateEndPosition, vectorDescriptionStartPosition, sweepSizePosition1,
      sweepSizePosition2]
    split_ifs <;> omega
  -- the header text holds a terminator from position 256 on
  have hterm := readNames_terminated host fields.mem fields.numOfVectors names hn
  have hdrop : fields.mem.drop vectorDescriptionStartPosition =
      buf.drop vectorDescriptionStartPosition := by
    apply List.ext_getElem?
    intro k
    rw [List.getElem?_drop, List.getElem?_drop]
    exact a2 _ (by simp only [dateEndPosition, vectorDescriptionStartPosition]; omega)
  rw [hdrop] at hterm
  have hblen : vectorDescriptionStartPosition < buf.length := by
    by_contra hge
    apply hterm
    rw [List.drop_eq_nil_of_le (by omega)]
    rfl
  have hbterm := terminated_of_le buf pos vectorDescriptionStartPosition hp.2 hterm
  -- the two buffers agree on the bytes that `atoi` reads
  have hagree : (buf.drop pos).take (atoiSpan (buf.drop pos) + 1) =
      (sr.mem.drop pos).take (atoiSpan (buf.drop pos) + 1) := by
    have := region_congr sr.mem buf pos (atoiSpan (buf.drop pos) + 1) fun k hk1 hk2 =>
      hsame k (by omega) (by omega)
    exact this.symm
  have hcongr := atoiStr_congr (buf.drop pos) (sr.mem.drop pos)
    (by rw [List.length_drop]; omega) hagree
  unfold atoi cstrAt at hmain ⊢
  rw [if_neg hbterm, Option.some_bind]
  by_cases hst : (sr.mem.drop pos).all notNul = true
  · rw [if_pos hst] at hmain
    exact absurd hmain (by simp)
  · rw [if_neg hst, Option.some_bind] at hmain
    unfold cstr at hmain ⊢
    rw [atoiStr_takeWhile_notNul] at hmain ⊢
    rw [← hcongr]
    exact hmain

set_option maxRecDepth 1000000 in
/-- C16 at the example header with a sweep, of post format `9601`: the number of sweep
points is `2`, the integer at offset 176 of the buffer and of the header text, where
`atoi` stops at offset 180. -/
theorem sweep_size_position_witness :
    atoi exampleSweepBuffer sweepSizePosition1 = some 2 ∧
    sweepSizePosition1 + atoiSpan ((exampleSweepHeaderText ++ [0]).drop sweepSizePosition1) =
      180 ∧
    atoi (exampleSweepHeaderText ++ [0])
      (if ((exampleSweepHeaderText ++ [0]).drop 20).take 4 = postString21 then
        sweepSizePosition2 else sweepSizePosition1) = some 2 :=
  have h := sweep_size_position Host.ideal (exampleSweepHeaderText ++ [0]) exampleSweepFields
    exampleSweepNames ⟨[116, 101, 109, 112, 101, 114], 2, exampleSweepBuffer, 293⟩
    (by decide) (by decide) (by decide)
  ⟨by decide, by decide, h.2.2.2.2 (by decide)⟩

set_option maxRecDepth 1000000 in
/-- C16 as stated fails. In this header with one sweep the fixed fields hold spaces only
from offset 176 on, and the vector description starts with a carriage return: the integer
`atoi` reads at offset 176 of the header text is `7`, the second token of the description.
The reading of the vector description takes the carriage return for the first token and
writes a terminator after it, at offset 257, before the number of sweep points is read:
the number of sweep points is `0`. -/
theorem sweep_size_position_counterexample :
    ¬ ((exampleReturnHeaderText ++ [0]).drop 20).take 4 = postString21 ∧
    atoi (exampleReturnHeaderText ++ [0]) sweepSizePosition1 = some 7 ∧
    (((readFields Host.ideal (exampleReturnHeaderText ++ [0])).bind id).bind fun fields =>
      ((readNames Host.ideal fields.mem fields.numOfVectors).bind id).bind fun names =>
        ((getSweepInfo Host.ideal names.mem names.save).bind id).map fun sr =>
          (sr.sweepSize, sr.mem[257]?, atoi sr.mem sweepSizePosition1)) =
      some (0, some 0, some 0) := by
  decide

/-! ## The loop over the tables -/

/-- The stream `fread` leaves is the end of the stream it was given. -/
theorem fread_suffix (f : List Byte) (itemSize n : Nat) : (fread f itemSize n).2.2 <:+ f :=
  List.drop_suffix _ _

/-- The stream `readBlockHeader` leaves is the end of the stream it was given. -/
theorem readBlockHeader_suffix (le : Bool) (f : List Byte) (size : Int) (h : HeaderRead)
    (e : readBlockHeader le f size = some h) : h.f <:+ f := by
  unfold readBlockHeader at e
  dsimp only at e
  split_ifs at e <;>
    (obtain rfl := Option.some.inj e; exact fread_suffix _ _ _)

/-- The stream `readBlockData` leaves is the end of the stream it was given. -/
theorem readBlockData_suffix (f mem : List Byte) (pos offset itemSize : Nat)
    (numOfItems swap : Int) (d : DataRead)
    (e : readBlockData f mem pos offset itemSize numOfItems swap = some d) : d.f <:+ f := by
  unfold readBlockData at e
  dsimp only at e
  split_ifs at e <;>
    (obtain rfl := Option.some.inj e
     first
     | exact List.suffix_refl _
     | exact fread_suffix _ _ _)

/-- The stream `readBlockTrailer` leaves is the end of the stream it was given. -/
theorem readBlockTrailer_suffix (le : Bool) (f : List Byte) (swap header : Int) :
    (readBlockTrailer le f swap header).2 <:+ f := by
  unfold readBlockTrailer
  dsimp only
  split_ifs <;> exact fread_suffix _ _ _

/-- The stream `readDataBlock` leaves is the end of the stream it was given. -/
theorem readDataBlock_suffix (host : Host) (le : Bool) (f rawData : List Byte) (offset : Nat)
    (r : BlockRead) (e : readDataBlock host le f rawData offset = some r) : r.f <:+ f := by
  unfold readDataBlock at e
  simp only [Option.bind_eq_some] at e
  obtain ⟨h, hh, e⟩ := e
  have s1 := readBlockHeader_suffix le f 4 h hh
  split at e
  · obtain rfl := Option.some.inj e
    exact s1
  · split at e
    · obtain rfl := Option.some.inj e
      exact s1
    · simp only [Option.bind_eq_some] at e
      obtain ⟨d, hd, e⟩ := e
      have s2 := (readBlockData_suffix _ _ _ _ _ _ _ d hd).trans s1
      have s3 := (readBlockTrailer_suffix le d.f h.swap
        (h.blockHeader.getD (blockHeaderSize - 1) 0)).trans s2
      split_ifs at e <;>
        (obtain rfl := Option.some.inj e
         first
         | exact s2
         | exact s3)

/-- The stream the loop over the data blocks leaves is the end of the stream it was
given. -/
theorem readDataBlocks_suffix (host : Host) (le : Bool) :
    ∀ (fuel : Nat) (f rawData : List Byte) (offset : Nat) (r : BlockRead),
      readDataBlocks host le fuel f rawData offset = some r → r.f <:+ f
  | 0, _, _, _, _, e => by simp [readDataBlocks] at e
  | fuel + 1, f, rawData, offset, r, e => by
    simp only [readDataBlocks, Option.bind_eq_some] at e
    obtain ⟨r1, h1, e⟩ := e
    have s1 := readDataBlock_suffix host le f rawData offset r1 h1
    split at e
    · exact (readDataBlocks_suffix host le fuel _ _ _ r e).trans s1
    · obtain rfl := Option.some.inj e
      exact s1

/-- What a call of `readTable` that returns `0` has done: it has read the data blocks of
one table, turned them into arrays, put the arrays into a dictionary and appended the
dictionary to the list; with a sweep, it has stored the first float of the buffer as the
sweep value. -/
theorem readTable_success (host : Host) (le : Bool) (f : List Byte) (sweep : Bool)
    (nv type nvec : Int) (scale : List Byte) (name : List (List Byte)) (dataList : List Table)
    (tr : TableRead)
    (e : readTable host le f sweep nv type nvec scale name dataList = some tr)
    (h0 : tr.ret = 0) :
    ∃ (r : BlockRead) (cols : List Column) (data : Table),
      readDataBlocks host le (f.length + 1) f [] 0 = some r ∧ r.ret ≤ 0 ∧ r.f <:+ f ∧
      fillArrays host le r.buf r.offset sweep nv type nvec = some (some cols) ∧
      fillDict host scale name cols = some (some data) ∧
      tr = ⟨0, r.f, if sweep then some (floatAt le r.buf 0) else none, dataList ++ [data]⟩ := by
  unfold readTable at e
  simp only [Option.bind_eq_some] at e
  obtain ⟨r, hr, e⟩ := e
  have s1 := readDataBlocks_suffix host le _ f [] 0 r hr
  by_cases c1 : r.ret > 0
  · rw [if_pos c1] at e
    obtain rfl := Option.some.inj e
    simp at h0
  · rw [if_neg c1] at e
    by_cases c2 : host.dictNew = false
    · rw [if_pos c2] at e
      obtain rfl := Option.some.inj e
      simp at h0
    · rw [if_neg c2] at e
      simp only [Option.bind_eq_some] at e
      obtain ⟨a, ha, e⟩ := e
      cases a with
      | none =>
        obtain rfl := Option.some.inj e
        simp at h0
      | some cols =>
        simp only [Option.bind_eq_some] at e
        obtain ⟨d, hd, e⟩ := e
        cases d with
        | none =>
          obtain rfl := Option.some.inj e
          simp at h0
        | some data =>
          dsimp only at e
          by_cases c3 : host.listAppend = false
          · rw [if_pos c3] at e
            obtain rfl := Option.some.inj e
            simp at h0
          · rw [if_neg c3] at e
            obtain rfl := Option.some.inj e
            exact ⟨r, cols, data, hr, by omega, s1, ha, hd, rfl⟩

/-- What the loop over the tables has done when it has read all `n` of them: it has
appended `n` tables to the list and, with a sweep, `n` sweep values to theirs; table `k` is
made of the data blocks the loop found in the stream that the `k` tables before it had
left, and it leaves the stream that the next table is read from. -/
theorem readTables_success (host : Host) (le : Bool) (sweep : Bool) (nv type nvec : Int)
    (scale : List Byte) (name : List (List Byte)) :
    ∀ (n : Nat) (f : List Byte) (sv : List Nat) (dl : List Table) (t : TablesRead),
      readTables host le sweep nv type nvec scale name n f sv dl = some t →
      t.failed = false →
      t.dataList.length = dl.length + n ∧ t.f <:+ f ∧
      t.sweepValues.length = sv.length + (if sweep then n else 0) ∧
      ∀ k, k < n → ∃ (tk : TablesRead) (r : BlockRead) (cols : List Column) (data : Table),
        readTables host le sweep nv type nvec scale name k f sv dl = some tk ∧
        tk.failed = false ∧ tk.dataList.length = dl.length + k ∧ tk.f <:+ f ∧
        readDataBlocks host le (tk.f.length + 1) tk.f [] 0 = some r ∧ r.ret ≤ 0 ∧
        r.f <:+ tk.f ∧ t.f <:+ r.f ∧
        fillArrays host le r.buf r.offset sweep nv type nvec = some (some cols) ∧
        fillDict host scale name cols = some (some data) ∧
        t.dataList[dl.length + k]? = some data ∧
        (sweep = true → t.sweepValues[sv.length + k]? = some (floatAt le r.buf 0)) ∧
        (∀ i, i < dl.length → t.dataList[i]? = dl[i]?) ∧
        (∀ i, i < sv.length → t.sweepValues[i]? = sv[i]?) ∧
        ∃ tk1, readTables host le sweep nv type nvec scale name (k + 1) f sv dl = some tk1 ∧
          tk1.failed = false ∧ tk1.f = r.f
  | 0, f, sv, dl, t, e, _ => by
    simp only [readTables, Option.some.injEq] at e
    subst e
    refine ⟨rfl, List.suffix_refl _, by simp, fun k hk => absurd hk (by omega)⟩
  | n + 1, f, sv, dl, t, e, hfail => by
    simp only [readTables, Option.bind_eq_some] at e
    obtain ⟨tr, htr, e⟩ := e
    by_cases hret : tr.ret ≠ 0
    · rw [if_pos hret] at e
      obtain rfl := Option.some.inj e
      simp at hfail
    · rw [if_neg hret] at e
      have hret0 : tr.ret = 0 := by omega
      obtain ⟨r, cols, data, hr, hrr, hrs, hcols, hdata, rfl⟩ :=
        readTable_success host le f sweep nv type nvec scale name dl tr htr hret0
      dsimp only at e
      obtain ⟨l1, l2, l3, l4⟩ := readTables_success host le sweep nv type nvec scale name n _ _ _
        t e hfail
      have first : (∀ i, i < (dl ++ [data]).length → t.dataList[i]? = (dl ++ [data])[i]?) ∧
          ∀ i, i < (match (if sweep = true then some (floatAt le r.buf 0) else none) with
              | none => sv
              | some v => sv ++ [v]).length →
            t.sweepValues[i]? = (match (if sweep = true then some (floatAt le r.buf 0)
              else none) with
              | none => sv
              | some v => sv ++ [v])[i]? := by
        cases n with
        | zero =>
          simp only [readTables, Option.some.injEq] at e
          subst e
          exact ⟨fun _ _ => rfl, fun _ _ => rfl⟩
        | succ m =>
          obtain ⟨_, _, _, _, _, _, _, _, _, _, _, _, _, _, _, _, h1, h2, _⟩ := l4 0 (by omega)
          exact ⟨h1, h2⟩
      have hsv : ∀ i, i < sv.length → t.sweepValues[i]? = sv[i]? := fun i hi => by
        cases sweep with
        | false => exact first.2 i hi
        | true =>
          have := first.2 i (by simp; omega)
          rw [this]
          simp only [if_true]
          exact List.getElem?_append_left hi
      have hdl : ∀ i, i < dl.length → t.dataList[i]? = dl[i]? := fun i hi => by
        rw [first.1 i (by simp; omega)]
        exact List.getElem?_append_left hi
      have step : ∀ j, readTables host le sweep nv type nvec scale name (j + 1) f sv dl =
          readTables host le sweep nv type nvec scale name j r.f
            (match (if sweep = true then some (floatAt le r.buf 0) else none) with
              | none => sv
              | some v => sv ++ [v]) (dl ++ [data]) := fun j => by
        simp only [readTables, htr, Option.some_bind]
        simp
      refine ⟨by rw [l1]; simp; omega, l2.trans hrs, ?_, fun k hk => ?_⟩
      · rw [l3]
        cases sweep <;> simp <;> omega
      · cases k with
        | zero =>
          refine ⟨⟨false, f, sv, dl⟩, r, cols, data, rfl, rfl, rfl, List.suffix_refl _, hr, hrr,
            hrs, l2, hcols, hdata, ?_, fun hs => ?_, hdl, hsv, ?_⟩
          · have := first.1 dl.length (by simp)
            simpa using this
          · subst hs
            have := first.2 sv.length (by simp)
            simpa using this
          · exact ⟨_, (step 0).trans rfl, rfl, rfl⟩
        | succ k =>
          obtain ⟨tk, r1, cols1, data1, m1, m2, m3, m4, m5, m6, m7, m8, m9, m10, m11, m12, m13,
            m14, tk1, m15, m16, m17⟩ := l4 k (by omega)
          refine ⟨tk, r1, cols1, data1, by rw [step]; exact m1, m2, ?_, m4.trans hrs, m5, m6,
            m7, m8, m9, m10, ?_, fun hs => ?_, hdl, hsv, tk1, by rw [step]; exact m15, m16, m17⟩
          · rw [m3]; simp; omega
          · rw [← m11]
            congr 1
            simp; omega
          · rw [← m12 hs]
            subst hs
            congr 1
            simp; omega

/-- What `HSpiceRead` has done when it returns a value: it has read the header blocks, the
fields of the header, the vector description and, when one sweep is declared, the sweep
information; then as many tables as there are sweep points, one without a sweep, none of
which has failed. -/
theorem HSpiceRead_success (host : Host) (le : Bool) (f : List Byte) (doc : Document)
    (h : HSpiceRead host le f = some (some doc)) :
    ∃ (hd : BlockRead) (fields : HeaderFields) (names : VectorNames)
      (sweep : Option (List Byte)) (sweepSize : Int) (mem : List Byte) (t : TablesRead),
      readHeaderBlocks host le (f.length + 1) f [] 0 = some hd ∧ hd.ret ≤ 0 ∧
      readFields host hd.buf = some (some fields) ∧
      readNames host fields.mem fields.numOfVectors = some (some names) ∧
      ((fields.numOfSweeps = 1 ∧ ∃ sr, getSweepInfo host names.mem names.save = some (some sr) ∧
          sweep = some sr.sweep ∧ sweepSize = sr.sweepSize ∧ mem = sr.mem) ∨
        (fields.numOfSweeps ≠ 1 ∧ sweep = none ∧ sweepSize = 1 ∧ mem = names.mem)) ∧
      readTables host le sweep.isSome fields.numOfVariables names.type fields.numOfVectors
        (cstr mem names.token) (names.name.map (cstr mem)) sweepSize.toNat hd.f [] [] =
          some t ∧
      t.failed = false ∧
      doc = ⟨sweep.map fun s => (s, t.sweepValues), t.dataList, names.scale, fields.title,
        fields.date⟩ := by
  cases f with
  | nil => simp [HSpiceRead] at h
  | cons b tl =>
    rw [HSpiceRead] at h
    by_cases hb : b.val % 256 ≥ 32
    · rw [if_pos hb] at h
      simp at h
    · rw [if_neg hb] at h
      obtain ⟨hd, hh, h⟩ := Option.bind_eq_some.mp h
      by_cases hret : hd.ret > 0
      · rw [if_pos hret] at h
        simp at h
      · rw [if_neg hret] at h
        obtain ⟨fo, hf, h⟩ := Option.bind_eq_some.mp h
        cases fo with
        | none => simp at h
        | some fields =>
          dsimp only at h
          obtain ⟨no, hn, h⟩ := Option.bind_eq_some.mp h
          cases no with
          | none => simp at h
          | some names =>
            dsimp only at h
            obtain ⟨sw, hs, h⟩ := Option.bind_eq_some.mp h
            cases sw with
            | none => simp at h
            | some sw =>
              obtain ⟨sweep, sweepSize, mem⟩ := sw
              dsimp only at h
              by_cases c1 : host.listNew = false
              · rw [if_pos c1] at h
                simp at h
              · rw [if_neg c1] at h
                by_cases c2 : host.alloc (mallocSize fields.numOfVectors 8) = false
                · rw [if_pos c2] at h
                  simp at h
                · rw [if_neg c2] at h
                  by_cases c3 : host.alloc (mallocSize fields.numOfVectors 32) = false
                  · rw [if_pos c3] at h
                    simp at h
                  · rw [if_neg c3] at h
                    obtain ⟨t, ht, h⟩ := Option.bind_eq_some.mp h
                    by_cases c4 : t.failed = true
                    · rw [if_pos c4] at h
                      simp at h
                    · rw [if_neg c4] at h
                      by_cases c5 : host.tuplePack = false
                      · rw [if_pos c5] at h
                        simp at h
                      · rw [if_neg c5] at h
                        by_cases c6 : host.listNew = false ∨ host.listAppend = false
                        · rw [if_pos c6] at h
                          simp at h
                        · rw [if_neg c6] at h
                          have hdoc := Option.some.inj (Option.some.inj h)
                          refine ⟨hd, fields, names, sweep, sweepSize, mem, t, hh, by omega, hf,
                            hn, ?_, ht, by simpa using c4, hdoc.symm⟩
                          by_cases c7 : fields.numOfSweeps = 1
                          · rw [if_pos c7] at hs
                            left
                            refine ⟨c7, ?_⟩
                            obtain ⟨so, hso, hs⟩ := Option.map_eq_some'.mp hs
                            cases so with
                            | none => simp at hs
                            | some sr =>
                              simp only [Option.map_some', Option.some.injEq,
                                Prod.mk.injEq] at hs
                              exact ⟨sr, hso, hs.1.symm, hs.2.1.symm, hs.2.2.symm⟩
                          · rw [if_neg c7] at hs
                            right
                            simp only [Option.some.injEq, Prod.mk.injEq] at hs
                            exact ⟨c7, hs.1.symm, hs.2.1.symm, hs.2.2.symm⟩

/-- C11. For every successful decode, the document holds as many tables as the sweep has
points when one sweep is declared (`numOfSweeps = 1`), the number `getSweepInfo` has read,
and exactly one table when no sweep is declared. The tables are in the order of their data
blocks in the file: table `k` is made of the data blocks at the start of the stream that
the `k` tables before it have left of the stream after the header, and the table after it
is read from what these data blocks leave. -/
theorem table_count (host : Host) (le : Bool) (f : List Byte) (doc : Document)
    (h : HSpiceRead host le f = some (some doc)) :
    ∃ (hd : BlockRead) (fields : HeaderFields) (names : VectorNames) (mem : List Byte),
      readHeaderBlocks host le (f.length + 1) f [] 0 = some hd ∧
      readFields host hd.buf = some (some fields) ∧
      readNames host fields.mem fields.numOfVectors = some (some names) ∧
      (fields.numOfSweeps = 1 →
        ∃ sr, getSweepInfo host names.mem names.save = some (some sr) ∧
          doc.sweep.isSome = true ∧ (doc.dataList.length : Int) = sr.sweepSize) ∧
      (fields.numOfSweeps ≠ 1 → doc.sweep = none ∧ doc.dataList.length = 1) ∧
      ∀ k, k < doc.dataList.length →
        ∃ (tk : TablesRead) (r : BlockRead) (cols : List Column) (data : Table),
          readTables host le doc.sweep.isSome fields.numOfVariables names.type
            fields.numOfVectors (cstr mem names.token) (names.name.map (cstr mem)) k hd.f
            [] [] = some tk ∧
          tk.failed = false ∧ tk.dataList.length = k ∧ tk.f <:+ hd.f ∧
          readDataBlocks host le (tk.f.length + 1) tk.f [] 0 = some r ∧ r.f <:+ tk.f ∧
          fillArrays host le r.buf r.offset doc.sweep.isSome fields.numOfVariables names.type
            fields.numOfVectors = some (some cols) ∧
          fillDict host (cstr mem names.token) (names.name.map (cstr mem)) cols =
            some (some data) ∧
          doc.dataList[k]? = some data ∧
          ∃ tk1, readTables host le doc.sweep.isSome fields.numOfVariables names.type
            fields.numOfVectors (cstr mem names.token) (names.name.map (cstr mem)) (k + 1)
            hd.f [] [] = some tk1 ∧ tk1.failed = false ∧ tk1.f = r.f := by
  obtain ⟨hd, fields, names, sweep, sweepSize, mem, t, hh, _, hf, hn, hs, ht, hok, rfl⟩ :=
    HSpiceRead_success host le f doc h
  obtain ⟨l1, _, _, l4⟩ := readTables_success host le sweep.isSome fields.numOfVariables
    names.type fields.numOfVectors (cstr mem names.token) (names.name.map (cstr mem))
    sweepSize.toNat hd.f [] [] t ht hok
  have hiso : (sweep.map fun s => (s, t.sweepValues)).isSome = sweep.isSome := by
    cases sweep <;> rfl
  simp only [List.length_nil, Nat.zero_add] at l1 l4
  refine ⟨hd, fields, names, mem, hh, hf, hn, fun h1 => ?_, fun h1 => ?_, fun k hk => ?_⟩
  · rcases hs with ⟨_, sr, hsr, rfl, rfl, rfl⟩ | ⟨h2, _⟩
    · obtain ⟨_, _, hpos, _⟩ := getSweepInfo_frame host names.mem names.save sr hsr
      refine ⟨sr, hsr, rfl, ?_⟩
      dsimp only
      rw [l1]
      exact Int.toNat_of_nonneg hpos
    · exact absurd h1 h2
  · rcases hs with ⟨h2, _⟩ | ⟨_, rfl, rfl, rfl⟩
    · exact absurd h2 h1
    · exact ⟨rfl, by dsimp only; rw [l1]; rfl⟩
  · dsimp only at hk ⊢
    rw [hiso]
    rw [l1] at hk
    obtain ⟨tk, r, cols, data, m1, m2, m3, m4, m5, _, m7, _, m9, m10, m11, _, _, _, tk1, m15,
      m16, m17⟩ := l4 k hk
    exact ⟨tk, r, cols, data, m1, m2, m3, m4, m5, m7, m9, m10, m11, tk1, m15, m16, m17⟩

set_option maxRecDepth 1000000 in
/-- C11 at the example file with a sweep of two points: the document holds two tables. -/
theorem table_count_witness :
    HSpiceRead Host.ideal true exampleSweepFile = some (some exampleSweepDocument) ∧
    exampleSweepDocument.dataList.length = 2 ∧
    ∃ (hd : BlockRead) (fields : HeaderFields) (names : VectorNames) (mem : List Byte),
      readHeaderBlocks Host.ideal true (exampleSweepFile.length + 1) exampleSweepFile [] 0 =
        some hd ∧
      readFields Host.ideal hd.buf = some (some fields) ∧
      readNames Host.ideal fields.mem fields.numOfVectors = some (some names) ∧
      (fields.numOfSweeps = 1 →
        ∃ sr, getSweepInfo Host.ideal names.mem names.save = some (some sr) ∧
          exampleSweepDocument.sweep.isSome = true ∧
          (exampleSweepDocument.dataList.length : Int) = sr.sweepSize) ∧
      (fields.numOfSweeps ≠ 1 →
        exampleSweepDocument.sweep = none ∧ exampleSweepDocument.dataList.length = 1) ∧
      ∀ k, k < exampleSweepDocument.dataList.length →
        ∃ (tk : TablesRead) (r : BlockRead) (cols : List Column) (data : Table),
          readTables Host.ideal true exampleSweepDocument.sweep.isSome fields.numOfVariables
            names.type fields.numOfVectors (cstr mem names.token)
            (names.name.map (cstr mem)) k hd.f [] [] = some tk ∧
          tk.failed = false ∧ tk.dataList.length = k ∧ tk.f <:+ hd.f ∧
          readDataBlocks Host.ideal true (tk.f.length + 1) tk.f [] 0 = some r ∧
          r.f <:+ tk.f ∧
          fillArrays Host.ideal true r.buf r.offset exampleSweepDocument.sweep.isSome
            fields.numOfVariables names.type fields.numOfVectors = some (some cols) ∧
          fillDict Host.ideal (cstr mem names.token) (names.name.map (cstr mem)) cols =
            some (some data) ∧
          exampleSweepDocument.dataList[k]? = some data ∧
          ∃ tk1, readTables Host.ideal true exampleSweepDocument.sweep.isSome
            fields.numOfVariables names.type fields.numOfVectors (cstr mem names.token)
            (names.name.map (cstr mem)) (k + 1) hd.f [] [] = some tk1 ∧
            tk1.failed = false ∧ tk1.f = r.f :=
  ⟨by decide, by decide,
    table_count Host.ideal true exampleSweepFile exampleSweepDocument (by decide)⟩

/-- The vector of one more row: the vector with the sample of the new row appended. -/
theorem sampleColumn_succ (le : Bool) (raw : List Byte) (type nv : Int)
    (start stride rows j skip : Nat) :
    sampleColumn le raw type nv start stride (rows + 1) j skip =
      if isComplexVector type nv j then
        Column.complex (((List.range rows).map fun i =>
          (floatAt le raw (start + i * stride + skip),
            floatAt le raw (start + i * stride + skip + 1))) ++
          [(floatAt le raw (start + rows * stride + skip),
            floatAt le raw (start + rows * stride + skip + 1))])
      else
        Column.real (((List.range rows).map fun i =>
          floatAt le raw (start + i * stride + skip)) ++
          [floatAt le raw (start + rows * stride + skip)]) := by
  unfold sampleColumn
  simp only [List.range_succ, List.map_append, List.map_cons, List.map_nil]

/-- One pass of the inner loop of the copy appends one row to the vectors: vector `j`
gets the float, or the two floats, that lie `vectorStart j` floats into the row. -/
theorem saveRow_spec (le : Bool) (raw : List Byte) (offset : Nat) (type nv : Int)
    (start stride rows : Nat) :
    ∀ (m j : Nat) (x : List Column × Nat),
      saveRow le raw offset type nv
        ((List.range m).map fun t =>
          sampleColumn le raw type nv start stride rows (j + t) (vectorStart type nv (j + t)))
        j (start + rows * stride + vectorStart type nv j) = some x →
      x = ((List.range m).map fun t =>
          sampleColumn le raw type nv start stride (rows + 1) (j + t)
            (vectorStart type nv (j + t)),
        start + rows * stride + vectorStart type nv (j + m))
  | 0, j, x, h => by
    simp only [List.range_zero, List.map_nil, saveRow, Option.some.injEq] at h
    subst h
    rfl
  | m + 1, j, x, h => by
    have hr : ∀ (g : Nat → Column), (List.range (m + 1)).map g =
        g 0 :: (List.range m).map fun t => g (t + 1) := fun g => by
      rw [List.range_succ_eq_map, List.map_cons, List.map_map]
      rfl
    have hshift : ∀ rows', ((List.range m).map fun t =>
        sampleColumn le raw type nv start stride rows' (j + (t + 1))
          (vectorStart type nv (j + (t + 1)))) =
        (List.range m).map fun t =>
          sampleColumn le raw type nv start stride rows' (j + 1 + t)
            (vectorStart type nv (j + 1 + t)) := fun rows' => by
      apply List.map_congr_left
      intro t _
      rw [Nat.add_assoc, Nat.add_comm 1 t]
    rw [hr, hshift] at h
    rw [hr, hshift, sampleColumn_succ]
    simp only [Nat.add_zero] at h ⊢
    have hm : j + (m + 1) = j + 1 + m := by omega
    rw [hm]
    by_cases hc : isComplexVector type nv j = true
    · have hw : vectorStart type nv (j + 1) = vectorStart type nv j + 2 := by
        simp [vectorStart, vectorWidth, hc]
      have hhead : sampleColumn le raw type nv start stride rows j (vectorStart type nv j) =
          Column.complex ((List.range rows).map fun i =>
            (floatAt le raw (start + i * stride + vectorStart type nv j),
              floatAt le raw (start + i * stride + vectorStart type nv j + 1))) := by
        simp only [sampleColumn, hc, if_true]
      rw [hhead] at h
      simp only [saveRow, hc] at h
      by_cases hb : start + rows * stride + vectorStart type nv j + 1 < offset
      · rw [if_pos hb] at h
        obtain ⟨y, hy, rfl⟩ := Option.map_eq_some'.mp h
        have e : start + rows * stride + vectorStart type nv j + 2 =
            start + rows * stride + vectorStart type nv (j + 1) := by omega
        rw [e] at hy
        have := saveRow_spec le raw offset type nv start stride rows m (j + 1) y hy
        subst this
        simp only [hc, if_true]
      · rw [if_neg hb] at h
        exact absurd h (by simp)
    · have hc' : isComplexVector type nv j = false := by simpa using hc
      have hw : vectorStart type nv (j + 1) = vectorStart type nv j + 1 := by
        simp [vectorStart, vectorWidth, hc']
      have hhead : sampleColumn le raw type nv start stride rows j (vectorStart type nv j) =
          Column.real ((List.range rows).map fun i =>
            floatAt le raw (start + i * stride + vectorStart type nv j)) := by
        simp only [sampleColumn, hc', Bool.false_eq_true, if_false]
      rw [hhead] at h
      simp only [saveRow, hc'] at h
      by_cases hb : start + rows * stride + vectorStart type nv j < offset
      · simp only [Bool.false_eq_true, if_false, if_pos hb] at h
        obtain ⟨y, hy, rfl⟩ := Option.map_eq_some'.mp h
        have e : start + rows * stride + vectorStart type nv j + 1 =
            start + rows * stride + vectorStart type nv (j + 1) := by omega
        rw [e] at hy
        have := saveRow_spec le raw offset type nv start stride rows m (j + 1) y hy
        subst this
        simp only [hc', Bool.false_eq_true, if_false]
      · simp only [Bool.false_eq_true, if_false, if_neg hb] at h
        exact absurd h (by simp)

/-- The outer loop of the copy appends `n` rows to the vectors, a row every
`vectorStart m` floats for `m` vectors. -/
theorem saveRows_spec (le : Bool) (raw : List Byte) (offset : Nat) (type nv : Int)
    (start m : Nat) :
    ∀ (n rows : Nat) (cols : List Column),
      saveRows le raw offset type nv n
        ((List.range m).map fun t =>
          sampleColumn le raw type nv start (vectorStart type nv m) rows t
            (vectorStart type nv t))
        (start + rows * vectorStart type nv m) = some cols →
      cols = (List.range m).map fun t =>
        sampleColumn le raw type nv start (vectorStart type nv m) (rows + n) t
          (vectorStart type nv t)
  | 0, rows, cols, h => by
    simp only [saveRows, Option.some.injEq] at h
    exact h.symm
  | n + 1, rows, cols, h => by
    simp only [saveRows, Option.bind_eq_some] at h
    obtain ⟨x, hx, h⟩ := h
    have hx' := saveRow_spec le raw offset type nv start (vectorStart type nv m) rows m 0 x
      (by simpa only [Nat.zero_add, vectorStart, Nat.add_zero] using hx)
    simp only [Nat.zero_add] at hx'
    subst hx'
    dsimp only at h
    have e : start + rows * vectorStart type nv m + vectorStart type nv m =
        start + (rows + 1) * vectorStart type nv m := by
      rw [Nat.add_mul, Nat.one_mul, Nat.add_assoc]
    rw [e] at h
    have := saveRows_spec le raw offset type nv start m n (rows + 1) cols h
    rw [this]
    have e2 : rows + 1 + n = rows + (n + 1) := by omega
    rw [e2]

/-- The arrays are created empty, complex for the complex vectors. -/
theorem newArrays_spec (host : Host) (type nv num : Int) (le : Bool) (raw : List Byte)
    (start stride : Nat) :
    ∀ (n i : Nat) (cols : List Column), newArrays host type nv num n i = some cols →
      cols = (List.range n).map fun t =>
        sampleColumn le raw type nv start stride 0 (i + t) (vectorStart type nv (i + t))
  | 0, i, cols, h => by
    simp only [newArrays, Option.some.injEq] at h
    subst h
    rfl
  | n + 1, i, cols, h => by
    simp only [newArrays] at h
    by_cases hg : num < 0 ∨ host.arrayNew (isComplexVector type nv i) num.toNat = false
    · rw [if_pos hg] at h
      exact absurd h (by simp)
    rw [if_neg hg] at h
    obtain ⟨rest, hrest, rfl⟩ := Option.map_eq_some'.mp h
    have := newArrays_spec host type nv num le raw start stride n (i + 1) rest hrest
    subst this
    rw [List.range_succ_eq_map, List.map_cons, List.map_map]
    congr 1
    apply List.map_congr_left
    intro t _
    simp only [Function.comp, Nat.succ_eq_add_one]
    rw [Nat.add_assoc, Nat.add_comm 1 t]

/-- What `readTable` makes of `rawData`: vector `j` holds, for each row, the float or the
two floats that lie `vectorStart j` floats into the row; the rows follow each other, after
the sweep value if there is a sweep. -/
theorem fillArrays_spec (host : Host) (le : Bool) (raw : List Byte) (offset : Nat)
    (sweep : Bool) (nv type nvec : Int) (cols : List Column)
    (h : fillArrays host le raw offset sweep nv type nvec = some (some cols)) :
    cols = (List.range nvec.toNat).map fun j =>
      sampleColumn le raw type nv (if sweep then 1 else 0) (vectorStart type nv nvec.toNat)
        (numOfRows sweep offset (numOfColumnsOf type nvec nv)).toNat j
        (vectorStart type nv j) := by
  unfold fillArrays at h
  dsimp only at h
  by_cases h0 : numOfColumnsOf type nvec nv = 0
  · rw [if_pos h0] at h
    exact absurd h (by simp)
  rw [if_neg h0] at h
  cases hna : newArrays host type nv (numOfRows sweep offset (numOfColumnsOf type nvec nv))
      nvec.toNat 0 with
  | none =>
    rw [hna] at h
    simp at h
  | some tmpArray =>
    rw [hna] at h
    dsimp only at h
    obtain ⟨c, hc, hcc⟩ := Option.map_eq_some'.mp h
    obtain rfl := Option.some.inj hcc
    have e := newArrays_spec host type nv _ le raw (if sweep then 1 else 0)
      (vectorStart type nv nvec.toNat) nvec.toNat 0 tmpArray hna
    simp only [Nat.zero_add] at e
    subst e
    have := saveRows_spec le raw offset type nv (if sweep then 1 else 0) nvec.toNat
      (numOfRows sweep offset (numOfColumnsOf type nvec nv)).toNat 0 c
      (by simpa only [Nat.zero_mul, Nat.add_zero] using hc)
    simpa only [Nat.zero_add] using this

/-- In a file of real variables vector `j` lies `j` floats into the row. -/
theorem vectorStart_real (type nv : Int) (h : type ≠ complex_var) :
    ∀ j, vectorStart type nv j = j
  | 0 => rfl
  | j + 1 => by
    simp only [vectorStart, vectorWidth, isComplexVector, h, false_and, decide_False,
      Bool.false_eq_true, if_false]
    rw [vectorStart_real type nv h j]

/-- In a file of complex variables the scale lies at the start of the row, the complex
vector `j` lies `2 j - 1` floats into the row, and the probe `j` lies `j + numOfVariables - 1`
floats into it. -/
theorem vectorStart_complex (nv : Int) (h1 : 1 ≤ nv) :
    ∀ j, vectorStart complex_var nv j =
      if j = 0 then 0 else if (j : Int) ≤ nv then 2 * j - 1 else j + nv.toNat - 1
  | 0 => rfl
  | j + 1 => by
    simp only [vectorStart, vectorWidth, isComplexVector, true_and]
    rw [vectorStart_complex nv h1 j]
    lift nv to ℕ using (by omega : 0 ≤ nv)
    rw [Int.toNat_ofNat]
    by_cases c1 : (j : Int) > 0 ∧ (j : Int) < (nv : Int)
    · simp only [c1, and_self, decide_True, if_true]
      split_ifs <;> first | omega | contradiction
    · simp only [c1, decide_False, Bool.false_eq_true, if_false]
      split_ifs <;> first | omega | contradiction

/-- With at least one variable and no more variables than vectors, a row takes
`numOfColumns` floats. -/
theorem vectorStart_total (type nv nvec : Int) (h1 : 1 ≤ nv) (h2 : nv ≤ nvec) :
    vectorStart type nv nvec.toNat = (numOfColumnsOf type nvec nv).toNat := by
  unfold numOfColumnsOf
  by_cases ht : type = complex_var
  · subst ht
    rw [vectorStart_complex nv h1, if_pos rfl]
    lift nv to ℕ using (by omega : 0 ≤ nv)
    lift nvec to ℕ using (by omega : 0 ≤ nvec)
    simp only [Int.toNat_ofNat]
    split_ifs <;> omega
  · rw [vectorStart_real type nv ht, if_neg ht]

/-- The dictionary after the loop that inserts the vectors: each name is set to its
vector, in order. -/
theorem insertVectors_eq (host : Host) :
    ∀ (data : Table) (name : List (List Byte)) (cols : List Column) (d : Table),
      insertVectors host data name cols = some d →
      d = (name.zip cols).foldl (fun t kv => dictSetItem t kv.1 kv.2) data
  | data, [], cols, d, h => by
    simp only [insertVectors, Option.some.injEq] at h
    subst h
    rfl
  | data, key :: name, [], d, h => by
    simp only [insertVectors, Option.some.injEq] at h
    subst h
    rfl
  | data, key :: name, col :: cols, d, h => by
    simp only [insertVectors] at h
    split_ifs at h
    rw [insertVectors_eq host _ name cols d h]
    rfl

/-- The dictionary of a table: the scale name is set to the first vector, then each
vector name to its vector, in order. -/
theorem fillDict_eq (host : Host) (scale : List Byte) (name : List (List Byte))
    (cols : List Column) (data : Table) (h : fillDict host scale name cols = some (some data)) :
    data = ((scale :: name).zip cols).foldl (fun t kv => dictSetItem t kv.1 kv.2) [] := by
  cases cols with
  | nil => simp [fillDict] at h
  | cons col0 cols =>
    simp only [fillDict] at h
    by_cases c1 : name.length < cols.length
    · rw [if_pos c1] at h
      exact absurd h (by simp)
    rw [if_neg c1] at h
    by_cases c2 : host.dictSet scale = false
    · rw [if_pos c2] at h
      exact absurd h (by simp)
    rw [if_neg c2] at h
    have h' := Option.some.inj h
    rw [insertVectors_eq host _ name cols data h']
    rfl

/-- C19. Row-major placement. For every table that `readTable` assembles, with at least
one variable and no more variables than vectors: the table is the dictionary in which the
scale name and the vector names are set, in order, to the vectors `0`, `1`, ... There are
`numOfVectors` vectors, of `num` rows each. With `base` the number `s + i * numOfColumns`,
`s` being `1` with a sweep and `0` without: in a file of real variables row `i` of vector
`j` is the float `base + j` of `rawData`; in a file of complex variables row `i` of the
scale is the float `base`, row `i` of the complex vector `j`, `1 ≤ j < numOfVariables`, is
the pair of the floats `base + 2 j - 1` and `base + 2 j`, and row `i` of the probe `j`,
`j ≥ numOfVariables`, is the float `base + j + numOfVariables - 1`. -/
theorem row_major_placement (host : Host) (le : Bool) (f : List Byte) (sweep : Bool)
    (nv type nvec : Int) (scale : List Byte) (name : List (List Byte)) (dataList : List Table)
    (tr : TableRead)
    (e : readTable host le f sweep nv type nvec scale name dataList = some tr)
    (h0 : tr.ret = 0) (h1 : 1 ≤ nv) (h2 : nv ≤ nvec) :
    ∃ (r : BlockRead) (cols : List Column) (data : Table),
      readDataBlocks host le (f.length + 1) f [] 0 = some r ∧
      tr.dataList = dataList ++ [data] ∧
      data = ((scale :: name).zip cols).foldl (fun t kv => dictSetItem t kv.1 kv.2) [] ∧
      cols.length = nvec.toNat ∧
      ∀ j, j < nvec.toNat →
        ∀ i, i < (numOfRows sweep r.offset (numOfColumnsOf type nvec nv)).toNat →
        (type ≠ complex_var →
          ∃ xs, cols[j]? = some (Column.real xs) ∧
            xs.length = (numOfRows sweep r.offset (numOfColumnsOf type nvec nv)).toNat ∧
            xs[i]? = some (floatAt le r.buf
              ((if sweep then 1 else 0) + i * (numOfColumnsOf type nvec nv).toNat + j))) ∧
        (type = complex_var → j = 0 →
          ∃ xs, cols[j]? = some (Column.real xs) ∧
            xs.length = (numOfRows sweep r.offset (numOfColumnsOf type nvec nv)).toNat ∧
            xs[i]? = some (floatAt le r.buf
              ((if sweep then 1 else 0) + i * (numOfColumnsOf type nvec nv).toNat))) ∧
        (type = complex_var → 1 ≤ j → (j : Int) < nv →
          ∃ xs, cols[j]? = some (Column.complex xs) ∧
            xs.length = (numOfRows sweep r.offset (numOfColumnsOf type nvec nv)).toNat ∧
            xs[i]? = some
              (floatAt le r.buf
                ((if sweep then 1 else 0) + i * (numOfColumnsOf type nvec nv).toNat +
                  2 * j - 1),
               floatAt le r.buf
                ((if sweep then 1 else 0) + i * (numOfColumnsOf type nvec nv).toNat +
                  2 * j))) ∧
        (type = complex_var → nv ≤ (j : Int) →
          ∃ xs, cols[j]? = some (Column.real xs) ∧
            xs.length = (numOfRows sweep r.offset (numOfColumnsOf type nvec nv)).toNat ∧
            xs[i]? = some (floatAt le r.buf
              ((if sweep then 1 else 0) + i * (numOfColumnsOf type nvec nv).toNat + j +
                nv.toNat - 1))) := by
  obtain ⟨r, cols, data, hr, _, _, hcols, hdata, rfl⟩ :=
    readTable_success host le f sweep nv type nvec scale name dataList tr e h0
  have hspec := fillArrays_spec host le r.buf r.offset sweep nv type nvec cols hcols
  rw [vectorStart_total type nv nvec h1 h2] at hspec
  refine ⟨r, cols, data, hr, rfl, fillDict_eq host scale name cols data hdata,
    by rw [hspec]; simp, fun j hj i hi => ?_⟩
  have hj' : cols[j]? = some (sampleColumn le r.buf type nv (if sweep then 1 else 0)
      (numOfColumnsOf type nvec nv).toNat
      (numOfRows sweep r.offset (numOfColumnsOf type nvec nv)).toNat j
      (vectorStart type nv j)) := by
    rw [hspec, List.getElem?_map, List.getElem?_range hj]
    rfl
  have hreal : ∀ skip, isComplexVector type nv j = false → vectorStart type nv j = skip →
      ∃ xs, cols[j]? = some (Column.real xs) ∧
        xs.length = (numOfRows sweep r.offset (numOfColumnsOf type nvec nv)).toNat ∧
        xs[i]? = some (floatAt le r.buf
          ((if sweep then 1 else 0) + i * (numOfColumnsOf type nvec nv).toNat + skip)) :=
    fun skip hc hs => by
      rw [hs] at hj'
      simp only [sampleColumn, hc, Bool.false_eq_true, if_false] at hj'
      refine ⟨_, hj', by simp, ?_⟩
      rw [List.getElem?_map, List.getElem?_range hi]
      rfl
  refine ⟨fun ht => ?_, fun ht hj0 => ?_, fun ht hj1 hj2 => ?_, fun ht hj1 => ?_⟩
  · exact hreal j (by simp [isComplexVector, ht]) (vectorStart_real type nv ht j)
  · subst hj0
    exact hreal 0 (by simp [isComplexVector]) rfl
  · subst ht
    have hc : isComplexVector complex_var nv j = true := by
      simp only [isComplexVector, true_and, decide_eq_true_eq]
      omega
    have hs : vectorStart complex_var nv j = 2 * j - 1 := by
      rw [vectorStart_complex nv h1 j, if_neg (by omega), if_pos (by omega)]
    rw [hs] at hj'
    simp only [sampleColumn, hc, if_true] at hj'
    refine ⟨_, hj', by simp, ?_⟩
    rw [List.getElem?_map, List.getElem?_range hi]
    simp only [Option.map_some', Option.some.injEq, Prod.mk.injEq]
    constructor
    · congr 1
      omega
    · congr 1
      omega
  · subst ht
    have hc : isComplexVector complex_var nv j = false := by
      simp only [isComplexVector, true_and, decide_eq_false_iff_not]
      omega
    have hs : vectorStart complex_var nv j = j + nv.toNat - 1 := by
      rw [vectorStart_complex nv h1 j]
      lift nv to ℕ using (by omega : 0 ≤ nv)
      simp only [Int.toNat_ofNat]
      split_ifs <;> omega
    obtain ⟨xs, a1, a2, a3⟩ := hreal _ hc hs
    refine ⟨xs, a1, a2, ?_⟩
    rw [a3]
    congr 2
    have : 1 ≤ j := by omega
    omega

set_option maxRecDepth 1000000 in
/-- C19 at the example block of 17 floats, read as a table of a frequency analysis with
two variables and one probe, without a sweep: four rows of four floats; row 2 of the
complex vector 1 is the pair of the floats 9 and 10 of the block. -/
theorem row_major_placement_witness :
    ∃ (cols : List Column) (xs : List (Nat × Nat)),
      [exampleComplexTable] =
        [(([116, 105, 109, 101] :: [[111, 117, 116, 41], [105, 40, 114, 49, 41]]).zip
          cols).foldl (fun t kv => dictSetItem t kv.1 kv.2) []] ∧
      cols[1]? = some (Column.complex xs) ∧
      xs[2]? = some (floatAt true exampleTableBlock.payload 9,
        floatAt true exampleTableBlock.payload 10) := by
  obtain ⟨r, cols, data, hr, hd, hdata, _, hplace⟩ :=
    row_major_placement Host.ideal true exampleTableBlock.bytes false 2 complex_var 3
      [116, 105, 109, 101] [[111, 117, 116, 41], [105, 40, 114, 49, 41]] []
      ⟨0, [], none, [exampleComplexTable]⟩ (by decide) rfl (by decide) (by decide)
  have hr' : readDataBlocks Host.ideal true (exampleTableBlock.bytes.length + 1)
      exampleTableBlock.bytes [] 0 = some exampleTableSamples := by decide
  rw [hr'] at hr
  obtain rfl := Option.some.inj hr
  obtain ⟨xs, h1, _, h3⟩ := (hplace 1 (by decide) 2 (by decide)).2.2.1 rfl (by decide)
    (by decide)
  refine ⟨cols, xs, ?_, h1, h3⟩
  rw [← hdata]
  simpa using hd

/-! ## The sweep values (C20) -/

/-- A float after the first of a buffer lies in the buffer without its first float. -/
theorem floatAt_congr (le : Bool) (raw raw' : List Byte) (h : raw'.drop 4 = raw.drop 4)
    (p : Nat) (hp : 1 ≤ p) : floatAt le raw' p = floatAt le raw p := by
  have e : ∀ mem : List Byte, mem.drop (4 * p) = (mem.drop 4).drop (4 * p - 4) := fun mem => by
    rw [List.drop_drop]
    congr 1
    omega
  unfold floatAt
  rw [e raw', e raw, h]

/-- One pass of the inner loop of the copy reads `rawData` from its position on only, and
does not move back. -/
theorem saveRow_congr (le : Bool) (raw raw' : List Byte) (offset : Nat) (type nv : Int) :
    ∀ (cols : List Column) (j pos : Nat),
      (∀ p, pos ≤ p → floatAt le raw' p = floatAt le raw p) →
      saveRow le raw' offset type nv cols j pos = saveRow le raw offset type nv cols j pos ∧
      ∀ x, saveRow le raw offset type nv cols j pos = some x → pos ≤ x.2
  | [], j, pos, _ => by
    simp only [saveRow, Option.some.injEq, true_and]
    intro x hx
    subst hx
    exact Nat.le_refl _
  | col :: cols, j, pos, h => by
    obtain ⟨a1, a2⟩ := saveRow_congr le raw raw' offset type nv cols (j + 1) (pos + 1)
      (fun p hp => h p (by omega))
    obtain ⟨b1, b2⟩ := saveRow_congr le raw raw' offset type nv cols (j + 1) (pos + 2)
      (fun p hp => h p (by omega))
    cases hc : isComplexVector type nv j <;> cases col <;>
      simp only [saveRow, hc, a1, b1, h pos (Nat.le_refl _), h (pos + 1) (by omega), true_and,
        false_and, implies_true, reduceCtorEq, false_implies]
    · intro x hx
      by_cases hb : pos < offset
      · rw [if_pos hb] at hx
        obtain ⟨y, hy, rfl⟩ := Option.map_eq_some'.mp hx
        have := a2 y hy
        dsimp only
        omega
      · rw [if_neg hb] at hx
        exact absurd hx (by simp)
    · intro x hx
      by_cases hb : pos + 1 < offset
      · rw [if_pos hb] at hx
        obtain ⟨y, hy, rfl⟩ := Option.map_eq_some'.mp hx
        have := b2 y hy
        dsimp only
        omega
      · rw [if_neg hb] at hx
        exact absurd hx (by simp)

/-- The copy reads `rawData` from its first position on only. -/
theorem saveRows_congr (le : Bool) (raw raw' : List Byte) (offset : Nat) (type nv : Int) :
    ∀ (n : Nat) (cols : List Column) (pos : Nat),
      (∀ p, pos ≤ p → floatAt le raw' p = floatAt le raw p) →
      saveRows le raw' offset type nv n cols pos = saveRows le raw offset type nv n cols pos
  | 0, _, _, _ => rfl
  | n + 1, cols, pos, h => by
    obtain ⟨a1, a2⟩ := saveRow_congr le raw raw' offset type nv cols 0 pos h
    simp only [saveRows, a1]
    cases hx : saveRow le raw offset type nv cols 0 pos with
    | none => rfl
    | some x =>
      simp only [Option.some_bind]
      exact saveRows_congr le raw raw' offset type nv n x.1 x.2
        (fun p hp => h p (by have := a2 x hx; omega))

/-- With a sweep, the arrays of a table do not depend on the first float of `rawData`. -/
theorem fillArrays_congr (host : Host) (le : Bool) (raw raw' : List Byte) (offset : Nat)
    (nv type nvec : Int) (h : raw'.drop 4 = raw.drop 4) :
    fillArrays host le raw' offset true nv type nvec =
      fillArrays host le raw offset true nv type nvec := by
  unfold fillArrays
  simp only [if_true]
  by_cases h0 : numOfColumnsOf type nvec nv = 0
  · rw [if_pos h0, if_pos h0]
  · rw [if_neg h0, if_neg h0]
    cases newArrays host type nv (numOfRows true offset (numOfColumnsOf type nvec nv))
        nvec.toNat 0 with
    | none => rfl
    | some tmpArray =>
      dsimp only
      rw [saveRows_congr le raw raw' offset type nv _ tmpArray 1
        (fun p hp => floatAt_congr le raw raw' h p hp)]

/-- C20. For every successful decode of a file with a sweep, of `n` sweep points: the
sequence of sweep values has length `n`, the number of tables, and for every `k < n` its
entry `k` is the first float of the sample buffer of table `k`. That float is excluded
from the rows: the rows of the table start at the second float of the buffer, their
number is computed without it, and the arrays of the table are the same for every buffer
that differs from this one in its first float only. -/
theorem sweep_values (host : Host) (le : Bool) (f : List Byte) (doc : Document)
    (name : List Byte) (values : List Nat)
    (h : HSpiceRead host le f = some (some doc)) (hs : doc.sweep = some (name, values)) :
    ∃ (hd : BlockRead) (fields : HeaderFields) (names : VectorNames) (sr : SweepRead),
      readHeaderBlocks host le (f.length + 1) f [] 0 = some hd ∧
      readFields host hd.buf = some (some fields) ∧
      readNames host fields.mem fields.numOfVectors = some (some names) ∧
      fields.numOfSweeps = 1 ∧
      getSweepInfo host names.mem names.save = some (some sr) ∧ name = sr.sweep ∧
      (values.length : Int) = sr.sweepSize ∧ values.length = doc.dataList.length ∧
      ∀ k, k < values.length →
        ∃ (tk : TablesRead) (r : BlockRead) (cols : List Column) (data : Table),
          readTables host le true fields.numOfVariables names.type fields.numOfVectors
            (cstr sr.mem names.token) (names.name.map (cstr sr.mem)) k hd.f [] [] = some tk ∧
          tk.failed = false ∧ tk.dataList.length = k ∧
          readDataBlocks host le (tk.f.length + 1) tk.f [] 0 = some r ∧
          values[k]? = some (floatAt le r.buf 0) ∧
          fillArrays host le r.buf r.offset true fields.numOfVariables names.type
            fields.numOfVectors = some (some cols) ∧
          fillDict host (cstr sr.mem names.token) (names.name.map (cstr sr.mem)) cols =
            some (some data) ∧
          doc.dataList[k]? = some data ∧
          cols = (List.range fields.numOfVectors.toNat).map (fun j =>
            sampleColumn le r.buf names.type fields.numOfVariables 1
              (vectorStart names.type fields.numOfVariables fields.numOfVectors.toNat)
              (numOfRows true r.offset
                (numOfColumnsOf names.type fields.numOfVectors fields.numOfVariables)).toNat j
              (vectorStart names.type fields.numOfVariables j)) ∧
          ∀ raw, raw.drop 4 = r.buf.drop 4 →
            fillArrays host le raw r.offset true fields.numOfVariables names.type
              fields.numOfVectors = some (some cols) := by
  obtain ⟨hd, fields, names, sweep, sweepSize, mem, t, hh, _, hf, hn, hsw, ht, hok, rfl⟩ :=
    HSpiceRead_success host le f doc h
  rcases hsw with ⟨h1, sr, hsr, rfl, rfl, rfl⟩ | ⟨_, rfl, _⟩
  · simp only [Option.map_some', Option.some.injEq, Prod.mk.injEq] at hs
    obtain ⟨rfl, rfl⟩ := hs
    obtain ⟨l1, _, l3, l4⟩ := readTables_success host le true fields.numOfVariables
      names.type fields.numOfVectors (cstr sr.mem names.token) (names.name.map (cstr sr.mem))
      sr.sweepSize.toNat hd.f [] [] t ht hok
    obtain ⟨_, _, hpos, _⟩ := getSweepInfo_frame host names.mem names.save sr hsr
    simp only [List.length_nil, Nat.zero_add, if_true] at l1 l3 l4
    refine ⟨hd, fields, names, sr, hh, hf, hn, h1, hsr, rfl, ?_, by simp only; omega,
      fun k hk => ?_⟩
    · rw [l3]
      exact Int.toNat_of_nonneg hpos
    · obtain ⟨tk, r, cols, data, m1, m2, m3, _, m5, _, _, _, m9, m10, m11, m12, _⟩ :=
        l4 k (by omega)
      refine ⟨tk, r, cols, data, m1, m2, m3, m5, m12 trivial, m9, m10, m11, ?_, fun raw hraw => ?_⟩
      · have := fillArrays_spec host le r.buf r.offset true fields.numOfVariables names.type
          fields.numOfVectors cols m9
        simpa only [if_true] using this
      · rw [fillArrays_congr host le r.buf raw r.offset fields.numOfVariables names.type
          fields.numOfVectors hraw]
        exact m9
  · simp at hs

set_option maxRecDepth 1000000 in
/-- C20 at the example file with a sweep of two points: the sweep values are `1` and `2`,
the first floats of the two data blocks. -/
theorem sweep_values_witness :
    exampleSweepDocument.sweep = some ([116, 101, 109, 112, 101, 114], [1065353216, 1073741824]) ∧
    floatAt true exampleTableBlock.payload 0 = 1065353216 ∧
    floatAt true exampleSecondTableBlock.payload 0 = 1073741824 ∧
    ∃ (hd : BlockRead) (fields : HeaderFields) (names : VectorNames) (sr : SweepRead),
      readHeaderBlocks Host.ideal true (exampleSweepFile.length + 1) exampleSweepFile [] 0 =
        some hd ∧
      getSweepInfo Host.ideal names.mem names.save = some (some sr) ∧
      (([1065353216, 1073741824] : List Nat).length : Int) = sr.sweepSize ∧
      ∀ k, k < ([1065353216, 1073741824] : List Nat).length →
        ∃ (tk : TablesRead) (r : BlockRead),
          readTables Host.ideal true true fields.numOfVariables names.type fields.numOfVectors
            (cstr sr.mem names.token) (names.name.map (cstr sr.mem)) k hd.f [] [] = some tk ∧
          readDataBlocks Host.ideal true (tk.f.length + 1) tk.f [] 0 = some r ∧
          ([1065353216, 1073741824] : List Nat)[k]? = some (floatAt true r.buf 0) := by
  obtain ⟨hd, fields, names, sr, h1, _, _, _, h5, _, h7, _, h9⟩ :=
    sweep_values Host.ideal true exampleSweepFile exampleSweepDocument
      [116, 101, 109, 112, 101, 114] [1065353216, 1073741824] (by decide) rfl
  refine ⟨rfl, by decide, by decide, hd, fields, names, sr, h1, h5, h7, fun k hk => ?_⟩
  obtain ⟨tk, r, _, _, a1, _, _, a4, a5, _⟩ := h9 k hk
  exact ⟨tk, r, a1, a4, a5⟩

/-! ## The scan for the end of the title (C22) -/

/-- The floats of a row before a vector are no more than those before a later vector. -/
theorem vectorStart_mono (type nv : Int) (j : Nat) :
    ∀ m, vectorStart type nv j ≤ vectorStart type nv (j + m)
  | 0 => Nat.le_refl _
  | m + 1 => by
    have := vectorStart_mono type nv j m
    have e : j + (m + 1) = (j + m) + 1 := by omega
    rw [e]
    simp only [vectorStart]
    omega

/-- A vector takes one float of a row or two. -/
theorem vectorWidth_pos (type nv : Int) (j : Nat) :
    1 ≤ vectorWidth type nv j ∧
    vectorStart type nv (j + 1) = vectorStart type nv j + vectorWidth type nv j := by
  refine ⟨?_, rfl⟩
  unfold vectorWidth
  split_ifs <;> omega

/-- One pass of the inner loop of the copy reads inside `rawData` when the row ends inside
it. -/
theorem saveRow_total (le : Bool) (raw : List Byte) (offset : Nat) (type nv : Int)
    (start stride rows : Nat) :
    ∀ (m j : Nat), start + rows * stride + vectorStart type nv (j + m) ≤ offset →
      saveRow le raw offset type nv
        ((List.range m).map fun t =>
          sampleColumn le raw type nv start stride rows (j + t) (vectorStart type nv (j + t)))
        j (start + rows * stride + vectorStart type nv j) =
      some ((List.range m).map fun t =>
          sampleColumn le raw type nv start stride (rows + 1) (j + t)
            (vectorStart type nv (j + t)),
        start + rows * stride + vectorStart type nv (j + m))
  | 0, j, _ => by
    simp only [List.range_zero, List.map_nil, saveRow, Nat.add_zero]
  | m + 1, j, hb => by
    have hsome : ∃ x, saveRow le raw offset type nv
        ((List.range (m + 1)).map fun t =>
          sampleColumn le raw type nv start stride rows (j + t) (vectorStart type nv (j + t)))
        j (start + rows * stride + vectorStart type nv j) = some x := by
      have hr : ∀ (g : Nat → Column), (List.range (m + 1)).map g =
          g 0 :: (List.range m).map fun t => g (t + 1) := fun g => by
        rw [List.range_succ_eq_map, List.map_cons, List.map_map]
        rfl
      have hshift : ((List.range m).map fun t =>
          sampleColumn le raw type nv start stride rows (j + (t + 1))
            (vectorStart type nv (j + (t + 1)))) =
          (List.range m).map fun t =>
            sampleColumn le raw type nv start stride rows (j + 1 + t)
              (vectorStart type nv (j + 1 + t)) := by
        apply List.map_congr_left
        intro t _
        rw [Nat.add_assoc, Nat.add_comm 1 t]
      have hm : j + (m + 1) = j + 1 + m := by omega
      rw [hm] at hb
      have hmono := vectorStart_mono type nv (j + 1) m
      have ih := saveRow_total le raw offset type nv start stride rows m (j + 1) hb
      rw [hr, hshift]
      simp only [Nat.add_zero]
      by_cases hc : isComplexVector type nv j = true
      · have hw : vectorStart type nv (j + 1) = vectorStart type nv j + 2 := by
          simp [vectorStart, vectorWidth, hc]
        have hhead : sampleColumn le raw type nv start stride rows j (vectorStart type nv j) =
            Column.complex ((List.range rows).map fun i =>
              (floatAt le raw (start + i * stride + vectorStart type nv j),
                floatAt le raw (start + i * stride + vectorStart type nv j + 1))) := by
          simp only [sampleColumn, hc, if_true]
        rw [hhead]
        simp only [saveRow, hc]
        rw [if_pos (by omega)]
        have e : start + rows * stride + vectorStart type nv j + 2 =
            start + rows * stride + vectorStart type nv (j + 1) := by omega
        rw [e, ih]
        exact ⟨_, rfl⟩
      · have hc' : isComplexVector type nv j = false := by simpa using hc
        have hw : vectorStart type nv (j + 1) = vectorStart type nv j + 1 := by
          simp [vectorStart, vectorWidth, hc']
        have hhead : sampleColumn le raw type nv start stride rows j (vectorStart type nv j) =
            Column.real ((List.range rows).map fun i =>
              floatAt le raw (start + i * stride + vectorStart type nv j)) := by
          simp only [sampleColumn, hc', Bool.false_eq_true, if_false]
        rw [hhead]
        simp only [saveRow, hc']
        rw [if_pos (by omega)]
        have e : start + rows * stride + vectorStart type nv j + 1 =
            start + rows * stride + vectorStart type nv (j + 1) := by omega
        rw [e, ih]
        exact ⟨_, rfl⟩
    obtain ⟨x, hx⟩ := hsome
    rw [hx, saveRow_spec le raw offset type nv start stride rows (m + 1) j x hx]

/-- The outer loop of the copy reads inside `rawData` when its last row ends inside it. -/
theorem saveRows_total (le : Bool) (raw : List Byte) (offset : Nat) (type nv : Int)
    (start m : Nat) :
    ∀ (n rows : Nat), start + (rows + n) * vectorStart type nv m ≤ offset →
      saveRows le raw offset type nv n
        ((List.range m).map fun t =>
          sampleColumn le raw type nv start (vectorStart type nv m) rows t
            (vectorStart type nv t))
        (start + rows * vectorStart type nv m) =
      some ((List.range m).map fun t =>
        sampleColumn le raw type nv start (vectorStart type nv m) (rows + n) t
          (vectorStart type nv t))
  | 0, rows, _ => by simp only [saveRows, Nat.add_zero]
  | n + 1, rows, hb => by
    have e1 : start + (rows + (n + 1)) * vectorStart type nv m =
        start + (rows + 1 + n) * vectorStart type nv m := by
      rw [Nat.add_assoc rows 1 n, Nat.add_comm 1 n]
    have e2 : start + (rows + 1) * vectorStart type nv m =
        start + rows * vectorStart type nv m + vectorStart type nv m := by
      rw [Nat.add_mul, Nat.one_mul, Nat.add_assoc]
    have hle : start + (rows + 1) * vectorStart type nv m ≤
        start + (rows + 1 + n) * vectorStart type nv m :=
      Nat.add_le_add_left (Nat.mul_le_mul_right _ (by omega)) _
    have h1 := saveRow_total le raw offset type nv start (vectorStart type nv m) rows m 0
      (by rw [Nat.zero_add, ← e2]; rw [e1] at hb; omega)
    simp only [Nat.zero_add] at h1
    have h1' : saveRow le raw offset type nv
        ((List.range m).map fun t =>
          sampleColumn le raw type nv start (vectorStart type nv m) rows t
            (vectorStart type nv t))
        0 (start + rows * vectorStart type nv m) = _ := h1
    simp only [saveRows, h1', Option.some_bind]
    rw [← e2, saveRows_total le raw offset type nv start m n (rows + 1) (by rw [← e1]; exact hb)]
    have e3 : rows + 1 + n = rows + (n + 1) := by omega
    rw [e3]

/-- The rows counted lie before the last float of the buffer, after the sweep value if
there is one. -/
theorem numOfRows_bound (sweep : Bool) (offset : Nat) (ncols : Int) (hc : 1 ≤ ncols)
    (ho : (if sweep then 2 else 1) ≤ offset) :
    (if sweep then 1 else 0) + (numOfRows sweep offset ncols).toNat * ncols.toNat ≤
      offset - 1 := by
  lift ncols to ℕ using (by omega : 0 ≤ ncols)
  have hw : sizeT (ncols : Int) = ncols := by
    unfold sizeT
    rw [if_neg (by omega)]
    exact Int.toNat_ofNat _
  have hwrap : ∀ q : Nat, (wrapInt32 (q : Int)).toNat ≤ q := fun q => by
    unfold wrapInt32
    omega
  have hmul : ∀ x : Nat, (wrapInt32 ((x / ncols : Nat) : Int)).toNat * ncols ≤ x := fun x =>
    Nat.le_trans (Nat.mul_le_mul_right _ (hwrap _)) (Nat.div_mul_le_self _ _)
  rw [Int.toNat_ofNat]
  unfold numOfRows
  cases sweep with
  | true =>
    simp only [if_true] at ho ⊢
    have e : sizeT ((offset : Int) - 2) = offset - 2 := by
      unfold sizeT
      rw [if_neg (by omega)]
      omega
    rw [e, hw]
    have := hmul (offset - 2)
    omega
  | false =>
    simp only [Bool.false_eq_true, if_false] at ho ⊢
    have e : sizeT ((offset : Int) - 1) = offset - 1 := by
      unfold sizeT
      rw [if_neg (by omega)]
      omega
    rw [e, hw]
    have := hmul (offset - 1)
    omega

/-- With at least one variable, no more variables than vectors, and a buffer that holds
the floats left out of the rows, `readTable` turns `rawData` into arrays without reading
outside it: it fails if an array cannot be created, and fills the arrays otherwise. -/
theorem fillArrays_eq (host : Host) (le : Bool) (raw : List Byte) (offset : Nat)
    (sweep : Bool) (nv type nvec : Int) (h1 : 1 ≤ nv) (h2 : nv ≤ nvec)
    (ho : (if sweep then 2 else 1) ≤ offset) :
    fillArrays host le raw offset sweep nv type nvec =
      some ((newArrays host type nv (numOfRows sweep offset (numOfColumnsOf type nvec nv))
        nvec.toNat 0).map fun _ =>
          (List.range nvec.toNat).map fun j =>
            sampleColumn le raw type nv (if sweep then 1 else 0)
              (numOfColumnsOf type nvec nv).toNat
              (numOfRows sweep offset (numOfColumnsOf type nvec nv)).toNat j
              (vectorStart type nv j)) := by
  have hcol : 1 ≤ numOfColumnsOf type nvec nv := by
    unfold numOfColumnsOf
    split_ifs <;> omega
  have hb := numOfRows_bound sweep offset _ hcol ho
  have hW := vectorStart_total type nv nvec h1 h2
  unfold fillArrays
  dsimp only
  rw [if_neg (by omega)]
  cases hna : newArrays host type nv (numOfRows sweep offset (numOfColumnsOf type nvec nv))
      nvec.toNat 0 with
  | none => rfl
  | some tmpArray =>
    dsimp only
    have e := newArrays_spec host type nv _ le raw (if sweep then 1 else 0)
      (vectorStart type nv nvec.toNat) nvec.toNat 0 tmpArray hna
    simp only [Nat.zero_add] at e
    subst e
    have := saveRows_total le raw offset type nv (if sweep then 1 else 0) nvec.toNat
      (numOfRows sweep offset (numOfColumnsOf type nvec nv)).toNat 0
      (by rw [Nat.zero_add, hW]; omega)
    simp only [Nat.zero_mul, Nat.add_zero, Nat.zero_add] at this
    rw [this, hW]
    rfl

/-- C23. For every table with at least one variable and no more variables than vectors,
and a sample buffer of at least one float, of at least two with a sweep: one pass of the
inner loop of the copy takes `numOfColumns` floats, and the rows counted, `numOfColumns`
floats each, end before the last float of the buffer. The copy does not read outside the
buffer: `readTable` fails if an array cannot be created, and fills the arrays otherwise.
Every float it reads has an index of at most `offset - 2`, and the arrays are the same
for every buffer with the same floats up to that index: the last float, the end mark, is
in no vector. Without the precondition this fails: with complex variables and
`numOfVariables = 0`, two vectors take two floats of a row while `numOfColumns` is `1`,
and the copy of a buffer of four floats reads outside it. -/
theorem walk_within_buffer (host : Host) (le : Bool) (raw : List Byte) (offset : Nat)
    (sweep : Bool) (nv type nvec : Int) (h1 : 1 ≤ nv) (h2 : nv ≤ nvec)
    (ho : (if sweep then 2 else 1) ≤ offset) :
    (∀ (num : Int) (tmpArray : List Column) (pos : Nat) (x : List Column × Nat),
      newArrays host type nv num nvec.toNat 0 = some tmpArray →
      saveRow le raw offset type nv tmpArray 0 pos = some x →
      x.2 = pos + (numOfColumnsOf type nvec nv).toNat) ∧
    (if sweep then 1 else 0) +
      (numOfRows sweep offset (numOfColumnsOf type nvec nv)).toNat *
        (numOfColumnsOf type nvec nv).toNat ≤ offset - 1 ∧
    fillArrays host le raw offset sweep nv type nvec =
      some ((newArrays host type nv (numOfRows sweep offset (numOfColumnsOf type nvec nv))
        nvec.toNat 0).map fun _ =>
          (List.range nvec.toNat).map fun j =>
            sampleColumn le raw type nv (if sweep then 1 else 0)
              (numOfColumnsOf type nvec nv).toNat
              (numOfRows sweep offset (numOfColumnsOf type nvec nv)).toNat j
              (vectorStart type nv j)) ∧
    (∀ j, j < nvec.toNat →
      ∀ i, i < (numOfRows sweep offset (numOfColumnsOf type nvec nv)).toNat →
        (if sweep then 1 else 0) + i * (numOfColumnsOf type nvec nv).toNat +
          vectorStart type nv j + vectorWidth type nv j - 1 ≤ offset - 2) ∧
    (∀ raw', (∀ p, p ≤ offset - 2 → floatAt le raw' p = floatAt le raw p) →
      fillArrays host le raw' offset sweep nv type nvec =
        fillArrays host le raw offset sweep nv type nvec) ∧
    (numOfColumnsOf complex_var 2 0 = 1 ∧
      (saveRow le raw 4 complex_var 0 [Column.real [], Column.real []] 0 0).map
        (fun x => x.2) = some 2 ∧
      fillArrays Host.ideal le raw 4 false 0 complex_var 2 = none) := by
  have hcol : 1 ≤ numOfColumnsOf type nvec nv := by
    unfold numOfColumnsOf
    split_ifs <;> omega
  have hb := numOfRows_bound sweep offset _ hcol ho
  have hW := vectorStart_total type nv nvec h1 h2
  have hidx : ∀ j, j < nvec.toNat →
      ∀ i, i < (numOfRows sweep offset (numOfColumnsOf type nvec nv)).toNat →
        (if sweep then 1 else 0) + i * (numOfColumnsOf type nvec nv).toNat +
          vectorStart type nv j + vectorWidth type nv j ≤ offset - 1 := fun j hj i hi => by
    have hm := vectorStart_mono type nv (j + 1) (nvec.toNat - (j + 1))
    have e : j + 1 + (nvec.toNat - (j + 1)) = nvec.toNat := by omega
    rw [e, hW] at hm
    have hw := (vectorWidth_pos type nv j).2
    have hrows : (i + 1) * (numOfColumnsOf type nvec nv).toNat ≤
        (numOfRows sweep offset (numOfColumnsOf type nvec nv)).toNat *
          (numOfColumnsOf type nvec nv).toNat := Nat.mul_le_mul_right _ (by omega)
    rw [Nat.add_mul, Nat.one_mul] at hrows
    omega
  refine ⟨fun num tmpArray pos x hna hx => ?_, hb,
    fillArrays_eq host le raw offset sweep nv type nvec h1 h2 ho, fun j hj i hi => ?_,
    fun raw' hraw => ?_, ?_⟩
  · have e := newArrays_spec host type nv num le raw pos 0 nvec.toNat 0 tmpArray hna
    subst e
    have := saveRow_spec le raw offset type nv pos 0 0 nvec.toNat 0 x
      (by simpa only [Nat.zero_mul, Nat.add_zero, vectorStart] using hx)
    rw [this]
    simp only [Nat.zero_mul, Nat.add_zero, Nat.zero_add, hW]
  · have := hidx j hj i hi
    have := (vectorWidth_pos type nv j).1
    omega
  · rw [fillArrays_eq host le raw offset sweep nv type nvec h1 h2 ho,
      fillArrays_eq host le raw' offset sweep nv type nvec h1 h2 ho]
    congr 2
    funext _
    apply List.map_congr_left
    intro j hj
    have hj' : j < nvec.toNat := List.mem_range.mp hj
    unfold sampleColumn
    by_cases hc : isComplexVector type nv j = true
    · have hw : vectorWidth type nv j = 2 := by simp [vectorWidth, hc]
      simp only [hc, if_true]
      congr 1
      apply List.map_congr_left
      intro i hi
      have := hidx j hj' i (List.mem_range.mp hi)
      rw [hw] at this
      rw [hraw _ (by omega), hraw _ (by omega)]
    · have hc' : isComplexVector type nv j = false := by simpa using hc
      have hw : vectorWidth type nv j = 1 := by simp [vectorWidth, hc']
      simp only [hc', Bool.false_eq_true, if_false]
      congr 1
      apply List.map_congr_left
      intro i hi
      have := hidx j hj' i (List.mem_range.mp hi)
      rw [hw] at this
      rw [hraw _ (by omega)]
  · refine ⟨by decide, ?_, ?_⟩
    · simp [saveRow, isComplexVector, complex_var]
    · simp [fillArrays, numOfColumnsOf, numOfRows, sizeT, wrapInt32, newArrays, Host.ideal,
        isComplexVector, complex_var, saveRows, saveRow]

/-- C23 at a buffer of 17 floats read as a table of a frequency analysis with two
variables and one probe, without a sweep: four rows of four floats; the last float read
has the index 15. -/
theorem walk_within_buffer_witness :
    (numOfColumnsOf complex_var 3 2).toNat = 4 ∧
    (numOfRows false 17 (numOfColumnsOf complex_var 3 2)).toNat = 4 ∧
    (0 + (numOfRows false 17 (numOfColumnsOf complex_var 3 2)).toNat *
      (numOfColumnsOf complex_var 3 2).toNat ≤ 17 - 1) ∧
    fillArrays Host.ideal true exampleTableBlock.payload 17 false 2 complex_var 3 =
      fillArrays Host.ideal true (exampleTableBlock.payload.take 64 ++ [0, 0, 0, 0]) 17 false
        2 complex_var 3 :=
  have h := walk_within_buffer Host.ideal true (exampleTableBlock.payload.take 64 ++ [0, 0, 0, 0])
    17 false 2 complex_var 3 (by decide) (by decide) (by decide)
  ⟨by decide, by decide, h.2.1,
    h.2.2.2.2.1 exampleTableBlock.payload (fun p hp => by
      have hp' : p ≤ 15 := hp
      interval_cases p <;> decide)⟩

/-! ## The check of the post format on a terminated buffer (C13) -/

/-- The comparison with a string literal without a zero byte, in a buffer that ends with a
terminator, from a position up to the terminator: whether the bytes at the position are
those of the literal. The comparison stops at the terminator at the latest. -/
theorem strncmpEq_terminated (text : List Byte) :
    ∀ (s : List Byte) (p : Nat), (∀ x ∈ s, x ≠ 0) → p ≤ text.length →
      strncmpEq (text ++ [0]) p s =
        some (decide (((text ++ [0]).drop p).take s.length = s)) := by
  intro s
  induction s with
  | nil => intro p _ _; simp [strncmpEq]
  | cons c cs ih =>
    intro p hs hp
    have hlt : p < (text ++ [0]).length := by simp; omega
    have hd : (text ++ [0]).drop p = (text ++ [0])[p] :: (text ++ [0]).drop (p + 1) :=
      List.drop_eq_getElem_cons hlt
    rw [strncmpEq, List.getElem?_eq_getElem hlt]
    simp only [List.length_cons, hd, List.take_succ_cons, List.cons.injEq]
    by_cases hc : (text ++ [0])[p] = c
    · have hc0 : c ≠ 0 := hs c (List.mem_cons_self _ _)
      have hpn : p < text.length := by
        by_contra hge
        have hpe : p = text.length := by omega
        subst hpe
        have : (text ++ [0])[text.length] = 0 := by simp
        exact hc0 (hc ▸ this)
      rw [if_pos hc, ih (p + 1) (fun x hx => hs x (List.mem_cons_of_mem _ hx)) (by omega)]
      simp [hc]
    · rw [if_neg hc]
      simp [hc]

/-- The marks of the post format hold no zero byte. -/
theorem postString_ne_zero :
    (∀ x ∈ postString11, x ≠ 0) ∧ (∀ x ∈ postString12, x ≠ 0) ∧ ∀ x ∈ postString21, x ≠ 0 := by
  refine ⟨fun x hx => ?_, fun x hx => ?_, fun x hx => ?_⟩
  · simp only [postString11, List.mem_cons, List.mem_singleton, List.mem_nil_iff,
      or_false] at hx
    rcases hx with rfl | rfl | rfl | rfl <;> decide
  · simp only [postString12, List.mem_cons, List.mem_singleton, List.mem_nil_iff,
      or_false] at hx
    rcases hx with rfl | rfl | rfl | rfl <;> decide
  · simp only [postString21, List.mem_cons, List.mem_singleton, List.mem_nil_iff,
      or_false] at hx
    rcases hx with rfl | rfl | rfl | rfl <;> decide

/-- The check of the post format on a header text of at least 20 bytes, in its buffer. -/
theorem unknownPostFormat_terminated (text : List Byte) (hlen : 20 ≤ text.length) :
    unknownPostFormat (text ++ [0]) =
      some (!decide ((((text ++ [0]).drop 16).take 4 = postString11 ∨
        ((text ++ [0]).drop 16).take 4 = postString12 ∨
        ((text ++ [0]).drop 20).take 4 = postString21))) := by
  have h11 := strncmpEq_terminated text postString11 postStartPosition1 postString_ne_zero.1
    (by simp only [postStartPosition1]; omega)
  have h12 := strncmpEq_terminated text postString12 postStartPosition1 postString_ne_zero.2.1
    (by simp only [postStartPosition1]; omega)
  have h21 := strncmpEq_terminated text postString21 postStartPosition2 postString_ne_zero.2.2
    (by simp only [postStartPosition2]; omega)
  have l11 : postString11.length = 4 := rfl
  have l12 : postString12.length = 4 := rfl
  have l21 : postString21.length = 4 := rfl
  rw [l11] at h11
  rw [l12] at h12
  rw [l21] at h21
  simp only [postStartPosition1, postStartPosition2] at h11 h12 h21
  simp only [unknownPostFormat, postStartPosition1, postStartPosition2, h11, h12, h21,
    Option.some_bind]
  by_cases a : ((text ++ [0]).drop 16).take 4 = postString11
  · simp [a]
  · by_cases b : ((text ++ [0]).drop 16).take 4 = postString12
    · simp [a, b]
    · by_cases c : ((text ++ [0]).drop 20).take 4 = postString21 <;> simp [a, b, c]

/-- A region of four bytes that holds the terminator of the buffer, or ends before its
fourth byte, is none of the marks of the post format. -/
theorem region_short (text : List Byte) (p : Nat) (s : List Byte) (hs : ∀ x ∈ s, x ≠ 0)
    (hl : s.length = 4) (hp : text.length < p + 4) :
    ((text ++ [0]).drop p).take 4 ≠ s := by
  intro h
  by_cases hin : p ≤ text.length
  · have hk := getElem?_of_region (text ++ [0]) p 4 s h (text.length - p) (by omega)
    have e : p + (text.length - p) = text.length := by omega
    rw [e] at hk
    have h0 : (text ++ [0])[text.length]? = some 0 := by simp
    rw [h0] at hk
    have hlt : text.length - p < s.length := by omega
    rw [List.getElem?_eq_getElem hlt] at hk
    exact hs _ (List.getElem_mem _) (Option.some.inj hk).symm
  · have : (((text ++ [0]).drop p).take 4).length = 0 := by
      simp
      omega
    rw [h, hl] at this
    omega

/-- The check of the post format on a header text of less than 20 bytes reads outside the
buffer. -/
theorem unknownPostFormat_short (text : List Byte) (hlen : text.length < 20) :
    unknownPostFormat (text ++ [0]) = none := by
  have hout : ∀ (p : Nat) (c : Byte) (cs : List Byte), text.length < p →
      strncmpEq (text ++ [0]) p (c :: cs) = none := fun p c cs hp => by
    rw [strncmpEq, List.getElem?_eq_none (by simp; omega)]
  by_cases h16 : text.length < 16
  · simp only [unknownPostFormat, postStartPosition1, postString11]
    rw [hout 16 _ _ h16]
    rfl
  · have h11 := strncmpEq_terminated text postString11 postStartPosition1 postString_ne_zero.1
      (by simp only [postStartPosition1]; omega)
    have h12 := strncmpEq_terminated text postString12 postStartPosition1 postString_ne_zero.2.1
      (by simp only [postStartPosition1]; omega)
    have n11 := region_short text 16 postString11 postString_ne_zero.1 rfl (by omega)
    have n12 := region_short text 16 postString12 postString_ne_zero.2.1 rfl (by omega)
    have l11 : postString11.length = 4 := rfl
    have l12 : postString12.length = 4 := rfl
    rw [l11] at h11
    rw [l12] at h12
    simp only [postStartPosition1] at h11 h12
    simp only [unknownPostFormat, postStartPosition1, postStartPosition2, h11, h12, n11, n12,
      decide_False, Option.some_bind, Bool.false_eq_true, if_false, postString21]
    rw [hout 20 _ _ hlen]
    rfl

/-- C13, amended. For every complete header text of at least 20 bytes, in its buffer with
the terminator after it: the check of the post format lets the header pass if and only if
bytes 16..19 are `"9007"` or `"9601"`, or bytes 20..23 are `"2001"`; every other such
header text fails there: no field is read from it, and `HSpiceRead` returns no value for
a file with this header, whatever follows the header blocks. On a header text of less
than 20 bytes the check reads outside the buffer: its result is undefined, and so is that
of `HSpiceRead`. -/
theorem post_format_check (host : Host) (text : List Byte) :
    (20 ≤ text.length →
      (unknownPostFormat (text ++ [0]) = some false ↔
        (((text ++ [0]).drop 16).take 4 = postString11 ∨
          ((text ++ [0]).drop 16).take 4 = postString12 ∨
          ((text ++ [0]).drop 20).take 4 = postString21)) ∧
      (unknownPostFormat (text ++ [0]) = some true ↔
        ¬ (((text ++ [0]).drop 16).take 4 = postString11 ∨
          ((text ++ [0]).drop 16).take 4 = postString12 ∨
          ((text ++ [0]).drop 20).take 4 = postString21)) ∧
      (unknownPostFormat (text ++ [0]) = some true →
        readFields host (text ++ [0]) = some none ∧
        ∀ (le : Bool) (f : List Byte) (hd : BlockRead),
          readHeaderBlocks host le (f.length + 1) f [] 0 = some hd → hd.buf = text ++ [0] →
          HSpiceRead host le f = some none)) ∧
    (text.length < 20 →
      unknownPostFormat (text ++ [0]) = none ∧ readFields host (text ++ [0]) = none ∧
      ∀ (le : Bool) (b : Byte) (f : List Byte) (hd : BlockRead), asciiFormat b = false →
        readHeaderBlocks host le ((b :: f).length + 1) (b :: f) [] 0 = some hd → hd.ret ≤ 0 →
        hd.buf = text ++ [0] → HSpiceRead host le (b :: f) = none) := by
  refine ⟨fun hlen => ?_, fun hlen => ?_⟩
  · have h := unknownPostFormat_terminated text hlen
    refine ⟨?_, ?_, fun hu => ?_⟩
    · by_cases hp : ((text ++ [0]).drop 16).take 4 = postString11 ∨
          ((text ++ [0]).drop 16).take 4 = postString12 ∨
          ((text ++ [0]).drop 20).take 4 = postString21 <;> simp [h, hp]
    · by_cases hp : ((text ++ [0]).drop 16).take 4 = postString11 ∨
          ((text ++ [0]).drop 16).take 4 = postString12 ∨
          ((text ++ [0]).drop 20).take 4 = postString21 <;> simp [h, hp]
    · have hf : readFields host (text ++ [0]) = some none := by
        rw [readFields, hu]
        rfl
      refine ⟨hf, fun le f hd hh hb => ?_⟩
      rw [← hb] at hf
      exact HSpiceRead_fields_fail host le f hd hh hf
  · have hu := unknownPostFormat_short text hlen
    have hf : readFields host (text ++ [0]) = none := by
      rw [readFields, hu]
      rfl
    refine ⟨hu, hf, fun le b f hd hb hh hret hbuf => ?_⟩
    rw [HSpiceRead]
    have hb' : ¬ b.val % 256 ≥ 32 := by
      unfold asciiFormat at hb
      simpa using hb
    rw [if_neg hb', hh, Option.some_bind, if_neg (by omega), hbuf, hf]
    rfl

set_option maxRecDepth 1000000 in
/-- C13 at the example header, of the post format `9601`, at the same header with the
mark changed to `9602`, and at a header text of 19 bytes. -/
theorem post_format_check_witness :
    unknownPostFormat (exampleHeaderText ++ [0]) = some false ∧
    readFields Host.ideal (exampleHeaderText.set 19 50 ++ [0]) = some none ∧
    unknownPostFormat (exampleHeaderText.take 19 ++ [0]) = none :=
  ⟨((post_format_check Host.ideal exampleHeaderText).1 (by decide)).1.2 (by decide),
    (((post_format_check Host.ideal (exampleHeaderText.set 19 50)).1 (by decide)).2.2
      (by decide)).1,
    ((post_format_check Host.ideal (exampleHeaderText.take 19)).2 (by decide)).1⟩

set_option maxRecDepth 1000000 in
/-- C13 as stated fails. The text `"$&%#"` is a complete header text: the loop over the
header blocks ends with it. The check of the post format reads `buf[16]` outside its
buffer of five bytes: the decoding neither proceeds past the check nor fails there, its
result is undefined. -/
theorem post_format_check_counterexample :
    (readHeaderBlocks Host.ideal true (exampleBlock.bytes.length + 1) exampleBlock.bytes [] 0
      ).map (fun r => (r.ret, r.buf)) = some (-1, headerEndMark ++ [0]) ∧
    unknownPostFormat (headerEndMark ++ [0]) = none ∧
    readFields Host.ideal (headerEndMark ++ [0]) = none ∧
    HSpiceRead Host.ideal true exampleBlock.bytes = none := by
  decide

/-! ## Header texts that are too short (C12, C22) -/

set_option maxRecDepth 1000000 in
/-- C12 as stated fails. The header text of 40 bytes is complete, has the post format
`9601` and the number of sweeps `2`. The field of the number of sweeps is not reached: the
terminator of the date, `buf[112] = 0`, is written outside the buffer of 41 bytes, and the
result of the decoding is undefined, not the failure. -/
theorem sweep_count_check_counterexample :
    atoiStr ((((exampleShortHeaderText ++ [0]).drop numOfSweepsPosition).take 4).takeWhile
      notNul) = some 2 ∧
    (readHeaderBlocks Host.ideal true (exampleShortFileHeader.bytes.length + 1)
      exampleShortFileHeader.bytes [] 0).map (fun r => (r.ret, r.buf)) =
        some (-1, exampleShortHeaderText ++ [0]) ∧
    unknownPostFormat (exampleShortHeaderText ++ [0]) = some false ∧
    writeByte (exampleShortHeaderText ++ [0]) dateEndPosition 0 = none ∧
    readFields Host.ideal (exampleShortHeaderText ++ [0]) = none ∧
    HSpiceRead Host.ideal true exampleShortFileHeader.bytes = none := by
  decide

end HSpice
